import Mathlib

/-!
# Adaptive sampler of rayrender (`src/adaptivesampler.h`)

A shallow embedding of `struct pixel_block` and `class adaptive_sampler`, followed by the
properties of the region partition, of the convergence test and of the finalisation passes.

Conventions of the embedding.

* `size_t` and `int` coordinates are natural numbers; every coordinate is taken to fit an `int`,
  so the conversions between `int` loop counters and `size_t` bounds keep the value.  The two
  places where unsigned arithmetic is visible are modelled explicitly: the `size_t` subtraction
  in the size test of `split_remove_chunks` (`szSub`) and the conversion of the `int`
  `min_adaptive_size` to `size_t` in the same test (`toSizeT`), both for a 64-bit `size_t`.
* The `double` cells of a `NumericMatrix` and the `float` configuration values are exact
  rationals.  The `Float` values computed by `test_for_convergence` are exact rationals or NaN
  (`Flt`): `std::sqrt` of a negative number is NaN, NaN spreads through the arithmetic, and
  every comparison with NaN is false.  On non-negative numbers `std::sqrt` is a parameter
  `sqrtF`; the theorems that need it assume only that it is non-negative.  Rounding and
  infinities are outside the embedding.  Division by zero has no counterpart in the rationals,
  so the theorems about calls that divide by the round count `s` carry the hypothesis `1 <= s`
  of the properties, also where the proof over the rationals does not use it, and the values
  that `write_final_pixels` leaves are stated for a sample count `ns >= 1`.
* A `for` loop over `[lo, hi)` is a left fold over `loopRange lo hi`; a loop left by `break`
  is a recursive scan returning the coordinate at which it stopped, if any.
* `div_count` is a ghost field: it counts, per pixel, how often a finalisation pass executed
  the division statements `r(i,j) /= ...`.  No code reads it.
-/

namespace Rayrender

/-! ## Data model -/

/-- A value of the type `Float` as `test_for_convergence` computes with it: a number, or
NaN. -/
inductive Flt where
  | val (q : ℚ)
  | nan
deriving DecidableEq

instance : Zero Flt := ⟨Flt.val 0⟩

instance : One Flt := ⟨Flt.val 1⟩

/-- The sum of two `Float` values, NaN when one of them is NaN. -/
def Flt.add : Flt → Flt → Flt
  | Flt.val a, Flt.val b => Flt.val (a + b)
  | _, _ => Flt.nan

/-- The product of two `Float` values, NaN when one of them is NaN. -/
def Flt.mul : Flt → Flt → Flt
  | Flt.val a, Flt.val b => Flt.val (a * b)
  | _, _ => Flt.nan

/-- The quotient of two `Float` values, NaN when one of them is NaN. -/
def Flt.div : Flt → Flt → Flt
  | Flt.val a, Flt.val b => Flt.val (a / b)
  | _, _ => Flt.nan

instance : Add Flt := ⟨Flt.add⟩

instance : Mul Flt := ⟨Flt.mul⟩

instance : Div Flt := ⟨Flt.div⟩

/-- The comparison `a < b` of two `Float` values, false when one of them is NaN. -/
def Flt.lt : Flt → Flt → Prop
  | Flt.val a, Flt.val b => a < b
  | _, _ => False

/-- The comparison `a <= b` of two `Float` values, false when one of them is NaN. -/
def Flt.le : Flt → Flt → Prop
  | Flt.val a, Flt.val b => a ≤ b
  | _, _ => False

instance : LT Flt := ⟨Flt.lt⟩

instance : LE Flt := ⟨Flt.le⟩

instance Flt.decLt (a b : Flt) : Decidable (a < b) :=
  match a, b with
  | Flt.val x, Flt.val y => inferInstanceAs (Decidable (x < y))
  | Flt.val _, Flt.nan => isFalse (fun h => h)
  | Flt.nan, Flt.val _ => isFalse (fun h => h)
  | Flt.nan, Flt.nan => isFalse (fun h => h)

instance Flt.decLe (a b : Flt) : Decidable (a ≤ b) :=
  match a, b with
  | Flt.val x, Flt.val y => inferInstanceAs (Decidable (x ≤ y))
  | Flt.val _, Flt.nan => isFalse (fun h => h)
  | Flt.nan, Flt.val _ => isFalse (fun h => h)
  | Flt.nan, Flt.nan => isFalse (fun h => h)

/-- The function `std::sqrt`: NaN on a negative number and on NaN, the root `sqrtF` of the
number otherwise. -/
def Flt.sqrt (sqrtF : ℚ → ℚ) : Flt → Flt
  | Flt.val a => if a < 0 then Flt.nan else Flt.val (sqrtF a)
  | Flt.nan => Flt.nan

/-- The `struct pixel_block` of the source. -/
structure pixel_block where
  startx : Nat
  starty : Nat
  endx : Nat
  endy : Nat
  split_axis : Nat
  split_pos : Nat
  erase : Bool
  split : Bool
  error : Flt
deriving DecidableEq

/-- The colour triple `vec3` as far as `add_color_main` and `add_color_sec` read it. -/
structure vec3 where
  r : ℚ
  g : ℚ
  b : ℚ

/-- An Rcpp `NumericMatrix`, read and written by `m(i,j)`. -/
abbrev NumericMatrix := Nat → Nat → ℚ

/-- The assignment `m(i,j) = v`. -/
def NumericMatrix.set (m : NumericMatrix) (i j : Nat) (v : ℚ) : NumericMatrix :=
  fun x y => if x = i ∧ y = j then v else m x y

/-- The members of `class adaptive_sampler`, and the ghost counter `div_count`. -/
structure adaptive_sampler where
  nx : Nat
  ny : Nat
  ns : Nat
  max_s : Nat
  debug_channel : Int
  min_variance : ℚ
  min_adaptive_size : Int
  r : NumericMatrix
  g : NumericMatrix
  b : NumericMatrix
  r2 : NumericMatrix
  g2 : NumericMatrix
  b2 : NumericMatrix
  pixel_chunks : List pixel_block
  div_count : Nat → Nat → Nat

/-- The values `lo, lo+1, ..., hi-1` visited by `for(int i = lo; i < hi; i++)`. -/
def loopRange (lo hi : Nat) : List Nat := List.range' lo (hi - lo)

/-- The loop `for(i = lo; i < hi; i++) body`, threading the state. -/
def forRange {σ : Type} (lo hi : Nat) (body : Nat → σ → σ) (st : σ) : σ :=
  (loopRange lo hi).foldl (fun acc i => body i acc) st

/-- The `size_t` subtraction `a - b`, wrapping modulo `2^64`. -/
def szSub (a b : Nat) : Nat := if b ≤ a then a - b else 2 ^ 64 - (b - a)

/-- The conversion of an `int` to `size_t` (modulo `2^64`). -/
def toSizeT (m : Int) : Nat := (m % 2 ^ 64).toNat

/-- The statement `pixel_chunks[k] = f(pixel_chunks[k])`. -/
def modifyAt (f : pixel_block → pixel_block) : List pixel_block → Nat → List pixel_block
  | [], _ => []
  | c :: cs, 0 => f c :: cs
  | c :: cs, k + 1 => c :: modifyAt f cs k

/-- The update of `pixel_chunks[k]` inside the sampler. -/
def adaptive_sampler.modChunk (st : adaptive_sampler) (k : Nat) (f : pixel_block → pixel_block) :
    adaptive_sampler :=
  { st with pixel_chunks := modifyAt f st.pixel_chunks k }

/-! ## The constructor -/

/-- The `pixel_block chunk` built at grid cell `(i, j)` by the constructor. -/
def initChunk (numbercores nx ny i j : Nat) : pixel_block :=
  let nx_chunk := nx / numbercores
  let ny_chunk := ny / numbercores
  let bonus_x := nx - nx_chunk * numbercores
  let bonus_y := ny - ny_chunk * numbercores
  let extra_x := if i = numbercores - 1 then bonus_x else 0
  let extra_y := if j = numbercores - 1 then bonus_y else 0
  { startx := i * nx_chunk, starty := j * ny_chunk,
    endx := (i + 1) * nx_chunk + extra_x, endy := (j + 1) * ny_chunk + extra_y,
    split_axis := 0, split_pos := 0, erase := false, split := false, error := 0 }

/-- The two nested loops of the constructor, pushing one chunk per grid cell. -/
def initChunks (numbercores nx ny : Nat) : List pixel_block :=
  forRange 0 numbercores (fun i chunks =>
    forRange 0 numbercores (fun j chunks => chunks ++ [initChunk numbercores nx ny i j]) chunks) []

/-- The constructor `adaptive_sampler::adaptive_sampler` (named `ctor`: inside the namespace of
the structure its own name would shadow the type). -/
def adaptive_sampler.ctor (numbercores nx ny ns : Nat) (debug_channel : Int)
    (min_variance : ℚ) (min_adaptive_size : Int)
    (r g b r2 g2 b2 : NumericMatrix) : adaptive_sampler :=
  { nx := nx, ny := ny, ns := ns, max_s := 0, debug_channel := debug_channel,
    min_variance := min_variance, min_adaptive_size := min_adaptive_size,
    r := r, g := g, b := b, r2 := r2, g2 := g2, b2 := b2,
    pixel_chunks := initChunks numbercores nx ny,
    div_count := fun _ _ => 0 }

/-! ## The convergence test -/

/-- The index `(i-nx_begin) + (j-ny_begin) * nx_block` into `error_sum`. -/
def errIdx (nx_begin ny_begin nx_block i j : Nat) : Nat :=
  (i - nx_begin) + (j - ny_begin) * nx_block

/-- The assignment `error_sum[idx] = v`. -/
def vecSet {α : Type} (v : Nat → α) (idx : Nat) (x : α) : Nat → α :=
  fun t => if t = idx then x else v t

/-- The body of the first pair of loops of `test_for_convergence` at pixel `(i, j)`: it fills
the cell of `error_sum` and adds it to `error_block`.  When `r(i,j) + g(i,j) + b(i,j)` is
negative, `normalize` is NaN, the test `normalize != 0` holds, and the cell and `error_block`
become NaN. -/
def errBody (sqrtF : ℚ → ℚ) (st : adaptive_sampler) (s : Nat) (N : ℚ) (r_b : Flt)
    (nx_begin ny_begin nx_block i j : Nat) (acc : (Nat → Flt) × Flt) : (Nat → Flt) × Flt :=
  let idx := errIdx nx_begin ny_begin nx_block i j
  let es1 := vecSet acc.1 idx (Flt.val
    (|st.r i j - 2 * st.r2 i j| + |st.g i j - 2 * st.g2 i j| + |st.b i j - 2 * st.b2 i j|))
  let es2 := vecSet es1 idx (es1 idx * (r_b / Flt.val ((s : ℚ) * N)))
  let normalize := Flt.sqrt sqrtF (Flt.val (st.r i j + st.g i j + st.b i j))
  let es3 := if normalize ≠ 0 then vecSet es2 idx (es2 idx / normalize) else es2
  (es3, acc.2 + es3 idx)

/-- The first pair of loops of `test_for_convergence`: the filled `error_sum` and
`error_block`. -/
def errLoop (sqrtF : ℚ → ℚ) (st : adaptive_sampler) (s nx_end nx_begin ny_end ny_begin : Nat) :
    (Nat → Flt) × Flt :=
  let nx_block := nx_end - nx_begin
  let ny_block := ny_end - ny_begin
  let N : ℚ := (nx_block : ℚ) * (ny_block : ℚ)
  let r_b := Flt.sqrt sqrtF (Flt.val (N / ((st.nx : ℚ) * (st.ny : ℚ))))
  forRange nx_begin nx_end (fun i acc =>
    forRange ny_begin ny_end (fun j acc =>
      errBody sqrtF st s N r_b nx_begin ny_begin nx_block i j acc) acc) (fun _ => 0, 0)

/-- The scan over columns `i` (split axis 0): each column adds its cells to `error_half`, and
the scan stops at the first column where `error_half >= error_block/2`. -/
def scanX (error_sum : Nat → Flt) (nx_begin ny_begin ny_end nx_block : Nat) (half : Flt) :
    List Nat → Flt → Option Nat
  | [], _ => none
  | i :: rest, error_half =>
    let eh := forRange ny_begin ny_end
      (fun j acc => acc + error_sum (errIdx nx_begin ny_begin nx_block i j)) error_half
    if eh ≥ half then some i else scanX error_sum nx_begin ny_begin ny_end nx_block half rest eh

/-- The scan over rows `j` (split axis 1). -/
def scanY (error_sum : Nat → Flt) (nx_begin nx_end ny_begin nx_block : Nat) (half : Flt) :
    List Nat → Flt → Option Nat
  | [], _ => none
  | j :: rest, error_half =>
    let eh := forRange nx_begin nx_end
      (fun i acc => acc + error_sum (errIdx nx_begin ny_begin nx_block i j)) error_half
    if eh ≥ half then some j else scanY error_sum nx_begin nx_end ny_begin nx_block half rest eh

/-- The assignment `pixel_chunks[k].split_pos = i` when the scan stopped at `i`; nothing is
assigned when the scan ran to the end of its loop. -/
def setSplitPos (found : Option Nat) (c : pixel_block) : pixel_block :=
  match found with
  | some p => { c with split_pos := p }
  | none => c

/-- The method `adaptive_sampler::test_for_convergence`.  The differences `nx_end-nx_begin`
and `ny_end-ny_begin` are natural-number differences: the method is called with
`nx_begin <= nx_end` and `ny_begin <= ny_end`, the bounds of a region. -/
def test_for_convergence (sqrtF : ℚ → ℚ) (st : adaptive_sampler)
    (k s nx_end nx_begin ny_end ny_begin : Nat) : adaptive_sampler :=
  let nx_block := nx_end - nx_begin
  let filled := errLoop sqrtF st s nx_end nx_begin ny_end ny_begin
  let error_sum := filled.1
  let error_block := filled.2
  let st1 := st.modChunk k (fun c => { c with error := error_block })
  if error_block < Flt.val st.min_variance then
    st1.modChunk k (fun c => { c with erase := true })
  else if error_block < Flt.val (st.min_variance * 256) then
    let st2 := st1.modChunk k (fun c => { c with split := true })
    if nx_end - nx_begin ≥ ny_end - ny_begin then
      let st3 := st2.modChunk k (fun c => { c with split_axis := 0 })
      st3.modChunk k (setSplitPos
        (scanX error_sum nx_begin ny_begin ny_end nx_block (error_block / Flt.val 2)
          (loopRange nx_begin nx_end) 0))
    else
      let st3 := st2.modChunk k (fun c => { c with split_axis := 1 })
      st3.modChunk k (setSplitPos
        (scanY error_sum nx_begin nx_end ny_begin nx_block (error_block / Flt.val 2)
          (loopRange ny_begin ny_end) 0))
  else st1

/-! ## Erasing, splitting and finalising -/

/-- The body of the pixel loops of the erase branch of `split_remove_chunks`. -/
def erasePixel (s i j : Nat) (st : adaptive_sampler) : adaptive_sampler :=
  let st1 := { st with r := st.r.set i j (st.r i j / ((s + 1 : Nat) : ℚ)),
                       div_count := fun x y =>
                         if x = i ∧ y = j then st.div_count x y + 1 else st.div_count x y }
  let st2 := { st1 with g := st1.g.set i j (st1.g i j / ((s + 1 : Nat) : ℚ)) }
  let st3 := { st2 with b := st2.b.set i j (st2.b i j / ((s + 1 : Nat) : ℚ)) }
  if st3.debug_channel = 5 then
    let st4 := { st3 with r := st3.r.set i j (((s + 1 : Nat) : ℚ) / (st3.ns : ℚ)) }
    let st5 := { st4 with g := st4.g.set i j (((s + 1 : Nat) : ℚ) / (st4.ns : ℚ)) }
    { st5 with b := st5.b.set i j (((s + 1 : Nat) : ℚ) / (st5.ns : ℚ)) }
  else st3

/-- The body of the `while` loop of `split_remove_chunks` for the chunk `it`; the state is the
sampler together with `temppixels`. -/
def splitStep (s : Nat) (acc : adaptive_sampler × List pixel_block) (it : pixel_block) :
    adaptive_sampler × List pixel_block :=
  if it.erase then
    (forRange it.startx it.endx (fun i st =>
      forRange it.starty it.endy (fun j st => erasePixel s i j st) st) acc.1, acc.2)
  else if it.split ∧
      szSub it.endx it.startx > toSizeT acc.1.min_adaptive_size ∧
      szSub it.endy it.starty > toSizeT acc.1.min_adaptive_size then
    if it.split_axis = 1 then
      let b1 : pixel_block :=
        { startx := it.startx, starty := it.starty, endx := it.endx, endy := it.split_pos,
          split_axis := 0, split_pos := 0, erase := false, split := false, error := 0 }
      let b2 : pixel_block :=
        { startx := it.startx, starty := it.split_pos, endx := it.endx, endy := it.endy,
          split_axis := 0, split_pos := 0, erase := false, split := false, error := 0 }
      (acc.1, (acc.2 ++ [b1]) ++ [b2])
    else if it.split_axis = 0 then
      let b1 : pixel_block :=
        { startx := it.startx, starty := it.starty, endx := it.split_pos, endy := it.endy,
          split_axis := 0, split_pos := 0, erase := false, split := false, error := 0 }
      let b2 : pixel_block :=
        { startx := it.split_pos, starty := it.starty, endx := it.endx, endy := it.endy,
          split_axis := 0, split_pos := 0, erase := false, split := false, error := 0 }
      (acc.1, (acc.2 ++ [b1]) ++ [b2])
    else acc
  else (acc.1, acc.2 ++ [it])

/-- The method `adaptive_sampler::split_remove_chunks`. -/
def split_remove_chunks (st : adaptive_sampler) (s : Nat) : adaptive_sampler :=
  let res := st.pixel_chunks.foldl (splitStep s) (st, [])
  { res.1 with pixel_chunks := res.2 }

/-- The body of the pixel loops of `write_final_pixels`. -/
def finalPixel (i j : Nat) (st : adaptive_sampler) : adaptive_sampler :=
  let st1 := { st with r := st.r.set i j (st.r i j / (st.ns : ℚ)),
                       div_count := fun x y =>
                         if x = i ∧ y = j then st.div_count x y + 1 else st.div_count x y }
  let st2 := { st1 with g := st1.g.set i j (st1.g i j / (st1.ns : ℚ)) }
  let st3 := { st2 with b := st2.b.set i j (st2.b i j / (st2.ns : ℚ)) }
  if st3.debug_channel = 5 then
    let st4 := { st3 with r := st3.r.set i j ((st3.max_s : ℚ) / (st3.ns : ℚ)) }
    let st5 := { st4 with g := st4.g.set i j ((st4.max_s : ℚ) / (st4.ns : ℚ)) }
    { st5 with b := st5.b.set i j ((st5.max_s : ℚ) / (st5.ns : ℚ)) }
  else st3

/-- The method `adaptive_sampler::write_final_pixels`. -/
def write_final_pixels (st : adaptive_sampler) : adaptive_sampler :=
  st.pixel_chunks.foldl (fun st it =>
    forRange it.startx it.endx (fun i st =>
      forRange it.starty it.endy (fun j st => finalPixel i j st) st) st) st

/-- The method `adaptive_sampler::add_color_main`. -/
def add_color_main (st : adaptive_sampler) (i j : Nat) (color : vec3) : adaptive_sampler :=
  let st1 := { st with r := st.r.set i j (st.r i j + color.r) }
  let st2 := { st1 with g := st1.g.set i j (st1.g i j + color.g) }
  { st2 with b := st2.b.set i j (st2.b i j + color.b) }

/-- The method `adaptive_sampler::add_color_sec`. -/
def add_color_sec (st : adaptive_sampler) (i j : Nat) (color : vec3) : adaptive_sampler :=
  let st1 := { st with r2 := st.r2.set i j (st.r2 i j + color.r) }
  let st2 := { st1 with g2 := st1.g2.set i j (st1.g2 i j + color.g) }
  { st2 with b2 := st2.b2.set i j (st2.b2 i j + color.b) }

/-- The method `adaptive_sampler::size`. -/
def adaptive_sampler.size (st : adaptive_sampler) : Nat := st.pixel_chunks.length

/-! ## Vocabulary of the properties -/

/-- The pixel `(x, y)` lies in the half-open rectangle `[startx, endx) x [starty, endy)`. -/
def inBlock (b : pixel_block) (x y : Nat) : Prop :=
  b.startx ≤ x ∧ x < b.endx ∧ b.starty ≤ y ∧ y < b.endy

instance (b : pixel_block) (x y : Nat) : Decidable (inBlock b x y) := by
  unfold inBlock; infer_instance

/-- The number of regions of the list whose rectangle contains the pixel `(x, y)`. -/
def cover (chunks : List pixel_block) (x y : Nat) : Nat :=
  chunks.countP (fun b => decide (inBlock b x y))

/-- The number of pixels of a region. -/
def area (b : pixel_block) : Nat := (b.endx - b.startx) * (b.endy - b.starty)

/-- The sum of the areas of the regions of the list. -/
def totalArea (chunks : List pixel_block) : Nat := (chunks.map area).sum

/-- The grid line `i` of the initial partition along an axis of length `n`: the chunk size
times `i` for the lines before the last, the image border for the last. -/
def gridLine (numbercores n i : Nat) : Nat := if i < numbercores then i * (n / numbercores) else n

/-- The pixels visited by a pair of nested loops, `i` outer over `[xb, xe)` and `j` inner over
`[yb, ye)`, in the order of the visit. -/
def pixelList (xb xe yb ye : Nat) : List (Nat × Nat) :=
  (loopRange xb xe).flatMap (fun i => (loopRange yb ye).map (fun j => (i, j)))

/-- The number that the first loops of `test_for_convergence` leave in the cell of `error_sum`
belonging to pixel `(i, j)` when `r(i,j) + g(i,j) + b(i,j)` is not negative: the discrepancy,
scaled, and divided by `normalize` unless that is zero. -/
def errCell (sqrtF : ℚ → ℚ) (st : adaptive_sampler) (s : Nat) (N r_b : ℚ) (i j : Nat) : ℚ :=
  if sqrtF (st.r i j + st.g i j + st.b i j) ≠ 0 then
    (|st.r i j - 2 * st.r2 i j| + |st.g i j - 2 * st.g2 i j| + |st.b i j - 2 * st.b2 i j|)
      * (r_b / ((s : ℚ) * N)) / sqrtF (st.r i j + st.g i j + st.b i j)
  else
    (|st.r i j - 2 * st.r2 i j| + |st.g i j - 2 * st.g2 i j| + |st.b i j - 2 * st.b2 i j|)
      * (r_b / ((s : ℚ) * N))

/-- The cell of pixel `(i, j)` for the region `[xb, xe) x [yb, ye)`, with `N` and `r_b` as
`test_for_convergence` computes them. -/
def regionCell (sqrtF : ℚ → ℚ) (st : adaptive_sampler) (s xe xb ye yb i j : Nat) : ℚ :=
  errCell sqrtF st s (((xe - xb : Nat) : ℚ) * ((ye - yb : Nat) : ℚ))
    (sqrtF ((((xe - xb : Nat) : ℚ) * ((ye - yb : Nat) : ℚ)) / ((st.nx : ℚ) * (st.ny : ℚ)))) i j

/-- No pixel of the block `[xb, xe) x [yb, ye)` has a negative sum `r + g + b`: the first loops
of `test_for_convergence` take no square root of a negative number. -/
def nanFree (st : adaptive_sampler) (xe xb ye yb : Nat) : Prop :=
  ∀ i j, xb ≤ i → i < xe → yb ≤ j → j < ye → 0 ≤ st.r i j + st.g i j + st.b i j

/-- The value of `error_block` when the first loops of `test_for_convergence` are done. -/
def error_block (sqrtF : ℚ → ℚ) (st : adaptive_sampler) (s nx_end nx_begin ny_end ny_begin : Nat) :
    Flt :=
  (errLoop sqrtF st s nx_end nx_begin ny_end ny_begin).2

/-- What one call of `test_for_convergence` does to the chunk it addresses: the assignments to
`pixel_chunks[k]` in the order of the source. -/
def tfcBlock (sqrtF : ℚ → ℚ) (st : adaptive_sampler) (s nx_end nx_begin ny_end ny_begin : Nat)
    (c : pixel_block) : pixel_block :=
  let filled := errLoop sqrtF st s nx_end nx_begin ny_end ny_begin
  if filled.2 < Flt.val st.min_variance then
    { c with error := filled.2, erase := true }
  else if filled.2 < Flt.val (st.min_variance * 256) then
    if nx_end - nx_begin ≥ ny_end - ny_begin then
      setSplitPos
        (scanX filled.1 nx_begin ny_begin ny_end (nx_end - nx_begin) (filled.2 / Flt.val 2)
          (loopRange nx_begin nx_end) 0)
        { c with error := filled.2, split := true, split_axis := 0 }
    else
      setSplitPos
        (scanY filled.1 nx_begin nx_end ny_begin (nx_end - nx_begin) (filled.2 / Flt.val 2)
          (loopRange ny_begin ny_end) 0)
        { c with error := filled.2, split := true, split_axis := 1 }
  else { c with error := filled.2 }

/-! ### The convergence test over the rationals

The same loops with rational cells, as they run on a block without a negative primary sum
(`nanFree`).  They serve the proofs: `errLoop_exact` and `tfcBlock_exact` show that the
loops of `test_for_convergence` compute these values on such a block. -/

/-- The body of the first pair of loops over the rationals. -/
def exactBody (sqrtF : ℚ → ℚ) (st : adaptive_sampler) (s : Nat) (N r_b : ℚ)
    (nx_begin ny_begin nx_block i j : Nat) (acc : (Nat → ℚ) × ℚ) : (Nat → ℚ) × ℚ :=
  let idx := errIdx nx_begin ny_begin nx_block i j
  let es1 := vecSet acc.1 idx
    (|st.r i j - 2 * st.r2 i j| + |st.g i j - 2 * st.g2 i j| + |st.b i j - 2 * st.b2 i j|)
  let es2 := vecSet es1 idx (es1 idx * (r_b / ((s : ℚ) * N)))
  let normalize := sqrtF (st.r i j + st.g i j + st.b i j)
  let es3 := if normalize ≠ 0 then vecSet es2 idx (es2 idx / normalize) else es2
  (es3, acc.2 + es3 idx)

/-- The first pair of loops over the rationals: the cells and their sum. -/
def exactLoop (sqrtF : ℚ → ℚ) (st : adaptive_sampler) (s nx_end nx_begin ny_end ny_begin : Nat) :
    (Nat → ℚ) × ℚ :=
  let nx_block := nx_end - nx_begin
  let ny_block := ny_end - ny_begin
  let N : ℚ := (nx_block : ℚ) * (ny_block : ℚ)
  let r_b := sqrtF (N / ((st.nx : ℚ) * (st.ny : ℚ)))
  forRange nx_begin nx_end (fun i acc =>
    forRange ny_begin ny_end (fun j acc =>
      exactBody sqrtF st s N r_b nx_begin ny_begin nx_block i j acc) acc) (fun _ => 0, 0)

/-- The scan over columns over the rationals. -/
def exactScanX (error_sum : Nat → ℚ) (nx_begin ny_begin ny_end nx_block : Nat) (half : ℚ) :
    List Nat → ℚ → Option Nat
  | [], _ => none
  | i :: rest, error_half =>
    let eh := forRange ny_begin ny_end
      (fun j acc => acc + error_sum (errIdx nx_begin ny_begin nx_block i j)) error_half
    if eh ≥ half then some i else exactScanX error_sum nx_begin ny_begin ny_end nx_block half rest eh

/-- The scan over rows over the rationals. -/
def exactScanY (error_sum : Nat → ℚ) (nx_begin nx_end ny_begin nx_block : Nat) (half : ℚ) :
    List Nat → ℚ → Option Nat
  | [], _ => none
  | j :: rest, error_half =>
    let eh := forRange nx_begin nx_end
      (fun i acc => acc + error_sum (errIdx nx_begin ny_begin nx_block i j)) error_half
    if eh ≥ half then some j else exactScanY error_sum nx_begin nx_end ny_begin nx_block half rest eh

/-- The sum of the cells of the block over the rationals. -/
def exactError (sqrtF : ℚ → ℚ) (st : adaptive_sampler) (s nx_end nx_begin ny_end ny_begin : Nat) :
    ℚ :=
  (exactLoop sqrtF st s nx_end nx_begin ny_end ny_begin).2

/-- What one call of `test_for_convergence` does to the chunk it addresses on a block without a
negative primary sum. -/
def exactBlock (sqrtF : ℚ → ℚ) (st : adaptive_sampler) (s nx_end nx_begin ny_end ny_begin : Nat)
    (c : pixel_block) : pixel_block :=
  let filled := exactLoop sqrtF st s nx_end nx_begin ny_end ny_begin
  if filled.2 < st.min_variance then
    { c with error := Flt.val filled.2, erase := true }
  else if filled.2 < st.min_variance * 256 then
    if nx_end - nx_begin ≥ ny_end - ny_begin then
      setSplitPos
        (exactScanX filled.1 nx_begin ny_begin ny_end (nx_end - nx_begin) (filled.2 / 2)
          (loopRange nx_begin nx_end) 0)
        { c with error := Flt.val filled.2, split := true, split_axis := 0 }
    else
      setSplitPos
        (exactScanY filled.1 nx_begin nx_end ny_begin (nx_end - nx_begin) (filled.2 / 2)
          (loopRange ny_begin ny_end) 0)
        { c with error := Flt.val filled.2, split := true, split_axis := 1 }
  else { c with error := Flt.val filled.2 }

/-- A computable stand-in for `std::sqrt` on concrete inputs: the integer square roots of
numerator and denominator, which is the exact square root whenever both are perfect squares.
The concrete samplers below whose block error is evaluated call it at 0 and 1 only. -/
def sqrtQ (q : ℚ) : ℚ := (Nat.sqrt q.num.toNat : ℚ) / (Nat.sqrt q.den : ℚ)

/-- The matrix with every cell equal to `v`. -/
def constMatrix (v : ℚ) : NumericMatrix := fun _ _ => v

/-- A 4x4 sampler with one full-image region, `ns = 4`, `min_variance = 1/100` and
`min_adaptive_size = 1`, over the given primary red channel `r` and secondary red channel
`r2`; the other channels are zero. -/
def sampler4 (r r2 : NumericMatrix) : adaptive_sampler :=
  adaptive_sampler.ctor 1 4 4 4 0 (1 / 100) 1 r (constMatrix 0) (constMatrix 0)
    r2 (constMatrix 0) (constMatrix 0)

/-- The full-image region of `sampler4` as the constructor builds it. -/
def fullBlock4 : pixel_block :=
  { startx := 0, starty := 0, endx := 4, endy := 4,
    split_axis := 0, split_pos := 0, erase := false, split := false, error := 0 }

/-- The size test of the split branch of `split_remove_chunks`: width and height of the region
both exceed `min_adaptive_size`, compared as `size_t`. -/
def bigEnough (m : Int) (it : pixel_block) : Prop :=
  szSub it.endx it.startx > toSizeT m ∧ szSub it.endy it.starty > toSizeT m

instance (m : Int) (it : pixel_block) : Decidable (bigEnough m it) := by
  unfold bigEnough; infer_instance

/-- The first child `b1` of a split: the part of `it` below `split_pos` along the split axis. -/
def childLow (it : pixel_block) : pixel_block :=
  if it.split_axis = 1 then
    { startx := it.startx, starty := it.starty, endx := it.endx, endy := it.split_pos,
      split_axis := 0, split_pos := 0, erase := false, split := false, error := 0 }
  else
    { startx := it.startx, starty := it.starty, endx := it.split_pos, endy := it.endy,
      split_axis := 0, split_pos := 0, erase := false, split := false, error := 0 }

/-- The second child `b2` of a split: the part of `it` from `split_pos` on. -/
def childHigh (it : pixel_block) : pixel_block :=
  if it.split_axis = 1 then
    { startx := it.startx, starty := it.split_pos, endx := it.endx, endy := it.endy,
      split_axis := 0, split_pos := 0, erase := false, split := false, error := 0 }
  else
    { startx := it.split_pos, starty := it.starty, endx := it.endx, endy := it.endy,
      split_axis := 0, split_pos := 0, erase := false, split := false, error := 0 }

/-- The chunks that one pass of the loop of `split_remove_chunks` pushes to `temppixels` for
the chunk `it`: none for an erased chunk, the two children for a split one (none when
`split_axis` is neither 0 nor 1), the chunk itself otherwise. -/
def splitOut (m : Int) (it : pixel_block) : List pixel_block :=
  if it.erase then []
  else if it.split ∧ bigEnough m it then
    if it.split_axis = 1 ∨ it.split_axis = 0 then [childLow it, childHigh it] else []
  else [it]

/-- The split data of a chunk are usable: if the chunk is going to be split, its axis is 0 or 1
and its split position lies within its bounds along that axis. -/
def splitReady (m : Int) (it : pixel_block) : Prop :=
  it.erase = false → it.split = true → bigEnough m it →
    (it.split_axis = 0 ∧ it.startx ≤ it.split_pos ∧ it.split_pos ≤ it.endx) ∨
    (it.split_axis = 1 ∧ it.starty ≤ it.split_pos ∧ it.split_pos ≤ it.endy)

/-- The erased chunks of a list. -/
def erasedChunks (chunks : List pixel_block) : List pixel_block :=
  chunks.filter (fun it => it.erase)

/-- The chunks of a list that are not erased. -/
def keptChunks (chunks : List pixel_block) : List pixel_block :=
  chunks.filter (fun it => !it.erase)

/-- The fields of the sampler that the finalisation passes never assign. -/
def sameConfig (st st' : adaptive_sampler) : Prop :=
  st'.nx = st.nx ∧ st'.ny = st.ny ∧ st'.ns = st.ns ∧ st'.max_s = st.max_s ∧
  st'.debug_channel = st.debug_channel ∧ st'.min_variance = st.min_variance ∧
  st'.min_adaptive_size = st.min_adaptive_size ∧
  st'.r2 = st.r2 ∧ st'.g2 = st.g2 ∧ st'.b2 = st.b2 ∧ st'.pixel_chunks = st.pixel_chunks

/-- The 4x4 sampler with all buffers zero after `test_for_convergence` on its region at round
count 1. -/
def convergedSampler4 : adaptive_sampler :=
  test_for_convergence sqrtQ (sampler4 (constMatrix 0) (constMatrix 0)) 0 1 4 0 4 0

/-- A 4x4 sampler whose only region carries a split flag and a split position beyond its
bounds. -/
def strayCutSampler4 : adaptive_sampler :=
  { sampler4 (constMatrix 0) (constMatrix 0) with
    pixel_chunks := [{ fullBlock4 with split := true, split_pos := 9 }] }

/-- The matrix that is 1 in column 0 and 0 elsewhere. -/
def column0Matrix : NumericMatrix := fun i _ => if i = 0 then 1 else 0

/-- The 4x4 sampler with primary red 1 in column 0 only, after `test_for_convergence` on its
region at round count 1. -/
def leftHeavySampler4 : adaptive_sampler :=
  test_for_convergence sqrtQ (sampler4 column0Matrix (constMatrix 0)) 0 1 4 0 4 0

/-! ## The driver, as far as the properties speak of it

The rendering loop that calls the sampler is not part of `adaptivesampler.h`.  A run is taken
in the shape the properties describe: the constructor, then rounds, each of which lets the
driver accumulate sample colours with `add_color_main` and `add_color_sec`, calls
`test_for_convergence` on every region with the region's own bounds, and calls
`split_remove_chunks`; at the end one call of `write_final_pixels`. -/

/-- Modelled from the spec: one accumulation call of the driver (the rendering loop is not part
of `adaptivesampler.h`), a call of `add_color_main` or of `add_color_sec`. -/
inductive AddCall where
  | main (i j : Nat) (color : vec3)
  | sec (i j : Nat) (color : vec3)

/-- Modelled from the spec: the effect of one accumulation call of the driver. -/
def applyAdd (st : adaptive_sampler) : AddCall → adaptive_sampler
  | AddCall.main i j color => add_color_main st i j color
  | AddCall.sec i j color => add_color_sec st i j color

/-- Modelled from the spec: the accumulation calls of the driver in one round, in order. -/
def accumulate (st : adaptive_sampler) (adds : List AddCall) : adaptive_sampler :=
  adds.foldl applyAdd st

/-- Modelled from the spec: the driver's call of `test_for_convergence` on the region `k` with
the bounds of that region. -/
def classifyOwn (sqrtF : ℚ → ℚ) (s k : Nat) (st : adaptive_sampler) : adaptive_sampler :=
  match st.pixel_chunks[k]? with
  | some c => test_for_convergence sqrtF st k s c.endx c.startx c.endy c.starty
  | none => st

/-- Modelled from the spec: the driver's calls of `test_for_convergence` on every region
`k = 0, ..., size() - 1`. -/
def classifyAll (sqrtF : ℚ → ℚ) (st : adaptive_sampler) (s : Nat) : adaptive_sampler :=
  forRange 0 st.size (fun k st => classifyOwn sqrtF s k st) st

/-- Modelled from the spec: what the driver does in one round, its accumulation calls and the
round count `s` that it passes to `test_for_convergence` and to `split_remove_chunks`. -/
structure Round where
  adds : List AddCall
  s : Nat

/-- Modelled from the spec: one round of the driver, which accumulates, classifies every region,
then erases and splits. -/
def round (sqrtF : ℚ → ℚ) (st : adaptive_sampler) (rd : Round) : adaptive_sampler :=
  split_remove_chunks (classifyAll sqrtF (accumulate st rd.adds) rd.s) rd.s

/-- Modelled from the spec: the rounds of a run of the driver, in order. -/
def run (sqrtF : ℚ → ℚ) (st : adaptive_sampler) (rounds : List Round) : adaptive_sampler :=
  rounds.foldl (round sqrtF) st

/-- The sampler with its region set replaced. -/
def withChunks (st : adaptive_sampler) (chunks : List pixel_block) : adaptive_sampler :=
  { st with pixel_chunks := chunks }

/-- The invariant of the region set between rounds: no region is flagged `erase`, a region
flagged `split` fails the size test, and every pixel of the image is either in exactly one
region and not yet divided, or in no region and divided once; pixels outside the image are in
no region and never divided. -/
def partitionInv (st : adaptive_sampler) : Prop :=
  (∀ it, it ∈ st.pixel_chunks →
    it.erase = false ∧ (it.split = true → ¬ bigEnough st.min_adaptive_size it)) ∧
  ∀ x y, cover st.pixel_chunks x y + st.div_count x y = if x < st.nx ∧ y < st.ny then 1 else 0

/-- A 2x2 sampler with one full-image region, `min_variance = 1/100` and
`min_adaptive_size = 2`, so that its region is too small to be split; primary red is 1
everywhere and the other buffers are zero. -/
def smallSampler : adaptive_sampler :=
  adaptive_sampler.ctor 1 2 2 4 0 (1 / 100) 2 (constMatrix 1) (constMatrix 0) (constMatrix 0)
    (constMatrix 0) (constMatrix 0) (constMatrix 0)

/-- The region of `smallSampler` after the first round: flagged `split`, carried forward. -/
def carriedBlock : pixel_block :=
  { startx := 0, starty := 0, endx := 2, endy := 2,
    split_axis := 0, split_pos := 0, erase := false, split := true, error := 1 }

/-- The 2x2 sampler after the first round: `test_for_convergence` on its region at round
count 1, then `split_remove_chunks`. -/
def carriedSampler : adaptive_sampler :=
  split_remove_chunks (test_for_convergence sqrtQ smallSampler 0 1 2 0 2 0) 1

/-- The 2x2 sampler after the first round and four calls of `add_color_sec` that add the colour
`(1/2, 0, 0)` to the secondary buffers at each of the four pixels. -/
def refilledSampler : adaptive_sampler :=
  add_color_sec (add_color_sec (add_color_sec (add_color_sec carriedSampler
    0 0 ⟨1 / 2, 0, 0⟩) 0 1 ⟨1 / 2, 0, 0⟩) 1 0 ⟨1 / 2, 0, 0⟩) 1 1 ⟨1 / 2, 0, 0⟩

/-- The sum of the cells of column `i` of the region `[xb, xe) x [yb, ye)`. -/
def colSum (sqrtF : ℚ → ℚ) (st : adaptive_sampler) (s xe xb ye yb i : Nat) : ℚ :=
  ((loopRange yb ye).map (fun j => regionCell sqrtF st s xe xb ye yb i j)).sum

/-- The sum of the cells of row `j` of the region `[xb, xe) x [yb, ye)`. -/
def rowSum (sqrtF : ℚ → ℚ) (st : adaptive_sampler) (s xe xb ye yb j : Nat) : ℚ :=
  ((loopRange xb xe).map (fun i => regionCell sqrtF st s xe xb ye yb i j)).sum

/-- The sum of the cells of the columns `xb, ..., c - 1` of the region. -/
def colsBefore (sqrtF : ℚ → ℚ) (st : adaptive_sampler) (s xe xb ye yb c : Nat) : ℚ :=
  ((loopRange xb c).map (fun i => colSum sqrtF st s xe xb ye yb i)).sum

/-- The sum of the cells of the rows `yb, ..., c - 1` of the region. -/
def rowsBefore (sqrtF : ℚ → ℚ) (st : adaptive_sampler) (s xe xb ye yb c : Nat) : ℚ :=
  ((loopRange yb c).map (fun j => rowSum sqrtF st s xe xb ye yb j)).sum

/-- The matrix that is 1 in the columns from 4 on and 0 in the columns 0 to 3. -/
def rightHalfMatrix : NumericMatrix := fun i _ => if 4 ≤ i then 1 else 0

/-- An 8x8 sampler with one full-image region, `min_variance = 1/100` and
`min_adaptive_size = 1`; primary red is 1 in the right four columns, every other buffer entry
is zero. -/
def sampler8 : adaptive_sampler :=
  adaptive_sampler.ctor 1 8 8 4 0 (1 / 100) 1 rightHalfMatrix (constMatrix 0) (constMatrix 0)
    (constMatrix 0) (constMatrix 0) (constMatrix 0)

/-- The full-image region of `sampler8` as the constructor builds it. -/
def fullBlock8 : pixel_block :=
  { startx := 0, starty := 0, endx := 8, endy := 8,
    split_axis := 0, split_pos := 0, erase := false, split := false, error := 0 }

/-- A 4x4 sampler with one full-image region, `min_variance = 1/1000`, `min_adaptive_size = 1`
and primary red 1 everywhere: the block error of its region is 1, above
`256 * min_variance`. -/
def noisySampler4 : adaptive_sampler :=
  adaptive_sampler.ctor 1 4 4 4 0 (1 / 1000) 1 (constMatrix 1) (constMatrix 0) (constMatrix 0)
    (constMatrix 0) (constMatrix 0) (constMatrix 0)

/-- The 4x4 sampler with primary red 2 and secondary red 1 whose region is flagged `erase`, as
`test_for_convergence` leaves it. -/
def erasedSampler4 : adaptive_sampler :=
  withChunks (sampler4 (constMatrix 2) (constMatrix 1)) [{ fullBlock4 with erase := true }]

/-- A 4x4 sampler with one full-image region, `min_variance = 1/100`, primary red 2 and
secondary red 1 everywhere, built with the given `min_adaptive_size`, after
`test_for_convergence` on its region at round count 1. -/
def convergedWithMinSize (m : Int) : adaptive_sampler :=
  test_for_convergence sqrtQ
    (adaptive_sampler.ctor 1 4 4 4 0 (1 / 100) m (constMatrix 2) (constMatrix 0) (constMatrix 0)
      (constMatrix 1) (constMatrix 0) (constMatrix 0)) 0 1 4 0 4 0

/-- The 4x4 sampler with one full-image region, `min_variance = 1/100`, primary red -2 and
secondary red -1 everywhere: the primary buffers are twice the secondary ones, and the primary
sum is negative at every pixel. -/
def negativeSampler4 : adaptive_sampler :=
  sampler4 (constMatrix (-2)) (constMatrix (-1))

/-- Modelled from the spec: the sampler after the accumulation calls of the rounds alone, with
no classification and no finalisation pass, so that its primary buffers hold the undivided sums
of the sample colours. -/
def rawRun (st : adaptive_sampler) (rounds : List Round) : adaptive_sampler :=
  rounds.foldl (fun st rd => accumulate st rd.adds) st

end Rayrender

/-! # Properties -/

namespace Rayrender

/-! ## Loops and lists -/

theorem foldl_push_flat {α β : Type} (g : α → List β) (L : List α) (acc : List β) :
    L.foldl (fun acc i => acc ++ g i) acc = acc ++ L.flatMap g := by
  induction L generalizing acc with
  | nil => simp
  | cons a L ih => simp [ih, List.append_assoc]

theorem foldl_push_map {α β : Type} (f : α → β) (L : List α) (acc : List β) :
    L.foldl (fun acc j => acc ++ [f j]) acc = acc ++ L.map f := by
  induction L generalizing acc with
  | nil => simp
  | cons a L ih => simp [ih]

theorem loopRange_zero (n : Nat) : loopRange 0 n = List.range n := by
  simp [loopRange, List.range_eq_range']

theorem mem_loopRange {lo hi i : Nat} : i ∈ loopRange lo hi ↔ lo ≤ i ∧ i < hi := by
  simp only [loopRange, List.mem_range', Nat.one_mul]
  constructor
  · rintro ⟨k, hk, rfl⟩; omega
  · rintro ⟨h1, h2⟩; exact ⟨i - lo, by omega, by omega⟩

theorem cover_nil (x y : Nat) : cover [] x y = 0 := rfl

theorem cover_append (l₁ l₂ : List pixel_block) (x y : Nat) :
    cover (l₁ ++ l₂) x y = cover l₁ x y + cover l₂ x y := by
  simp [cover, List.countP_append]

theorem cover_cons (b : pixel_block) (l : List pixel_block) (x y : Nat) :
    cover (b :: l) x y = (if inBlock b x y then 1 else 0) + cover l x y := by
  simp [cover, List.countP_cons, Nat.add_comm]

theorem totalArea_append (l₁ l₂ : List pixel_block) :
    totalArea (l₁ ++ l₂) = totalArea l₁ + totalArea l₂ := by
  simp [totalArea]

/-! ## The initial grid -/

theorem initChunks_eq (c nx ny : Nat) :
    initChunks c nx ny
      = (List.range c).flatMap (fun i => (List.range c).map (fun j => initChunk c nx ny i j)) := by
  unfold initChunks forRange
  simp only [loopRange_zero, foldl_push_map]
  rw [foldl_push_flat]; simp

theorem chain_le (a : Nat → Nat) (n : Nat) (h : ∀ i, i < n → a i ≤ a (i + 1)) : a 0 ≤ a n := by
  induction n with
  | zero => exact le_refl _
  | succ n ih =>
    exact le_trans (ih (fun i hi => h i (Nat.lt_succ_of_lt hi))) (h n (Nat.lt_succ_self n))

/-- Consecutive intervals `[a i, a (i+1))`, `i < n`, of a non-decreasing sequence contain a point
of `[a 0, a n)` exactly once and any other point not at all. -/
theorem count_consecutive (a : Nat → Nat) (x n : Nat) (h : ∀ i, i < n → a i ≤ a (i + 1)) :
    (List.range n).countP (fun i => decide (a i ≤ x ∧ x < a (i + 1)))
      = if a 0 ≤ x ∧ x < a n then 1 else 0 := by
  induction n with
  | zero =>
    have : ¬ (a 0 ≤ x ∧ x < a 0) := by omega
    simp [this]
  | succ n ih =>
    have h' : ∀ i, i < n → a i ≤ a (i + 1) := fun i hi => h i (Nat.lt_succ_of_lt hi)
    have h0 := chain_le a n h'
    have hn := h n (Nat.lt_succ_self n)
    rw [List.range_succ, List.countP_append, ih h']
    simp only [List.countP_cons, List.countP_nil, decide_eq_true_eq]
    split_ifs <;> omega

/-- The widths of consecutive intervals of a non-decreasing sequence add up to the whole. -/
theorem sum_consecutive (a : Nat → Nat) (n : Nat) (h : ∀ i, i < n → a i ≤ a (i + 1)) :
    ((List.range n).map (fun i => a (i + 1) - a i)).sum = a n - a 0 := by
  induction n with
  | zero => simp
  | succ n ih =>
    have h' : ∀ i, i < n → a i ≤ a (i + 1) := fun i hi => h i (Nat.lt_succ_of_lt hi)
    have h0 := chain_le a n h'
    have hn := h n (Nat.lt_succ_self n)
    rw [List.range_succ, List.map_append, List.sum_append, ih h']
    simp only [List.map_cons, List.map_nil, List.sum_cons, List.sum_nil]
    omega

theorem gridLine_mono (c n i : Nat) : gridLine c n i ≤ gridLine c n (i + 1) := by
  unfold gridLine
  have hm : n / c * c ≤ n := Nat.div_mul_le_self n c
  split_ifs with h1 h2 h2
  · exact Nat.mul_le_mul_right _ (Nat.le_succ i)
  · calc i * (n / c) ≤ c * (n / c) := Nat.mul_le_mul_right _ (le_of_lt h1)
      _ = n / c * c := Nat.mul_comm _ _
      _ ≤ n := hm
  · omega
  · exact le_refl _

theorem gridLine_zero (c n : Nat) (hc : 1 ≤ c) : gridLine c n 0 = 0 := by
  simp [gridLine, show 0 < c from hc]

theorem gridLine_last (c n : Nat) : gridLine c n c = n := by
  simp [gridLine]

theorem gridLine_le (c n i : Nat) : gridLine c n i ≤ n := by
  unfold gridLine
  split_ifs with h
  · calc i * (n / c) ≤ c * (n / c) := Nat.mul_le_mul_right _ (le_of_lt h)
      _ = n / c * c := Nat.mul_comm _ _
      _ ≤ n := Nat.div_mul_le_self n c
  · exact le_refl _

/-- The bounds of the chunk of grid cell `(i, j)` are consecutive grid lines. -/
theorem initChunk_bounds (c nx ny i j : Nat) (hi : i < c) (hj : j < c) :
    (initChunk c nx ny i j).startx = gridLine c nx i ∧
    (initChunk c nx ny i j).endx = gridLine c nx (i + 1) ∧
    (initChunk c nx ny i j).starty = gridLine c ny j ∧
    (initChunk c nx ny i j).endy = gridLine c ny (j + 1) := by
  have hx : nx / c * c ≤ nx := Nat.div_mul_le_self nx c
  have hy : ny / c * c ≤ ny := Nat.div_mul_le_self ny c
  have key : ∀ n k : Nat, k < c → n / c * c ≤ n →
      (k + 1) * (n / c) + (if k = c - 1 then n - n / c * c else 0) = gridLine c n (k + 1) := by
    intro n k hk hn
    unfold gridLine
    by_cases hlast : k = c - 1
    · have hk1 : k + 1 = c := by omega
      rw [if_pos hlast, if_neg (by omega), hk1, Nat.mul_comm c (n / c)]
      omega
    · rw [if_neg hlast, if_pos (by omega), Nat.add_zero]
  refine ⟨?_, ?_, ?_, ?_⟩
  · simp [initChunk, gridLine, hi]
  · simpa [initChunk] using key nx i hi hx
  · simp [initChunk, gridLine, hj]
  · simpa [initChunk] using key ny j hj hy

/-- In a grid of blocks whose membership test factors into a column test and a row test, the
number of blocks containing a pixel is the product of the two counts. -/
theorem cover_grid (L M : List Nat) (blk : Nat → Nat → pixel_block) (x y : Nat)
    (P Q : Nat → Prop) [DecidablePred P] [DecidablePred Q]
    (h : ∀ i, i ∈ L → ∀ j, j ∈ M → (inBlock (blk i j) x y ↔ P i ∧ Q j)) :
    cover (L.flatMap (fun i => M.map (fun j => blk i j))) x y
      = L.countP (fun i => decide (P i)) * M.countP (fun j => decide (Q j)) := by
  have inner : ∀ i, ∀ M' : List Nat, (∀ j, j ∈ M' → (inBlock (blk i j) x y ↔ P i ∧ Q j)) →
      cover (M'.map (fun j => blk i j)) x y
        = if P i then M'.countP (fun j => decide (Q j)) else 0 := by
    intro i M' hM'
    induction M' with
    | nil => simp [cover]
    | cons j M' ih =>
      have ih' := ih (fun j' hj' => hM' j' (List.mem_cons_of_mem _ hj'))
      have hij := hM' j (List.mem_cons_self _ _)
      rw [List.map_cons, cover_cons, ih', List.countP_cons]
      by_cases hP : P i <;> by_cases hQ : Q j <;> simp [hij, hP, hQ, Nat.add_comm]
  induction L with
  | nil => simp [cover]
  | cons i L ih =>
    have ih' := ih (fun i' hi' => h i' (List.mem_cons_of_mem _ hi'))
    rw [List.flatMap_cons, cover_append, ih', inner i M (h i (List.mem_cons_self _ _)),
      List.countP_cons]
    by_cases hP : P i <;> simp [hP, Nat.add_mul, Nat.add_comm]

/-- In a grid of blocks whose area factors into a column width and a row height, the total area
is the product of the two sums. -/
theorem totalArea_grid (L M : List Nat) (blk : Nat → Nat → pixel_block) (w h : Nat → Nat)
    (hA : ∀ i, i ∈ L → ∀ j, j ∈ M → area (blk i j) = w i * h j) :
    totalArea (L.flatMap (fun i => M.map (fun j => blk i j)))
      = (L.map w).sum * (M.map h).sum := by
  have inner : ∀ i, ∀ M' : List Nat, (∀ j, j ∈ M' → area (blk i j) = w i * h j) →
      totalArea (M'.map (fun j => blk i j)) = w i * (M'.map h).sum := by
    intro i M' hM'
    induction M' with
    | nil => simp [totalArea]
    | cons j M' ih =>
      have ih' := ih (fun j' hj' => hM' j' (List.mem_cons_of_mem _ hj'))
      have hij := hM' j (List.mem_cons_self _ _)
      simp only [totalArea, List.map_cons, List.sum_cons] at ih' ⊢
      rw [ih', hij, Nat.mul_add]
  induction L with
  | nil => simp [totalArea]
  | cons i L ih =>
    have ih' := ih (fun i' hi' => hA i' (List.mem_cons_of_mem _ hi'))
    rw [List.flatMap_cons, totalArea_append, ih', inner i M (hA i (List.mem_cons_self _ _))]
    simp [Nat.add_mul]

/-- The initial grid covers every pixel of the image once and no other pixel. -/
theorem cover_initChunks (c nx ny x y : Nat) (hc : 1 ≤ c) :
    cover (initChunks c nx ny) x y = if x < nx ∧ y < ny then 1 else 0 := by
  rw [initChunks_eq]
  rw [cover_grid (List.range c) (List.range c) (fun i j => initChunk c nx ny i j) x y
    (fun i => gridLine c nx i ≤ x ∧ x < gridLine c nx (i + 1))
    (fun j => gridLine c ny j ≤ y ∧ y < gridLine c ny (j + 1))]
  · rw [count_consecutive (gridLine c nx) x c (fun i _ => gridLine_mono c nx i),
      count_consecutive (gridLine c ny) y c (fun j _ => gridLine_mono c ny j),
      gridLine_zero c nx hc, gridLine_zero c ny hc, gridLine_last, gridLine_last]
    by_cases hx : x < nx <;> by_cases hy : y < ny <;> simp [hx, hy]
  · intro i hi j hj
    obtain ⟨h1, h2, h3, h4⟩ :=
      initChunk_bounds c nx ny i j (List.mem_range.mp hi) (List.mem_range.mp hj)
    unfold inBlock
    rw [h1, h2, h3, h4]
    tauto

/-- The areas of the initial grid add up to the area of the image. -/
theorem totalArea_initChunks (c nx ny : Nat) (hc : 1 ≤ c) :
    totalArea (initChunks c nx ny) = nx * ny := by
  rw [initChunks_eq]
  rw [totalArea_grid (List.range c) (List.range c) (fun i j => initChunk c nx ny i j)
    (fun i => gridLine c nx (i + 1) - gridLine c nx i)
    (fun j => gridLine c ny (j + 1) - gridLine c ny j)]
  · rw [sum_consecutive (gridLine c nx) c (fun i _ => gridLine_mono c nx i),
      sum_consecutive (gridLine c ny) c (fun j _ => gridLine_mono c ny j),
      gridLine_zero c nx hc, gridLine_zero c ny hc, gridLine_last, gridLine_last]
    simp
  · intro i hi j hj
    obtain ⟨h1, h2, h3, h4⟩ :=
      initChunk_bounds c nx ny i j (List.mem_range.mp hi) (List.mem_range.mp hj)
    unfold area
    rw [h1, h2, h3, h4]

/-- Every chunk of the initial grid is a well-formed rectangle inside the image. -/
theorem initChunks_inside (c nx ny : Nat) (b : pixel_block) (hb : b ∈ initChunks c nx ny) :
    b.startx ≤ b.endx ∧ b.endx ≤ nx ∧ b.starty ≤ b.endy ∧ b.endy ≤ ny := by
  rw [initChunks_eq] at hb
  simp only [List.mem_flatMap, List.mem_map, List.mem_range] at hb
  obtain ⟨i, hi, j, hj, rfl⟩ := hb
  obtain ⟨h1, h2, h3, h4⟩ := initChunk_bounds c nx ny i j hi hj
  rw [h1, h2, h3, h4]
  exact ⟨gridLine_mono c nx i, gridLine_le c nx _, gridLine_mono c ny j, gridLine_le c ny _⟩

/-- C1: for every `core_count >= 1` the region set built by the constructor tiles the image:
every pixel `(x, y)` with `x < nx` and `y < ny` lies in exactly one region, every region is a
rectangle that stays inside the image, and the areas of the regions add up to `nx * ny`. -/
theorem C1_constructor_tiles_image (numbercores nx ny ns : Nat) (debug_channel : Int)
    (min_variance : ℚ) (min_adaptive_size : Int) (r g b r2 g2 b2 : NumericMatrix)
    (hc : 1 ≤ numbercores) :
    (∀ x y, x < nx → y < ny →
      cover (adaptive_sampler.ctor numbercores nx ny ns debug_channel min_variance
        min_adaptive_size r g b r2 g2 b2).pixel_chunks x y = 1) ∧
    (∀ blk, blk ∈ (adaptive_sampler.ctor numbercores nx ny ns debug_channel min_variance
        min_adaptive_size r g b r2 g2 b2).pixel_chunks →
      blk.startx ≤ blk.endx ∧ blk.endx ≤ nx ∧ blk.starty ≤ blk.endy ∧ blk.endy ≤ ny) ∧
    totalArea (adaptive_sampler.ctor numbercores nx ny ns debug_channel min_variance
        min_adaptive_size r g b r2 g2 b2).pixel_chunks = nx * ny := by
  refine ⟨?_, ?_, ?_⟩
  · intro x y hx hy
    show cover (initChunks numbercores nx ny) x y = 1
    rw [cover_initChunks numbercores nx ny x y hc, if_pos ⟨hx, hy⟩]
  · intro blk hblk
    exact initChunks_inside numbercores nx ny blk hblk
  · exact totalArea_initChunks numbercores nx ny hc

/-! ## Updating one chunk -/

theorem modifyAt_length (f : pixel_block → pixel_block) (l : List pixel_block) (k : Nat) :
    (modifyAt f l k).length = l.length := by
  induction l generalizing k with
  | nil => rfl
  | cons c cs ih => cases k <;> simp [modifyAt, ih]

theorem modifyAt_get_self (f : pixel_block → pixel_block) (l : List pixel_block) (k : Nat) :
    (modifyAt f l k)[k]? = (l[k]?).map f := by
  induction l generalizing k with
  | nil => simp [modifyAt]
  | cons c cs ih => cases k <;> simp [modifyAt, ih]

theorem modifyAt_get_other (f : pixel_block → pixel_block) (l : List pixel_block) (k j : Nat)
    (h : j ≠ k) : (modifyAt f l k)[j]? = l[j]? := by
  induction l generalizing k j with
  | nil => simp [modifyAt]
  | cons c cs ih =>
    cases k with
    | zero =>
      cases j with
      | zero => exact absurd rfl h
      | succ j => simp [modifyAt]
    | succ k =>
      cases j with
      | zero => simp [modifyAt]
      | succ j => simpa [modifyAt] using ih k j (by omega)

theorem modifyAt_comp (f g : pixel_block → pixel_block) (l : List pixel_block) (k : Nat) :
    modifyAt g (modifyAt f l k) k = modifyAt (fun c => g (f c)) l k := by
  induction l generalizing k with
  | nil => rfl
  | cons c cs ih => cases k <;> simp [modifyAt, ih]

theorem modChunk_comp (st : adaptive_sampler) (k : Nat) (f g : pixel_block → pixel_block) :
    (st.modChunk k f).modChunk k g = st.modChunk k (fun c => g (f c)) := by
  simp [adaptive_sampler.modChunk, modifyAt_comp]

/-- A call of `test_for_convergence` rewrites the chunk `k` by `tfcBlock` and nothing else. -/
theorem test_for_convergence_eq (sqrtF : ℚ → ℚ) (st : adaptive_sampler)
    (k s xe xb ye yb : Nat) :
    test_for_convergence sqrtF st k s xe xb ye yb
      = st.modChunk k (tfcBlock sqrtF st s xe xb ye yb) := by
  unfold test_for_convergence tfcBlock
  simp only [modChunk_comp]
  split_ifs <;> rfl

/-! ## The loops of the convergence test over the rationals -/

theorem forRange_nested {σ : Type} (body : Nat → Nat → σ → σ) (xb xe yb ye : Nat) (st : σ) :
    forRange xb xe (fun i st => forRange yb ye (fun j st => body i j st) st) st
      = (pixelList xb xe yb ye).foldl (fun st p => body p.1 p.2 st) st := by
  unfold forRange pixelList
  generalize loopRange xb xe = L
  induction L generalizing st with
  | nil => rfl
  | cons i L ih => simp [List.flatMap_cons, List.foldl_append, List.foldl_map, ih]

theorem mem_pixelList {xb xe yb ye : Nat} {p : Nat × Nat} :
    p ∈ pixelList xb xe yb ye ↔ (xb ≤ p.1 ∧ p.1 < xe) ∧ (yb ≤ p.2 ∧ p.2 < ye) := by
  obtain ⟨i, j⟩ := p
  simp only [pixelList, List.mem_flatMap, List.mem_map, mem_loopRange, Prod.mk.injEq]
  constructor
  · rintro ⟨i', hi, j', hj, rfl, rfl⟩; exact ⟨hi, hj⟩
  · rintro ⟨hi, hj⟩; exact ⟨i, hi, j, hj, rfl, rfl⟩

theorem forRange_add_sum (lo hi : Nat) (f : Nat → ℚ) (acc : ℚ) :
    forRange lo hi (fun j acc => acc + f j) acc = acc + ((loopRange lo hi).map f).sum := by
  unfold forRange
  generalize loopRange lo hi = L
  induction L generalizing acc with
  | nil => simp
  | cons j L ih => simp [ih, add_assoc]

theorem sum_pixelList (f : Nat → Nat → ℚ) (xb xe yb ye : Nat) :
    ((pixelList xb xe yb ye).map (fun p => f p.1 p.2)).sum
      = ((loopRange xb xe).map (fun i => ((loopRange yb ye).map (fun j => f i j)).sum)).sum := by
  unfold pixelList
  generalize loopRange xb xe = L
  induction L with
  | nil => rfl
  | cons i L ih =>
    simp only [List.flatMap_cons, List.map_append, List.sum_append, List.map_cons, List.sum_cons,
      List.map_map, ih]
    rfl

theorem sum_swap (f : Nat → Nat → ℚ) (L M : List Nat) :
    (L.map (fun i => (M.map (fun j => f i j)).sum)).sum
      = (M.map (fun j => (L.map (fun i => f i j)).sum)).sum := by
  induction L with
  | nil => simp
  | cons i L ih => simp only [List.map_cons, List.sum_cons, ih, List.sum_map_add]

/-- One step of the first loops writes the cell of the pixel and adds it to the block sum. -/
theorem exactBody_eq (sqrtF : ℚ → ℚ) (st : adaptive_sampler) (s : Nat) (N r_b : ℚ)
    (xb yb w i j : Nat) (acc : (Nat → ℚ) × ℚ) :
    exactBody sqrtF st s N r_b xb yb w i j acc
      = (vecSet acc.1 (errIdx xb yb w i j) (errCell sqrtF st s N r_b i j),
         acc.2 + errCell sqrtF st s N r_b i j) := by
  unfold exactBody errCell
  by_cases hn : sqrtF (st.r i j + st.g i j + st.b i j) = 0
  · simp only [hn, ne_eq, not_true_eq_false, if_false]
    refine Prod.ext ?_ ?_
    · funext t; by_cases ht : t = errIdx xb yb w i j <;> simp [vecSet, ht]
    · simp [vecSet]
  · simp only [ne_eq, hn, not_false_eq_true, if_true]
    refine Prod.ext ?_ ?_
    · funext t; by_cases ht : t = errIdx xb yb w i j <;> simp [vecSet, ht]
    · simp [vecSet]

/-- Folding writes `v[ix p] = val p` and additions of `val p` over a list of keys. -/
theorem fold_cells_snd {κ : Type} (ix : κ → Nat) (val : κ → ℚ) (P : List κ)
    (acc : (Nat → ℚ) × ℚ) :
    (P.foldl (fun acc p => (vecSet acc.1 (ix p) (val p), acc.2 + val p)) acc).2
      = acc.2 + (P.map val).sum := by
  induction P generalizing acc with
  | nil => simp
  | cons p P ih => simp [ih, add_assoc]

theorem fold_cells_fst {κ : Type} (ix : κ → Nat) (val : κ → ℚ) (P : List κ)
    (acc : (Nat → ℚ) × ℚ) (t : Nat) (v : ℚ)
    (hval : ∀ p, p ∈ P → ix p = t → val p = v)
    (hhit : acc.1 t = v ∨ ∃ p, p ∈ P ∧ ix p = t) :
    (P.foldl (fun acc p => (vecSet acc.1 (ix p) (val p), acc.2 + val p)) acc).1 t = v := by
  induction P generalizing acc with
  | nil =>
    rcases hhit with h | ⟨p, hp, _⟩
    · exact h
    · exact absurd hp (List.not_mem_nil p)
  | cons q P ih =>
    rw [List.foldl_cons]
    apply ih
    · intro p hp; exact hval p (List.mem_cons_of_mem _ hp)
    · by_cases hq : ix q = t
      · left
        simp [vecSet, hq, hval q (List.mem_cons_self _ _) hq]
      · rcases hhit with h | ⟨p, hp, hpt⟩
        · left
          simp [vecSet, Ne.symm hq, h]
        · rcases List.mem_cons.mp hp with rfl | hp'
          · exact absurd hpt hq
          · exact Or.inr ⟨p, hp', hpt⟩

theorem exactLoop_eq_fold (sqrtF : ℚ → ℚ) (st : adaptive_sampler) (s xe xb ye yb : Nat) :
    exactLoop sqrtF st s xe xb ye yb
      = (pixelList xb xe yb ye).foldl
          (fun acc p => (vecSet acc.1 (errIdx xb yb (xe - xb) p.1 p.2)
              (regionCell sqrtF st s xe xb ye yb p.1 p.2),
            acc.2 + regionCell sqrtF st s xe xb ye yb p.1 p.2)) (fun _ => 0, 0) := by
  unfold exactLoop
  simp only [exactBody_eq]
  exact forRange_nested
    (fun i j (acc : (Nat → ℚ) × ℚ) =>
      (vecSet acc.1 (errIdx xb yb (xe - xb) i j) (regionCell sqrtF st s xe xb ye yb i j),
        acc.2 + regionCell sqrtF st s xe xb ye yb i j)) xb xe yb ye (fun _ => 0, 0)

/-- The block error is the sum of the cells of the pixels of the region, column by column. -/
theorem exactError_eq_sum (sqrtF : ℚ → ℚ) (st : adaptive_sampler) (s xe xb ye yb : Nat) :
    exactError sqrtF st s xe xb ye yb
      = ((loopRange xb xe).map (fun i =>
          ((loopRange yb ye).map (fun j => regionCell sqrtF st s xe xb ye yb i j)).sum)).sum := by
  unfold exactError
  rw [exactLoop_eq_fold, fold_cells_snd, ← sum_pixelList]
  simp

theorem errIdx_inj (xb yb w i j i2 j2 : Nat) (hi : xb ≤ i) (hiw : i - xb < w)
    (hi2 : xb ≤ i2) (hi2w : i2 - xb < w)
    (hj : yb ≤ j) (hj2 : yb ≤ j2)
    (h : errIdx xb yb w i j = errIdx xb yb w i2 j2) : i = i2 ∧ j = j2 := by
  unfold errIdx at h
  have hw : 0 < w := by omega
  have h1 : ((i - xb) + (j - yb) * w) % w = i - xb := by
    rw [Nat.add_mul_mod_self_right, Nat.mod_eq_of_lt hiw]
  have h2 : ((i2 - xb) + (j2 - yb) * w) % w = i2 - xb := by
    rw [Nat.add_mul_mod_self_right, Nat.mod_eq_of_lt hi2w]
  have e1 : i - xb = i2 - xb := by rw [← h1, ← h2, h]
  have e2 : (j - yb) * w = (j2 - yb) * w := by omega
  have e3 : j - yb = j2 - yb := Nat.eq_of_mul_eq_mul_right hw e2
  omega

/-- After the first loops the cell of `error_sum` addressed for a pixel of the region holds the
cell value of that pixel. -/
theorem exactLoop_read (sqrtF : ℚ → ℚ) (st : adaptive_sampler) (s xe xb ye yb i j : Nat)
    (hi : xb ≤ i ∧ i < xe) (hj : yb ≤ j ∧ j < ye) :
    (exactLoop sqrtF st s xe xb ye yb).1 (errIdx xb yb (xe - xb) i j)
      = regionCell sqrtF st s xe xb ye yb i j := by
  rw [exactLoop_eq_fold]
  apply fold_cells_fst (fun p : Nat × Nat => errIdx xb yb (xe - xb) p.1 p.2)
    (fun p : Nat × Nat => regionCell sqrtF st s xe xb ye yb p.1 p.2)
  · intro p hp hidx
    obtain ⟨⟨hp1, hp2⟩, hp3, _⟩ := mem_pixelList.mp hp
    obtain ⟨e1, e2⟩ := errIdx_inj xb yb (xe - xb) p.1 p.2 i j hp1 (by omega) hi.1 (by omega)
      hp3 hj.1 hidx
    rw [e1, e2]
  · exact Or.inr ⟨(i, j), mem_pixelList.mpr ⟨hi, hj⟩, rfl⟩

theorem regionCell_nonneg (sqrtF : ℚ → ℚ) (hsqrt : ∀ q, 0 ≤ sqrtF q) (st : adaptive_sampler)
    (s xe xb ye yb i j : Nat) : 0 ≤ regionCell sqrtF st s xe xb ye yb i j := by
  unfold regionCell errCell
  have ha : 0 ≤ |st.r i j - 2 * st.r2 i j| + |st.g i j - 2 * st.g2 i j|
      + |st.b i j - 2 * st.b2 i j| := by positivity
  have hN : (0 : ℚ) ≤ (s : ℚ) * (((xe - xb : Nat) : ℚ) * ((ye - yb : Nat) : ℚ)) := by positivity
  have hv := mul_nonneg ha (div_nonneg (hsqrt ((((xe - xb : Nat) : ℚ) * ((ye - yb : Nat) : ℚ))
    / ((st.nx : ℚ) * (st.ny : ℚ)))) hN)
  split_ifs
  · exact div_nonneg hv (hsqrt _)
  · exact hv

theorem sum_map_nonneg {α : Type} (L : List α) (f : α → ℚ) (h : ∀ a, a ∈ L → 0 ≤ f a) :
    0 ≤ (L.map f).sum := by
  induction L with
  | nil => simp
  | cons a L ih =>
    rw [List.map_cons, List.sum_cons]
    exact add_nonneg (h a (List.mem_cons_self _ _)) (ih (fun b hb => h b (List.mem_cons_of_mem _ hb)))

theorem exactError_nonneg (sqrtF : ℚ → ℚ) (hsqrt : ∀ q, 0 ≤ sqrtF q) (st : adaptive_sampler)
    (s xe xb ye yb : Nat) : 0 ≤ exactError sqrtF st s xe xb ye yb := by
  rw [exactError_eq_sum]
  exact sum_map_nonneg _ _ (fun i _ => sum_map_nonneg _ _
    (fun j _ => regionCell_nonneg sqrtF hsqrt st s xe xb ye yb i j))

/-- A region with a non-zero block error has at least one column and one row. -/
theorem exactError_ne_zero (sqrtF : ℚ → ℚ) (st : adaptive_sampler) (s xe xb ye yb : Nat)
    (h : exactError sqrtF st s xe xb ye yb ≠ 0) : xb < xe ∧ yb < ye := by
  rw [exactError_eq_sum] at h
  by_contra hcon
  apply h
  by_cases hx : xb < xe
  · have hy : ye - yb = 0 := by omega
    simp [loopRange, hy]
  · have hx0 : xe - xb = 0 := by omega
    simp [loopRange, hx0]

/-! ## The scan for the split position over the rationals -/

theorem exactScanX_mem (es : Nat → ℚ) (xb yb ye w : Nat) (half : ℚ) (L : List Nat) (acc : ℚ) (p : Nat)
    (h : exactScanX es xb yb ye w half L acc = some p) : p ∈ L := by
  induction L generalizing acc with
  | nil => simp [exactScanX] at h
  | cons i L ih =>
    unfold exactScanX at h
    simp only at h
    split_ifs at h with hge
    · cases h; exact List.mem_cons_self _ _
    · exact List.mem_cons_of_mem _ (ih _ h)

theorem exactScanY_mem (es : Nat → ℚ) (xb xe yb w : Nat) (half : ℚ) (L : List Nat) (acc : ℚ) (p : Nat)
    (h : exactScanY es xb xe yb w half L acc = some p) : p ∈ L := by
  induction L generalizing acc with
  | nil => simp [exactScanY] at h
  | cons j L ih =>
    unfold exactScanY at h
    simp only at h
    split_ifs at h with hge
    · cases h; exact List.mem_cons_self _ _
    · exact List.mem_cons_of_mem _ (ih _ h)

/-- The column scan stops inside a non-empty range once the running sum over all columns
reaches the threshold. -/
theorem exactScanX_found (es : Nat → ℚ) (xb yb ye w : Nat) (half : ℚ) (L : List Nat) (acc : ℚ)
    (hL : L ≠ [])
    (htot : half ≤ acc + (L.map (fun i =>
      ((loopRange yb ye).map (fun j => es (errIdx xb yb w i j))).sum)).sum) :
    ∃ p, exactScanX es xb yb ye w half L acc = some p := by
  induction L generalizing acc with
  | nil => exact absurd rfl hL
  | cons i L ih =>
    unfold exactScanX
    simp only [forRange_add_sum]
    split_ifs with hge
    · exact ⟨i, rfl⟩
    · have hne : L ≠ [] := by
        rintro rfl
        apply hge
        simpa using htot
      apply ih _ hne
      simpa [add_assoc] using htot

theorem exactScanY_found (es : Nat → ℚ) (xb xe yb w : Nat) (half : ℚ) (L : List Nat) (acc : ℚ)
    (hL : L ≠ [])
    (htot : half ≤ acc + (L.map (fun j =>
      ((loopRange xb xe).map (fun i => es (errIdx xb yb w i j))).sum)).sum) :
    ∃ p, exactScanY es xb xe yb w half L acc = some p := by
  induction L generalizing acc with
  | nil => exact absurd rfl hL
  | cons j L ih =>
    unfold exactScanY
    simp only [forRange_add_sum]
    split_ifs with hge
    · exact ⟨j, rfl⟩
    · have hne : L ≠ [] := by
        rintro rfl
        apply hge
        simpa using htot
      apply ih _ hne
      simpa [add_assoc] using htot

theorem loopRange_ne_nil {lo hi : Nat} (h : lo < hi) : loopRange lo hi ≠ [] := by
  intro hnil
  have : lo ∈ loopRange lo hi := mem_loopRange.mpr ⟨le_refl _, h⟩
  rw [hnil] at this
  exact absurd this (List.not_mem_nil _)

/-- The cells read back by the column scan add up to the block error. -/
theorem scan_total_cols (sqrtF : ℚ → ℚ) (st : adaptive_sampler) (s xe xb ye yb : Nat) :
    ((loopRange xb xe).map (fun i => ((loopRange yb ye).map (fun j =>
        (exactLoop sqrtF st s xe xb ye yb).1 (errIdx xb yb (xe - xb) i j))).sum)).sum
      = exactError sqrtF st s xe xb ye yb := by
  rw [exactError_eq_sum]
  congr 1
  apply List.map_congr_left
  intro i hi
  congr 1
  apply List.map_congr_left
  intro j hj
  exact exactLoop_read sqrtF st s xe xb ye yb i j (mem_loopRange.mp hi) (mem_loopRange.mp hj)

/-- The cells read back by the row scan add up to the block error. -/
theorem scan_total_rows (sqrtF : ℚ → ℚ) (st : adaptive_sampler) (s xe xb ye yb : Nat) :
    ((loopRange yb ye).map (fun j => ((loopRange xb xe).map (fun i =>
        (exactLoop sqrtF st s xe xb ye yb).1 (errIdx xb yb (xe - xb) i j))).sum)).sum
      = exactError sqrtF st s xe xb ye yb := by
  rw [← scan_total_cols]
  exact (sum_swap (fun i j => (exactLoop sqrtF st s xe xb ye yb).1 (errIdx xb yb (xe - xb) i j))
    (loopRange xb xe) (loopRange yb ye)).symm

theorem sqrtQ_nonneg (q : ℚ) : 0 ≤ sqrtQ q :=
  div_nonneg (Nat.cast_nonneg _) (Nat.cast_nonneg _)

theorem sqrtQ_one : sqrtQ 1 = 1 := by simp [sqrtQ]

/-! ## Arithmetic with NaN -/

@[simp] theorem Flt.val_add_val (a b : ℚ) : Flt.val a + Flt.val b = Flt.val (a + b) := rfl

@[simp] theorem Flt.val_mul_val (a b : ℚ) : Flt.val a * Flt.val b = Flt.val (a * b) := rfl

@[simp] theorem Flt.val_div_val (a b : ℚ) : Flt.val a / Flt.val b = Flt.val (a / b) := rfl

@[simp] theorem Flt.add_nan (a : Flt) : a + Flt.nan = Flt.nan := by cases a <;> rfl

@[simp] theorem Flt.nan_add (a : Flt) : Flt.nan + a = Flt.nan := by cases a <;> rfl

@[simp] theorem Flt.div_nan (a : Flt) : a / Flt.nan = Flt.nan := by cases a <;> rfl

@[simp] theorem Flt.val_lt_val (a b : ℚ) : Flt.val a < Flt.val b ↔ a < b := Iff.rfl

@[simp] theorem Flt.val_le_val (a b : ℚ) : Flt.val a ≤ Flt.val b ↔ a ≤ b := Iff.rfl

@[simp] theorem Flt.not_nan_lt (a : Flt) : ¬ Flt.nan < a := by cases a <;> exact fun h => h

@[simp] theorem Flt.not_lt_nan (a : Flt) : ¬ a < Flt.nan := by cases a <;> exact fun h => h

@[simp] theorem Flt.not_nan_le (a : Flt) : ¬ Flt.nan ≤ a := by cases a <;> exact fun h => h

@[simp] theorem Flt.not_le_nan (a : Flt) : ¬ a ≤ Flt.nan := by cases a <;> exact fun h => h

theorem Flt.zero_eq : (0 : Flt) = Flt.val 0 := rfl

theorem Flt.one_eq : (1 : Flt) = Flt.val 1 := rfl

theorem Flt.val_inj (a b : ℚ) : Flt.val a = Flt.val b ↔ a = b :=
  ⟨fun h => Flt.val.inj h, fun h => by rw [h]⟩

/-- A value below a number is a number. -/
theorem Flt.eq_val_of_lt (E : Flt) (b : ℚ) (h : E < Flt.val b) : ∃ e, E = Flt.val e ∧ e < b := by
  cases E with
  | val e => exact ⟨e, rfl, h⟩
  | nan => exact absurd h (Flt.not_nan_lt _)

/-- A value that a number does not exceed is a number. -/
theorem Flt.eq_val_of_le (a : ℚ) (E : Flt) (h : Flt.val a ≤ E) : ∃ e, E = Flt.val e ∧ a ≤ e := by
  cases E with
  | val e => exact ⟨e, rfl, h⟩
  | nan => exact absurd h (Flt.not_le_nan _)

theorem Flt.not_lt_of_le (a : ℚ) (E : Flt) (h : Flt.val a ≤ E) : ¬ E < Flt.val a := by
  cases E with
  | val e => exact fun hlt => absurd ((Flt.val_lt_val e a).mp hlt) (not_lt.mpr ((Flt.val_le_val a e).mp h))
  | nan => exact Flt.not_nan_lt _

theorem Flt.sqrt_val (sqrtF : ℚ → ℚ) (a : ℚ) (h : 0 ≤ a) :
    Flt.sqrt sqrtF (Flt.val a) = Flt.val (sqrtF a) := by
  show (if a < 0 then Flt.nan else Flt.val (sqrtF a)) = _
  rw [if_neg (not_lt.mpr h)]

theorem Flt.sqrt_neg (sqrtF : ℚ → ℚ) (a : ℚ) (h : a < 0) :
    Flt.sqrt sqrtF (Flt.val a) = Flt.nan := by
  show (if a < 0 then Flt.nan else Flt.val (sqrtF a)) = _
  rw [if_pos h]

/-! ## The loops of the convergence test -/

/-- At a pixel whose primary sum is not negative, one step of the first loops computes the
rational cell. -/
theorem errBody_exact (sqrtF : ℚ → ℚ) (st : adaptive_sampler) (s : Nat) (N r_b : ℚ)
    (xb yb w i j : Nat) (acc : (Nat → ℚ) × ℚ)
    (h : 0 ≤ st.r i j + st.g i j + st.b i j) :
    errBody sqrtF st s N (Flt.val r_b) xb yb w i j (fun t => Flt.val (acc.1 t), Flt.val acc.2)
      = (fun t => Flt.val ((exactBody sqrtF st s N r_b xb yb w i j acc).1 t),
         Flt.val (exactBody sqrtF st s N r_b xb yb w i j acc).2) := by
  unfold errBody exactBody
  simp only [Flt.sqrt_val sqrtF _ h, Flt.zero_eq, ne_eq, Flt.val_inj]
  by_cases hn : sqrtF (st.r i j + st.g i j + st.b i j) = 0
  · simp only [hn, not_true_eq_false, if_false]
    refine Prod.ext ?_ ?_
    · funext t; by_cases ht : t = errIdx xb yb w i j <;> simp [vecSet, ht]
    · simp [vecSet]
  · simp only [hn, not_false_eq_true, if_true]
    refine Prod.ext ?_ ?_
    · funext t; by_cases ht : t = errIdx xb yb w i j <;> simp [vecSet, ht]
    · simp [vecSet]

/-- At a pixel whose primary sum is negative, one step of the first loops makes `error_block`
NaN. -/
theorem errBody_nan (sqrtF : ℚ → ℚ) (st : adaptive_sampler) (s : Nat) (N : ℚ) (r_b : Flt)
    (xb yb w i j : Nat) (acc : (Nat → Flt) × Flt)
    (h : st.r i j + st.g i j + st.b i j < 0) :
    (errBody sqrtF st s N r_b xb yb w i j acc).2 = Flt.nan := by
  unfold errBody
  simp only [Flt.sqrt_neg sqrtF _ h]
  rw [if_pos (by decide)]
  simp [vecSet]

/-- Once `error_block` is NaN it stays NaN. -/
theorem errBody_keeps_nan (sqrtF : ℚ → ℚ) (st : adaptive_sampler) (s : Nat) (N : ℚ) (r_b : Flt)
    (xb yb w i j : Nat) (acc : (Nat → Flt) × Flt) (h : acc.2 = Flt.nan) :
    (errBody sqrtF st s N r_b xb yb w i j acc).2 = Flt.nan := by
  unfold errBody
  simp only [h, Flt.nan_add]

theorem errFold_exact (sqrtF : ℚ → ℚ) (st : adaptive_sampler) (s : Nat) (N r_b : ℚ)
    (xb yb w : Nat) (P : List (Nat × Nat)) (acc : (Nat → ℚ) × ℚ)
    (h : ∀ p, p ∈ P → 0 ≤ st.r p.1 p.2 + st.g p.1 p.2 + st.b p.1 p.2) :
    P.foldl (fun a p => errBody sqrtF st s N (Flt.val r_b) xb yb w p.1 p.2 a)
        (fun t => Flt.val (acc.1 t), Flt.val acc.2)
      = (fun t => Flt.val
            ((P.foldl (fun a p => exactBody sqrtF st s N r_b xb yb w p.1 p.2 a) acc).1 t),
         Flt.val (P.foldl (fun a p => exactBody sqrtF st s N r_b xb yb w p.1 p.2 a) acc).2) := by
  induction P generalizing acc with
  | nil => rfl
  | cons p P ih =>
    rw [List.foldl_cons, List.foldl_cons,
      errBody_exact sqrtF st s N r_b xb yb w p.1 p.2 acc (h p (List.mem_cons_self _ _)),
      ih _ (fun q hq => h q (List.mem_cons_of_mem _ hq))]

theorem errFold_nan (sqrtF : ℚ → ℚ) (st : adaptive_sampler) (s : Nat) (N : ℚ) (r_b : Flt)
    (xb yb w : Nat) (P : List (Nat × Nat)) (acc : (Nat → Flt) × Flt)
    (h : acc.2 = Flt.nan ∨ ∃ p, p ∈ P ∧ st.r p.1 p.2 + st.g p.1 p.2 + st.b p.1 p.2 < 0) :
    (P.foldl (fun a p => errBody sqrtF st s N r_b xb yb w p.1 p.2 a) acc).2 = Flt.nan := by
  induction P generalizing acc with
  | nil =>
    rcases h with h | ⟨p, hp, _⟩
    · exact h
    · exact absurd hp (List.not_mem_nil p)
  | cons q P ih =>
    rw [List.foldl_cons]
    apply ih
    rcases h with h | ⟨p, hp, hneg⟩
    · exact Or.inl (errBody_keeps_nan sqrtF st s N r_b xb yb w q.1 q.2 acc h)
    · rcases List.mem_cons.mp hp with rfl | hp'
      · exact Or.inl (errBody_nan sqrtF st s N r_b xb yb w p.1 p.2 acc hneg)
      · exact Or.inr ⟨p, hp', hneg⟩

/-- On a block without a negative primary sum the first loops of `test_for_convergence` fill
`error_sum` with the rational cells and leave their sum in `error_block`. -/
theorem errLoop_exact (sqrtF : ℚ → ℚ) (st : adaptive_sampler) (s xe xb ye yb : Nat)
    (h : nanFree st xe xb ye yb) :
    errLoop sqrtF st s xe xb ye yb
      = (fun t => Flt.val ((exactLoop sqrtF st s xe xb ye yb).1 t),
         Flt.val (exactLoop sqrtF st s xe xb ye yb).2) := by
  have hq : (0 : ℚ) ≤ (((xe - xb : Nat) : ℚ) * ((ye - yb : Nat) : ℚ))
      / ((st.nx : ℚ) * (st.ny : ℚ)) := by positivity
  unfold errLoop exactLoop
  simp only [Flt.sqrt_val sqrtF _ hq]
  rw [forRange_nested (fun i j acc => errBody sqrtF st s _ _ xb yb (xe - xb) i j acc),
    forRange_nested (fun i j acc => exactBody sqrtF st s _ _ xb yb (xe - xb) i j acc)]
  exact errFold_exact sqrtF st s _ _ xb yb (xe - xb) (pixelList xb xe yb ye) (fun _ => 0, 0)
    (fun p hp => by
      obtain ⟨⟨h1, h2⟩, h3, h4⟩ := mem_pixelList.mp hp
      exact h p.1 p.2 h1 h2 h3 h4)

/-- On a block with a negative primary sum the first loops of `test_for_convergence` leave NaN
in `error_block`. -/
theorem errLoop_nan (sqrtF : ℚ → ℚ) (st : adaptive_sampler) (s xe xb ye yb : Nat)
    (h : ¬ nanFree st xe xb ye yb) :
    (errLoop sqrtF st s xe xb ye yb).2 = Flt.nan := by
  unfold nanFree at h
  push_neg at h
  obtain ⟨i, j, h1, h2, h3, h4, hneg⟩ := h
  unfold errLoop
  simp only
  rw [forRange_nested (fun i j acc => errBody sqrtF st s _ _ xb yb (xe - xb) i j acc)]
  exact errFold_nan sqrtF st s _ _ xb yb (xe - xb) (pixelList xb xe yb ye) _
    (Or.inr ⟨(i, j), mem_pixelList.mpr ⟨⟨h1, h2⟩, h3, h4⟩, hneg⟩)

/-- The value of `error_block` on a block without a negative primary sum. -/
theorem error_block_exact (sqrtF : ℚ → ℚ) (st : adaptive_sampler) (s xe xb ye yb : Nat)
    (h : nanFree st xe xb ye yb) :
    error_block sqrtF st s xe xb ye yb = Flt.val (exactError sqrtF st s xe xb ye yb) := by
  unfold error_block exactError
  rw [errLoop_exact sqrtF st s xe xb ye yb h]

/-- The value of `error_block` on a block with a negative primary sum. -/
theorem error_block_nan (sqrtF : ℚ → ℚ) (st : adaptive_sampler) (s xe xb ye yb : Nat)
    (h : ¬ nanFree st xe xb ye yb) :
    error_block sqrtF st s xe xb ye yb = Flt.nan :=
  errLoop_nan sqrtF st s xe xb ye yb h

/-- The block error is a number exactly on the blocks without a negative primary sum. -/
theorem nanFree_of_error_block (sqrtF : ℚ → ℚ) (st : adaptive_sampler) (s xe xb ye yb : Nat)
    (e : ℚ) (h : error_block sqrtF st s xe xb ye yb = Flt.val e) :
    nanFree st xe xb ye yb ∧ e = exactError sqrtF st s xe xb ye yb := by
  by_cases hn : nanFree st xe xb ye yb
  · rw [error_block_exact sqrtF st s xe xb ye yb hn] at h
    exact ⟨hn, (Flt.val.inj h).symm⟩
  · rw [error_block_nan sqrtF st s xe xb ye yb hn] at h
    exact absurd h (by simp)

theorem forRange_val_add (lo hi : Nat) (f : Nat → ℚ) (acc : ℚ) :
    forRange lo hi (fun j a => a + Flt.val (f j)) (Flt.val acc)
      = Flt.val (forRange lo hi (fun j a => a + f j) acc) := by
  unfold forRange
  generalize loopRange lo hi = L
  induction L generalizing acc with
  | nil => rfl
  | cons j L ih =>
    rw [List.foldl_cons, List.foldl_cons]
    exact ih (acc + f j)

/-- Over rational cells the column scan of `test_for_convergence` is the rational scan. -/
theorem scanX_exact (es : Nat → ℚ) (xb yb ye w : Nat) (half : ℚ) (L : List Nat) (acc : ℚ) :
    scanX (fun t => Flt.val (es t)) xb yb ye w (Flt.val half) L (Flt.val acc)
      = exactScanX es xb yb ye w half L acc := by
  induction L generalizing acc with
  | nil => rfl
  | cons i L ih =>
    unfold scanX exactScanX
    simp only [forRange_val_add yb ye (fun j => es (errIdx xb yb w i j)), ge_iff_le,
      Flt.val_le_val, ih]

/-- Over rational cells the row scan of `test_for_convergence` is the rational scan. -/
theorem scanY_exact (es : Nat → ℚ) (xb xe yb w : Nat) (half : ℚ) (L : List Nat) (acc : ℚ) :
    scanY (fun t => Flt.val (es t)) xb xe yb w (Flt.val half) L (Flt.val acc)
      = exactScanY es xb xe yb w half L acc := by
  induction L generalizing acc with
  | nil => rfl
  | cons j L ih =>
    unfold scanY exactScanY
    simp only [forRange_val_add xb xe (fun i => es (errIdx xb yb w i j)), ge_iff_le,
      Flt.val_le_val, ih]

/-- On a block without a negative primary sum a call of `test_for_convergence` treats its chunk
as the computation over the rationals does. -/
theorem tfcBlock_exact (sqrtF : ℚ → ℚ) (st : adaptive_sampler) (s xe xb ye yb : Nat)
    (c : pixel_block) (h : nanFree st xe xb ye yb) :
    tfcBlock sqrtF st s xe xb ye yb c = exactBlock sqrtF st s xe xb ye yb c := by
  unfold tfcBlock exactBlock
  simp only [errLoop_exact sqrtF st s xe xb ye yb h, Flt.val_lt_val, Flt.val_div_val,
    Flt.zero_eq, scanX_exact, scanY_exact]

/-- On a block with a negative primary sum a call of `test_for_convergence` stores NaN as the
error of its chunk and assigns nothing else. -/
theorem tfcBlock_nan (sqrtF : ℚ → ℚ) (st : adaptive_sampler) (s xe xb ye yb : Nat)
    (c : pixel_block) (h : ¬ nanFree st xe xb ye yb) :
    tfcBlock sqrtF st s xe xb ye yb c = { c with error := Flt.nan } := by
  unfold tfcBlock
  simp only [errLoop_nan sqrtF st s xe xb ye yb h, Flt.not_nan_lt, if_false]

/-! ## The effect of the convergence test on its chunk -/

theorem setSplitPos_fields (found : Option Nat) (c : pixel_block) :
    (setSplitPos found c).startx = c.startx ∧ (setSplitPos found c).starty = c.starty ∧
    (setSplitPos found c).endx = c.endx ∧ (setSplitPos found c).endy = c.endy ∧
    (setSplitPos found c).split_axis = c.split_axis ∧ (setSplitPos found c).erase = c.erase ∧
    (setSplitPos found c).split = c.split ∧ (setSplitPos found c).error = c.error := by
  cases found <;> simp [setSplitPos]

theorem tfcBlock_bounds (sqrtF : ℚ → ℚ) (st : adaptive_sampler) (s xe xb ye yb : Nat)
    (c : pixel_block) :
    (tfcBlock sqrtF st s xe xb ye yb c).startx = c.startx ∧
    (tfcBlock sqrtF st s xe xb ye yb c).starty = c.starty ∧
    (tfcBlock sqrtF st s xe xb ye yb c).endx = c.endx ∧
    (tfcBlock sqrtF st s xe xb ye yb c).endy = c.endy := by
  unfold tfcBlock
  simp only
  split_ifs <;> simp [setSplitPos_fields]

theorem tfcBlock_error (sqrtF : ℚ → ℚ) (st : adaptive_sampler) (s xe xb ye yb : Nat)
    (c : pixel_block) :
    (tfcBlock sqrtF st s xe xb ye yb c).error = error_block sqrtF st s xe xb ye yb := by
  unfold tfcBlock error_block
  simp only
  split_ifs <;> simp [setSplitPos_fields]

theorem tfcBlock_erase (sqrtF : ℚ → ℚ) (st : adaptive_sampler) (s xe xb ye yb : Nat)
    (c : pixel_block) :
    (tfcBlock sqrtF st s xe xb ye yb c).erase
      = (c.erase || decide (error_block sqrtF st s xe xb ye yb < Flt.val st.min_variance)) := by
  unfold tfcBlock error_block
  simp only
  split_ifs with h1 h2 h3 <;> simp [setSplitPos_fields, h1]

theorem tfcBlock_split (sqrtF : ℚ → ℚ) (st : adaptive_sampler) (s xe xb ye yb : Nat)
    (c : pixel_block) :
    (tfcBlock sqrtF st s xe xb ye yb c).split
      = (c.split || (!decide (error_block sqrtF st s xe xb ye yb < Flt.val st.min_variance)
          && decide (error_block sqrtF st s xe xb ye yb < Flt.val (st.min_variance * 256)))) := by
  unfold tfcBlock error_block
  simp only
  by_cases h1 : (errLoop sqrtF st s xe xb ye yb).2 < Flt.val st.min_variance
  · simp [h1]
  · by_cases h2 : (errLoop sqrtF st s xe xb ye yb).2 < Flt.val (st.min_variance * 256)
    · rw [if_neg h1, if_pos h2]
      split_ifs <;> simp [setSplitPos_fields, h1, h2]
    · simp [h1, h2]

/-- The split branch is taken only on a block without a negative primary sum, with the
rational block error between the thresholds. -/
theorem split_branch_exact (sqrtF : ℚ → ℚ) (st : adaptive_sampler) (s xe xb ye yb : Nat)
    (h1 : ¬ error_block sqrtF st s xe xb ye yb < Flt.val st.min_variance)
    (h2 : error_block sqrtF st s xe xb ye yb < Flt.val (st.min_variance * 256)) :
    nanFree st xe xb ye yb ∧
    error_block sqrtF st s xe xb ye yb = Flt.val (exactError sqrtF st s xe xb ye yb) ∧
    ¬ exactError sqrtF st s xe xb ye yb < st.min_variance ∧
    exactError sqrtF st s xe xb ye yb < st.min_variance * 256 := by
  obtain ⟨e, he, _⟩ := Flt.eq_val_of_lt _ _ h2
  obtain ⟨hn, rfl⟩ := nanFree_of_error_block sqrtF st s xe xb ye yb e he
  rw [he] at h1 h2
  exact ⟨hn, he, h1, h2⟩

/-- The split branch over the rationals stores the axis of the longer side (the x axis on a
tie) and a split position inside the region along that axis. -/
theorem exactBlock_split_geometry (sqrtF : ℚ → ℚ) (hsqrt : ∀ q, 0 ≤ sqrtF q)
    (st : adaptive_sampler) (s xe xb ye yb : Nat) (c : pixel_block)
    (h1 : ¬ exactError sqrtF st s xe xb ye yb < st.min_variance)
    (h2 : exactError sqrtF st s xe xb ye yb < st.min_variance * 256) :
    (ye - yb ≤ xe - xb → (exactBlock sqrtF st s xe xb ye yb c).split_axis = 0 ∧
      xb ≤ (exactBlock sqrtF st s xe xb ye yb c).split_pos ∧
      (exactBlock sqrtF st s xe xb ye yb c).split_pos < xe) ∧
    (xe - xb < ye - yb → (exactBlock sqrtF st s xe xb ye yb c).split_axis = 1 ∧
      yb ≤ (exactBlock sqrtF st s xe xb ye yb c).split_pos ∧
      (exactBlock sqrtF st s xe xb ye yb c).split_pos < ye) := by
  have hE0 := exactError_nonneg sqrtF hsqrt st s xe xb ye yb
  have hpos : 0 < exactError sqrtF st s xe xb ye yb := by
    rcases lt_or_eq_of_le hE0 with h | h
    · exact h
    · exfalso
      rw [← h] at h1 h2
      have : (0 : ℚ) < st.min_variance := by linarith
      exact h1 this
  obtain ⟨hx, hy⟩ := exactError_ne_zero sqrtF st s xe xb ye yb (ne_of_gt hpos)
  have hhalf : exactError sqrtF st s xe xb ye yb / 2 ≤ exactError sqrtF st s xe xb ye yb := by
    linarith
  unfold exactError at h1 h2 hhalf
  constructor
  · intro hge
    obtain ⟨p, hp⟩ := exactScanX_found (exactLoop sqrtF st s xe xb ye yb).1 xb yb ye (xe - xb)
      ((exactLoop sqrtF st s xe xb ye yb).2 / 2) (loopRange xb xe) 0 (loopRange_ne_nil hx)
      (by rw [scan_total_cols, zero_add]; exact hhalf)
    have hmem := mem_loopRange.mp (exactScanX_mem _ _ _ _ _ _ _ _ _ hp)
    unfold exactBlock
    simp only [if_neg h1, if_pos h2, ge_iff_le, if_pos hge, hp, setSplitPos]
    exact ⟨trivial, hmem.1, hmem.2⟩
  · intro hlt
    obtain ⟨p, hp⟩ := exactScanY_found (exactLoop sqrtF st s xe xb ye yb).1 xb xe yb (xe - xb)
      ((exactLoop sqrtF st s xe xb ye yb).2 / 2) (loopRange yb ye) 0 (loopRange_ne_nil hy)
      (by rw [scan_total_rows, zero_add]; exact hhalf)
    have hmem := mem_loopRange.mp (exactScanY_mem _ _ _ _ _ _ _ _ _ hp)
    unfold exactBlock
    simp only [if_neg h1, if_pos h2, ge_iff_le, if_neg (not_le.mpr hlt), hp, setSplitPos]
    exact ⟨trivial, hmem.1, hmem.2⟩

/-- When the call takes the split branch, it stores the axis of the longer side (the x axis on
a tie) and a split position inside the region along that axis. -/
theorem tfcBlock_split_geometry (sqrtF : ℚ → ℚ) (hsqrt : ∀ q, 0 ≤ sqrtF q)
    (st : adaptive_sampler) (s xe xb ye yb : Nat) (c : pixel_block)
    (h1 : ¬ error_block sqrtF st s xe xb ye yb < Flt.val st.min_variance)
    (h2 : error_block sqrtF st s xe xb ye yb < Flt.val (st.min_variance * 256)) :
    (ye - yb ≤ xe - xb → (tfcBlock sqrtF st s xe xb ye yb c).split_axis = 0 ∧
      xb ≤ (tfcBlock sqrtF st s xe xb ye yb c).split_pos ∧
      (tfcBlock sqrtF st s xe xb ye yb c).split_pos < xe) ∧
    (xe - xb < ye - yb → (tfcBlock sqrtF st s xe xb ye yb c).split_axis = 1 ∧
      yb ≤ (tfcBlock sqrtF st s xe xb ye yb c).split_pos ∧
      (tfcBlock sqrtF st s xe xb ye yb c).split_pos < ye) := by
  obtain ⟨hn, _, e1, e2⟩ := split_branch_exact sqrtF st s xe xb ye yb h1 h2
  rw [tfcBlock_exact sqrtF st s xe xb ye yb c hn]
  exact exactBlock_split_geometry sqrtF hsqrt st s xe xb ye yb c e1 e2

/-- The chunk `k` after a call of `test_for_convergence` is `tfcBlock` of the chunk before. -/
theorem test_for_convergence_get (sqrtF : ℚ → ℚ) (st : adaptive_sampler)
    (k s xe xb ye yb : Nat) (c : pixel_block) (hk : st.pixel_chunks[k]? = some c) :
    (test_for_convergence sqrtF st k s xe xb ye yb).pixel_chunks[k]?
      = some (tfcBlock sqrtF st s xe xb ye yb c) := by
  rw [test_for_convergence_eq]
  show (modifyAt _ st.pixel_chunks k)[k]? = _
  rw [modifyAt_get_self, hk]
  rfl

/-- A block error that is a number is not negative. -/
theorem error_block_val_nonneg (sqrtF : ℚ → ℚ) (hsqrt : ∀ q, 0 ≤ sqrtF q)
    (st : adaptive_sampler) (s xe xb ye yb : Nat) (e : ℚ)
    (h : error_block sqrtF st s xe xb ye yb = Flt.val e) : 0 ≤ e := by
  obtain ⟨_, rfl⟩ := nanFree_of_error_block sqrtF st s xe xb ye yb e h
  exact exactError_nonneg sqrtF hsqrt st s xe xb ye yb

/-- C7: for a region whose `erase` and `split` flags are both false before the call, after
`test_for_convergence` the stored error is the computed block error `E`, `erase` is true exactly
when `E < min_variance`, `split` is true exactly when `min_variance <= E < 256 * min_variance`,
and both flags are false when `E >= 256 * min_variance`.  The comparisons are those of the
code: each of them is false when `E` is NaN. -/
theorem C7_classification_thresholds (sqrtF : ℚ → ℚ) (hsqrt : ∀ q, 0 ≤ sqrtF q)
    (st : adaptive_sampler) (k s xe xb ye yb : Nat) (c : pixel_block)
    (hk : st.pixel_chunks[k]? = some c) (he : c.erase = false) (hs : c.split = false) :
    ∃ c', (test_for_convergence sqrtF st k s xe xb ye yb).pixel_chunks[k]? = some c' ∧
      c'.error = error_block sqrtF st s xe xb ye yb ∧
      (c'.erase = true ↔ error_block sqrtF st s xe xb ye yb < Flt.val st.min_variance) ∧
      (c'.split = true ↔ Flt.val st.min_variance ≤ error_block sqrtF st s xe xb ye yb ∧
        error_block sqrtF st s xe xb ye yb < Flt.val (256 * st.min_variance)) ∧
      (Flt.val (256 * st.min_variance) ≤ error_block sqrtF st s xe xb ye yb →
        c'.erase = false ∧ c'.split = false) := by
  refine ⟨tfcBlock sqrtF st s xe xb ye yb c, test_for_convergence_get sqrtF st k s xe xb ye yb c hk,
    tfcBlock_error sqrtF st s xe xb ye yb c, ?_, ?_, ?_⟩
  · rw [tfcBlock_erase, he]; simp
  · rw [tfcBlock_split, hs, mul_comm st.min_variance 256]
    cases hE : error_block sqrtF st s xe xb ye yb with
    | val e => simp
    | nan => simp
  · intro hbig
    obtain ⟨e, hE, hbig'⟩ := Flt.eq_val_of_le _ _ hbig
    have hE0 := error_block_val_nonneg sqrtF hsqrt st s xe xb ye yb e hE
    have hnot : ¬ e < st.min_variance := by
      intro hlt
      linarith
    rw [tfcBlock_erase, tfcBlock_split, he, hs, mul_comm st.min_variance 256, hE]
    simp [hnot, not_lt.mpr hbig']

theorem sampler4_chunks (r r2 : NumericMatrix) : (sampler4 r r2).pixel_chunks = [fullBlock4] := rfl

theorem loopRange_0_4 : loopRange 0 4 = [0, 1, 2, 3] := rfl

/-- Witness of C7: the full-image region of a 4x4 sampler with primary red 1 everywhere. -/
theorem C7_classification_thresholds_witness :
    (∀ q, 0 ≤ sqrtQ q) ∧
    (sampler4 (constMatrix 1) (constMatrix 0)).pixel_chunks[0]? = some fullBlock4 ∧
    fullBlock4.erase = false ∧ fullBlock4.split = false ∧
    ∃ c', (test_for_convergence sqrtQ (sampler4 (constMatrix 1) (constMatrix 0))
        0 1 4 0 4 0).pixel_chunks[0]? = some c' ∧
      c'.error = error_block sqrtQ (sampler4 (constMatrix 1) (constMatrix 0)) 1 4 0 4 0 ∧
      (c'.erase = true ↔ error_block sqrtQ (sampler4 (constMatrix 1) (constMatrix 0)) 1 4 0 4 0
        < Flt.val (sampler4 (constMatrix 1) (constMatrix 0)).min_variance) ∧
      (c'.split = true ↔ Flt.val (sampler4 (constMatrix 1) (constMatrix 0)).min_variance
          ≤ error_block sqrtQ (sampler4 (constMatrix 1) (constMatrix 0)) 1 4 0 4 0 ∧
        error_block sqrtQ (sampler4 (constMatrix 1) (constMatrix 0)) 1 4 0 4 0
          < Flt.val (256 * (sampler4 (constMatrix 1) (constMatrix 0)).min_variance)) ∧
      (Flt.val (256 * (sampler4 (constMatrix 1) (constMatrix 0)).min_variance)
          ≤ error_block sqrtQ (sampler4 (constMatrix 1) (constMatrix 0)) 1 4 0 4 0 →
        c'.erase = false ∧ c'.split = false) :=
  ⟨sqrtQ_nonneg, rfl, rfl, rfl,
    C7_classification_thresholds sqrtQ sqrtQ_nonneg (sampler4 (constMatrix 1) (constMatrix 0))
      0 1 4 0 4 0 fullBlock4 rfl rfl rfl⟩

/-- Over the rationals, a region on which the primary buffers are twice the secondary ones has
block error 0. -/
theorem exactError_zero_of_double (sqrtF : ℚ → ℚ) (st : adaptive_sampler) (s xe xb ye yb : Nat)
    (hbuf : ∀ i j, xb ≤ i → i < xe → yb ≤ j → j < ye →
      st.r i j = 2 * st.r2 i j ∧ st.g i j = 2 * st.g2 i j ∧ st.b i j = 2 * st.b2 i j) :
    exactError sqrtF st s xe xb ye yb = 0 := by
  rw [exactError_eq_sum]
  have hcell : ∀ i, i ∈ loopRange xb xe → ∀ j, j ∈ loopRange yb ye →
      regionCell sqrtF st s xe xb ye yb i j = 0 := by
    intro i hi j hj
    obtain ⟨hi1, hi2⟩ := mem_loopRange.mp hi
    obtain ⟨hj1, hj2⟩ := mem_loopRange.mp hj
    obtain ⟨h1, h2, h3⟩ := hbuf i j hi1 hi2 hj1 hj2
    unfold regionCell errCell
    rw [h1, h2, h3]
    simp
  have hcol : ∀ i, i ∈ loopRange xb xe →
      ((loopRange yb ye).map (fun j => regionCell sqrtF st s xe xb ye yb i j)).sum = 0 := by
    intro i hi
    rw [List.map_congr_left (fun j hj => hcell i hi j hj)]
    simp
  rw [List.map_congr_left hcol]
  simp

/-- A region without a negative primary sum on which the primary buffers are twice the
secondary ones has block error 0. -/
theorem error_block_zero_of_double (sqrtF : ℚ → ℚ) (st : adaptive_sampler) (s xe xb ye yb : Nat)
    (hsum : nanFree st xe xb ye yb)
    (hbuf : ∀ i j, xb ≤ i → i < xe → yb ≤ j → j < ye →
      st.r i j = 2 * st.r2 i j ∧ st.g i j = 2 * st.g2 i j ∧ st.b i j = 2 * st.b2 i j) :
    error_block sqrtF st s xe xb ye yb = 0 := by
  rw [error_block_exact sqrtF st s xe xb ye yb hsum,
    exactError_zero_of_double sqrtF st s xe xb ye yb hbuf]
  rfl

theorem negativeSampler4_not_nanFree : ¬ nanFree negativeSampler4 4 0 4 0 := by
  intro h
  have h0 := h 0 0 (le_refl 0) (by decide) (le_refl 0) (by decide)
  norm_num [negativeSampler4, sampler4, adaptive_sampler.ctor, constMatrix] at h0

/-- C8, counterexample: on the 4x4 image with one region, `min_variance = 1/100`, primary red
-2 and secondary red -1 at each pixel, the primary buffers are twice the secondary ones
channel-wise, yet `test_for_convergence` at `s = 1` stores NaN as the error, not 0, and does
not set `erase`: the square root of the negative primary sum is NaN. -/
theorem C8_negative_sum_not_converged :
    negativeSampler4.pixel_chunks[0]? = some fullBlock4 ∧
    0 < negativeSampler4.min_variance ∧
    (∀ i j, inBlock fullBlock4 i j →
      negativeSampler4.r i j = 2 * negativeSampler4.r2 i j ∧
      negativeSampler4.g i j = 2 * negativeSampler4.g2 i j ∧
      negativeSampler4.b i j = 2 * negativeSampler4.b2 i j) ∧
    ∃ c', (test_for_convergence sqrtQ negativeSampler4 0 1
        fullBlock4.endx fullBlock4.startx fullBlock4.endy fullBlock4.starty).pixel_chunks[0]?
        = some c' ∧ c'.error = Flt.nan ∧ c'.error ≠ 0 ∧ c'.erase = false ∧ c'.split = false := by
  refine ⟨rfl, by norm_num [negativeSampler4, sampler4, adaptive_sampler.ctor],
    fun i j _ => by norm_num [negativeSampler4, sampler4, adaptive_sampler.ctor, constMatrix],
    _, test_for_convergence_get sqrtQ _ 0 1 _ _ _ _ fullBlock4 rfl, ?_⟩
  have hc : tfcBlock sqrtQ negativeSampler4 1 fullBlock4.endx fullBlock4.startx fullBlock4.endy
      fullBlock4.starty fullBlock4 = { fullBlock4 with error := Flt.nan } :=
    tfcBlock_nan sqrtQ negativeSampler4 1 4 0 4 0 fullBlock4 negativeSampler4_not_nanFree
  rw [hc]
  exact ⟨rfl, by decide, rfl, rfl⟩

/-- C8, as amended: for every round count `s >= 1` and positive `min_variance`, if the primary
buffers are twice the secondary ones channel-wise at every pixel of the region and no pixel of
the region has a negative primary sum `r + g + b`, `test_for_convergence` called with the
region's bounds stores error 0 and sets `erase`. -/
theorem C8_double_secondary_converges (sqrtF : ℚ → ℚ) (st : adaptive_sampler) (k s : Nat)
    (c : pixel_block) (hk : st.pixel_chunks[k]? = some c) (_hs : 1 ≤ s)
    (hmv : 0 < st.min_variance)
    (hbuf : ∀ i j, inBlock c i j →
      st.r i j = 2 * st.r2 i j ∧ st.g i j = 2 * st.g2 i j ∧ st.b i j = 2 * st.b2 i j)
    (hsum : ∀ i j, inBlock c i j → 0 ≤ st.r i j + st.g i j + st.b i j) :
    ∃ c', (test_for_convergence sqrtF st k s c.endx c.startx c.endy c.starty).pixel_chunks[k]?
        = some c' ∧ c'.error = 0 ∧ c'.erase = true := by
  refine ⟨_, test_for_convergence_get sqrtF st k s c.endx c.startx c.endy c.starty c hk, ?_, ?_⟩
  all_goals
    have hn : nanFree st c.endx c.startx c.endy c.starty :=
      fun i j h1 h2 h3 h4 => hsum i j ⟨h1, h2, h3, h4⟩
    have hE : error_block sqrtF st s c.endx c.startx c.endy c.starty = 0 :=
      error_block_zero_of_double sqrtF st s c.endx c.startx c.endy c.starty hn
        (fun i j h1 h2 h3 h4 => hbuf i j ⟨h1, h2, h3, h4⟩)
  · rw [tfcBlock_error, hE]
  · rw [tfcBlock_erase, hE, Flt.zero_eq]
    simp [hmv]

/-- Witness of C8 as amended: primary red 2 and secondary red 1 over the 4x4 image. -/
theorem C8_double_secondary_converges_witness :
    (sampler4 (constMatrix 2) (constMatrix 1)).pixel_chunks[0]? = some fullBlock4 ∧
    1 ≤ 1 ∧ 0 < (sampler4 (constMatrix 2) (constMatrix 1)).min_variance ∧
    (∀ i j, inBlock fullBlock4 i j →
      (sampler4 (constMatrix 2) (constMatrix 1)).r i j
        = 2 * (sampler4 (constMatrix 2) (constMatrix 1)).r2 i j ∧
      (sampler4 (constMatrix 2) (constMatrix 1)).g i j
        = 2 * (sampler4 (constMatrix 2) (constMatrix 1)).g2 i j ∧
      (sampler4 (constMatrix 2) (constMatrix 1)).b i j
        = 2 * (sampler4 (constMatrix 2) (constMatrix 1)).b2 i j) ∧
    (∀ i j, inBlock fullBlock4 i j →
      0 ≤ (sampler4 (constMatrix 2) (constMatrix 1)).r i j
        + (sampler4 (constMatrix 2) (constMatrix 1)).g i j
        + (sampler4 (constMatrix 2) (constMatrix 1)).b i j) ∧
    ∃ c', (test_for_convergence sqrtQ (sampler4 (constMatrix 2) (constMatrix 1)) 0 1
        fullBlock4.endx fullBlock4.startx fullBlock4.endy fullBlock4.starty).pixel_chunks[0]?
        = some c' ∧ c'.error = 0 ∧ c'.erase = true :=
  ⟨rfl, le_refl 1, by norm_num [sampler4, adaptive_sampler.ctor],
    fun i j _ => by simp [sampler4, adaptive_sampler.ctor, constMatrix],
    fun i j _ => by norm_num [sampler4, adaptive_sampler.ctor, constMatrix],
    C8_double_secondary_converges sqrtQ (sampler4 (constMatrix 2) (constMatrix 1)) 0 1 fullBlock4
      rfl (le_refl 1) (by norm_num [sampler4, adaptive_sampler.ctor])
      (fun i j _ => by simp [sampler4, adaptive_sampler.ctor, constMatrix])
      (fun i j _ => by norm_num [sampler4, adaptive_sampler.ctor, constMatrix])⟩

theorem nanFree_of_nonneg (st : adaptive_sampler) (xe xb ye yb : Nat)
    (h : ∀ i j, 0 ≤ st.r i j + st.g i j + st.b i j) : nanFree st xe xb ye yb :=
  fun i j _ _ _ _ => h i j

/-- The block error of the 4x4 image with primary red = secondary red = 1 is 1. -/
theorem error_block_equal_buffers :
    error_block sqrtQ (sampler4 (constMatrix 1) (constMatrix 1)) 1 4 0 4 0 = 1 := by
  rw [error_block_exact _ _ _ _ _ _ _ (nanFree_of_nonneg _ _ _ _ _
    (fun i j => by norm_num [sampler4, adaptive_sampler.ctor, constMatrix])),
    exactError_eq_sum, loopRange_0_4]
  simp only [regionCell, errCell, sampler4, adaptive_sampler.ctor, constMatrix, List.map_cons,
    List.map_nil, List.sum_cons, List.sum_nil]
  norm_num [sqrtQ_one]
  rfl

/-- C9, counterexample: on the 4x4 image with one region, `ns = 4`, `min_variance = 1/100` and
the sample colour `(1, 0, 0)` in both buffers at each of the 16 pixels, primary and secondary
are equal everywhere, yet `test_for_convergence` at `s = 1` stores the error 1 and does not
set `erase` (it sets `split`). -/
theorem C9_equal_buffers_not_converged :
    (∀ i j, (sampler4 (constMatrix 1) (constMatrix 1)).r i j
        = (sampler4 (constMatrix 1) (constMatrix 1)).r2 i j ∧
      (sampler4 (constMatrix 1) (constMatrix 1)).g i j
        = (sampler4 (constMatrix 1) (constMatrix 1)).g2 i j ∧
      (sampler4 (constMatrix 1) (constMatrix 1)).b i j
        = (sampler4 (constMatrix 1) (constMatrix 1)).b2 i j) ∧
    ∃ c', (test_for_convergence sqrtQ (sampler4 (constMatrix 1) (constMatrix 1))
        0 1 4 0 4 0).pixel_chunks[0]? = some c' ∧
      c'.error = 1 ∧ c'.erase = false ∧ c'.split = true := by
  refine ⟨fun i j => ⟨rfl, rfl, rfl⟩, _,
    test_for_convergence_get sqrtQ _ 0 1 4 0 4 0 fullBlock4 rfl, ?_, ?_, ?_⟩
  · rw [tfcBlock_error, error_block_equal_buffers]
  · rw [tfcBlock_erase, error_block_equal_buffers, Flt.one_eq]
    norm_num [sampler4, adaptive_sampler.ctor, fullBlock4]
  · rw [tfcBlock_split, error_block_equal_buffers, Flt.one_eq]
    norm_num [sampler4, adaptive_sampler.ctor, fullBlock4]
/-! ## The pass of `split_remove_chunks` -/

theorem forRange_induct {σ : Type} (Q : σ → Prop) (lo hi : Nat) (body : Nat → σ → σ) (st : σ)
    (h0 : Q st) (hstep : ∀ i st, Q st → Q (body i st)) : Q (forRange lo hi body st) := by
  unfold forRange
  generalize loopRange lo hi = L
  induction L generalizing st with
  | nil => exact h0
  | cons i L ih => exact ih _ (hstep i st h0)

theorem sameConfig_refl (st : adaptive_sampler) : sameConfig st st :=
  ⟨rfl, rfl, rfl, rfl, rfl, rfl, rfl, rfl, rfl, rfl, rfl⟩

theorem sameConfig_trans {a b c : adaptive_sampler} (h1 : sameConfig a b) (h2 : sameConfig b c) :
    sameConfig a c := by
  obtain ⟨a1, a2, a3, a4, a5, a6, a7, a8, a9, a10, a11⟩ := h1
  obtain ⟨b1, b2, b3, b4, b5, b6, b7, b8, b9, b10, b11⟩ := h2
  exact ⟨b1.trans a1, b2.trans a2, b3.trans a3, b4.trans a4, b5.trans a5, b6.trans a6,
    b7.trans a7, b8.trans a8, b9.trans a9, b10.trans a10, b11.trans a11⟩

theorem erasePixel_sameConfig (s i j : Nat) (st : adaptive_sampler) :
    sameConfig st (erasePixel s i j st) := by
  unfold erasePixel sameConfig
  simp only
  split_ifs <;> exact ⟨rfl, rfl, rfl, rfl, rfl, rfl, rfl, rfl, rfl, rfl, rfl⟩

theorem erasePixel_div_count (s i j : Nat) (st : adaptive_sampler) (x y : Nat) :
    (erasePixel s i j st).div_count x y
      = st.div_count x y + if (i, j) = (x, y) then 1 else 0 := by
  have hd : (erasePixel s i j st).div_count
      = fun x y => if x = i ∧ y = j then st.div_count x y + 1 else st.div_count x y := by
    unfold erasePixel
    simp only
    split_ifs <;> rfl
  rw [hd]
  simp only [Prod.mk.injEq]
  by_cases h : x = i ∧ y = j
  · obtain ⟨rfl, rfl⟩ := h; simp
  · have h' : ¬ (i = x ∧ j = y) := fun h' => h ⟨h'.1.symm, h'.2.symm⟩
    simp [h, h']

theorem pixelList_nodup (xb xe yb ye : Nat) : (pixelList xb xe yb ye).Nodup := by
  have h : pixelList xb xe yb ye = (loopRange xb xe).product (loopRange yb ye) := rfl
  rw [h]
  exact List.Nodup.product (List.nodup_range' _ _) (List.nodup_range' _ _)

/-- A pair of pixel loops whose body keeps the configuration and raises the division count of
its own pixel by one keeps the configuration and raises the division count of each pixel of
the rectangle by one. -/
theorem pixelLoops_effect (body : Nat → Nat → adaptive_sampler → adaptive_sampler)
    (hbody : ∀ i j st, sameConfig st (body i j st) ∧
      ∀ x y, (body i j st).div_count x y = st.div_count x y + if (i, j) = (x, y) then 1 else 0)
    (xb xe yb ye : Nat) (st : adaptive_sampler) :
    sameConfig st (forRange xb xe (fun i st =>
        forRange yb ye (fun j st => body i j st) st) st) ∧
    ∀ x y, (forRange xb xe (fun i st =>
        forRange yb ye (fun j st => body i j st) st) st).div_count x y
      = st.div_count x y + if (xb ≤ x ∧ x < xe) ∧ (yb ≤ y ∧ y < ye) then 1 else 0 := by
  rw [forRange_nested body]
  have key : ∀ (P : List (Nat × Nat)) (st : adaptive_sampler), P.Nodup →
      sameConfig st (P.foldl (fun st p => body p.1 p.2 st) st) ∧
      ∀ x y, (P.foldl (fun st p => body p.1 p.2 st) st).div_count x y
        = st.div_count x y + if (x, y) ∈ P then 1 else 0 := by
    intro P
    induction P with
    | nil => intro st _; exact ⟨sameConfig_refl st, fun x y => by simp⟩
    | cons p P ih =>
      intro st hnd
      obtain ⟨hpP, hP⟩ := List.nodup_cons.mp hnd
      obtain ⟨hc, hd⟩ := ih (body p.1 p.2 st) hP
      refine ⟨sameConfig_trans (hbody p.1 p.2 st).1 hc, fun x y => ?_⟩
      rw [List.foldl_cons, hd, (hbody p.1 p.2 st).2]
      by_cases hp : p = (x, y)
      · subst hp
        simp [hpP]
      · have hp' : ¬ (p.1, p.2) = (x, y) := hp
        have hp'' : ¬ (x, y) = p := fun h => hp h.symm
        simp [hp', hp'', List.mem_cons]
  obtain ⟨hc, hd⟩ := key (pixelList xb xe yb ye) st (pixelList_nodup xb xe yb ye)
  exact ⟨hc, fun x y => by rw [hd]; simp only [mem_pixelList]⟩

/-- The pixel loops of the erase branch keep the configuration and raise the division count of
each pixel of the rectangle by one. -/
theorem eraseLoops_effect (s xb xe yb ye : Nat) (st : adaptive_sampler) :
    sameConfig st (forRange xb xe (fun i st =>
        forRange yb ye (fun j st => erasePixel s i j st) st) st) ∧
    ∀ x y, (forRange xb xe (fun i st =>
        forRange yb ye (fun j st => erasePixel s i j st) st) st).div_count x y
      = st.div_count x y + if (xb ≤ x ∧ x < xe) ∧ (yb ≤ y ∧ y < ye) then 1 else 0 :=
  pixelLoops_effect (fun i j st => erasePixel s i j st)
    (fun i j st => ⟨erasePixel_sameConfig s i j st, erasePixel_div_count s i j st⟩) xb xe yb ye st

/-- One pass of the loop of `split_remove_chunks`: the chunks pushed, the configuration kept,
and the division count raised on the pixels of an erased chunk. -/
theorem splitStep_effect (s : Nat) (acc : adaptive_sampler × List pixel_block)
    (it : pixel_block) :
    (splitStep s acc it).2 = acc.2 ++ splitOut acc.1.min_adaptive_size it ∧
    sameConfig acc.1 (splitStep s acc it).1 ∧
    ∀ x y, (splitStep s acc it).1.div_count x y
      = acc.1.div_count x y + if it.erase = true ∧ inBlock it x y then 1 else 0 := by
  unfold splitStep splitOut
  by_cases he : it.erase = true
  · simp only [he, if_true, List.append_nil, true_and]
    obtain ⟨hc, hd⟩ := eraseLoops_effect s it.startx it.endx it.starty it.endy acc.1
    refine ⟨hc, fun x y => ?_⟩
    rw [hd]
    unfold inBlock
    by_cases hin : (it.startx ≤ x ∧ x < it.endx) ∧ (it.starty ≤ y ∧ y < it.endy)
    · rw [if_pos hin, if_pos ⟨hin.1.1, hin.1.2, hin.2.1, hin.2.2⟩]
    · rw [if_neg hin, if_neg (fun h => hin ⟨⟨h.1, h.2.1⟩, h.2.2.1, h.2.2.2⟩)]
  · simp only [he, Bool.false_eq_true, if_false, false_and, add_zero]
    by_cases hsp : it.split = true ∧ bigEnough acc.1.min_adaptive_size it
    · have hsp' : it.split = true ∧ szSub it.endx it.startx > toSizeT acc.1.min_adaptive_size ∧
          szSub it.endy it.starty > toSizeT acc.1.min_adaptive_size := ⟨hsp.1, hsp.2.1, hsp.2.2⟩
      rw [if_pos hsp', if_pos hsp]
      by_cases h1 : it.split_axis = 1
      · simp [h1, childLow, childHigh, sameConfig_refl]
      · by_cases h0 : it.split_axis = 0
        · simp [h0, childLow, childHigh, sameConfig_refl]
        · simp [h1, h0, sameConfig_refl]
    · have hsp' : ¬ (it.split = true ∧ szSub it.endx it.startx > toSizeT acc.1.min_adaptive_size ∧
          szSub it.endy it.starty > toSizeT acc.1.min_adaptive_size) :=
        fun h => hsp ⟨h.1, h.2.1, h.2.2⟩
      rw [if_neg hsp', if_neg hsp]
      exact ⟨rfl, sameConfig_refl _, fun _ _ => rfl⟩

theorem cover_erasedChunks_cons (it : pixel_block) (l : List pixel_block) (x y : Nat) :
    cover (erasedChunks (it :: l)) x y
      = (if it.erase = true ∧ inBlock it x y then 1 else 0) + cover (erasedChunks l) x y := by
  unfold erasedChunks
  by_cases he : it.erase = true
  · rw [List.filter_cons_of_pos he, cover_cons]
    simp [he]
  · rw [List.filter_cons_of_neg he]
    simp [he]

/-- The loop of `split_remove_chunks` over a list of chunks. -/
theorem splitFold_effect (s : Nat) (chunks : List pixel_block)
    (acc : adaptive_sampler × List pixel_block) :
    (chunks.foldl (splitStep s) acc).2
      = acc.2 ++ chunks.flatMap (splitOut acc.1.min_adaptive_size) ∧
    sameConfig acc.1 (chunks.foldl (splitStep s) acc).1 ∧
    ∀ x y, (chunks.foldl (splitStep s) acc).1.div_count x y
      = acc.1.div_count x y + cover (erasedChunks chunks) x y := by
  induction chunks generalizing acc with
  | nil => exact ⟨by simp, sameConfig_refl _, fun x y => by simp [erasedChunks, cover]⟩
  | cons it chunks ih =>
    obtain ⟨h1, h2, h3⟩ := splitStep_effect s acc it
    obtain ⟨i1, i2, i3⟩ := ih (splitStep s acc it)
    have hm : (splitStep s acc it).1.min_adaptive_size = acc.1.min_adaptive_size := h2.2.2.2.2.2.2.1
    refine ⟨?_, sameConfig_trans h2 i2, fun x y => ?_⟩
    · rw [List.foldl_cons, i1, h1, hm, List.flatMap_cons, List.append_assoc]
    · rw [List.foldl_cons, i3, h3, cover_erasedChunks_cons, add_assoc]

/-- The region set that `split_remove_chunks` leaves: for every chunk, in order, what
`splitOut` pushes for it. -/
theorem split_remove_chunks_chunks (st : adaptive_sampler) (s : Nat) :
    (split_remove_chunks st s).pixel_chunks
      = st.pixel_chunks.flatMap (splitOut st.min_adaptive_size) := by
  unfold split_remove_chunks
  have h := (splitFold_effect s st.pixel_chunks (st, [])).1
  simp only [List.nil_append] at h
  exact h

/-- The division counts after `split_remove_chunks`: one more for each erased chunk that
contains the pixel. -/
theorem split_remove_chunks_div_count (st : adaptive_sampler) (s x y : Nat) :
    (split_remove_chunks st s).div_count x y
      = st.div_count x y + cover (erasedChunks st.pixel_chunks) x y := by
  unfold split_remove_chunks
  exact (splitFold_effect s st.pixel_chunks (st, [])).2.2 x y

theorem split_remove_chunks_config (st : adaptive_sampler) (s : Nat) :
    (split_remove_chunks st s).nx = st.nx ∧ (split_remove_chunks st s).ny = st.ny ∧
    (split_remove_chunks st s).min_variance = st.min_variance ∧
    (split_remove_chunks st s).min_adaptive_size = st.min_adaptive_size := by
  unfold split_remove_chunks
  obtain ⟨h1, h2, _, _, _, h6, h7, _⟩ := (splitFold_effect s st.pixel_chunks (st, [])).2.1
  exact ⟨h1, h2, h6, h7⟩

theorem cover_single (b : pixel_block) (x y : Nat) :
    cover [b] x y = if inBlock b x y then 1 else 0 := by
  rw [cover_cons, cover_nil, Nat.add_zero]

theorem cover_pair (b1 b2 : pixel_block) (x y : Nat) :
    cover [b1, b2] x y = (if inBlock b1 x y then 1 else 0) + (if inBlock b2 x y then 1 else 0) := by
  rw [cover_cons, cover_single]

/-- The two children of a chunk with usable split data tile the chunk. -/
theorem cover_children (it : pixel_block) (x y : Nat)
    (h : (it.split_axis = 0 ∧ it.startx ≤ it.split_pos ∧ it.split_pos ≤ it.endx) ∨
      (it.split_axis = 1 ∧ it.starty ≤ it.split_pos ∧ it.split_pos ≤ it.endy)) :
    cover [childLow it, childHigh it] x y = if inBlock it x y then 1 else 0 := by
  rw [cover_pair]
  unfold childLow childHigh inBlock
  rcases h with ⟨h0, h1, h2⟩ | ⟨h0, h1, h2⟩
  · simp only [h0, Nat.zero_ne_one, if_false]
    split_ifs <;> omega
  · simp only [h0, if_true]
    split_ifs <;> omega

theorem area_children (it : pixel_block)
    (h : (it.split_axis = 0 ∧ it.startx ≤ it.split_pos ∧ it.split_pos ≤ it.endx) ∨
      (it.split_axis = 1 ∧ it.starty ≤ it.split_pos ∧ it.split_pos ≤ it.endy)) :
    totalArea [childLow it, childHigh it] = area it := by
  unfold totalArea childLow childHigh area
  rcases h with ⟨h0, h1, h2⟩ | ⟨h0, h1, h2⟩
  · simp only [h0, Nat.zero_ne_one, if_false, List.map_cons, List.map_nil, List.sum_cons,
      List.sum_nil, Nat.add_zero]
    rw [← Nat.add_mul]
    congr 1
    omega
  · simp only [h0, if_true, List.map_cons, List.map_nil, List.sum_cons,
      List.sum_nil, Nat.add_zero]
    rw [← Nat.mul_add]
    congr 1
    omega

/-- What `split_remove_chunks` pushes for a chunk with usable split data covers the chunk when
it is kept and nothing when it is erased. -/
theorem cover_splitOut (m : Int) (it : pixel_block) (x y : Nat) (h : splitReady m it) :
    cover (splitOut m it) x y = if it.erase = true then 0 else if inBlock it x y then 1 else 0 := by
  unfold splitOut
  by_cases he : it.erase = true
  · simp [he, cover_nil]
  · have he' : it.erase = false := by simpa using he
    rw [if_neg he, if_neg he]
    by_cases hsp : it.split = true ∧ bigEnough m it
    · have hr := h he' hsp.1 hsp.2
      have hax : it.split_axis = 1 ∨ it.split_axis = 0 := by
        rcases hr with ⟨h0, _⟩ | ⟨h1, _⟩
        · exact Or.inr h0
        · exact Or.inl h1
      rw [if_pos hsp, if_pos hax]
      exact cover_children it x y hr
    · rw [if_neg hsp]
      exact cover_single it x y

theorem totalArea_splitOut (m : Int) (it : pixel_block) (h : splitReady m it) :
    totalArea (splitOut m it) = if it.erase = true then 0 else area it := by
  unfold splitOut
  by_cases he : it.erase = true
  · simp [he, totalArea]
  · have he' : it.erase = false := by simpa using he
    rw [if_neg he, if_neg he]
    by_cases hsp : it.split = true ∧ bigEnough m it
    · have hr := h he' hsp.1 hsp.2
      have hax : it.split_axis = 1 ∨ it.split_axis = 0 := by
        rcases hr with ⟨h0, _⟩ | ⟨h1, _⟩
        · exact Or.inr h0
        · exact Or.inl h1
      rw [if_pos hsp, if_pos hax]
      exact area_children it hr
    · rw [if_neg hsp]
      simp [totalArea]

theorem totalArea_erasedChunks_cons (it : pixel_block) (l : List pixel_block) :
    totalArea (erasedChunks (it :: l))
      = (if it.erase = true then area it else 0) + totalArea (erasedChunks l) := by
  unfold erasedChunks
  by_cases he : it.erase = true
  · rw [List.filter_cons_of_pos he, if_pos he]
    simp [totalArea]
  · rw [List.filter_cons_of_neg he, if_neg he]
    simp

/-- Over a list of chunks with usable split data, the pushed chunks and the erased chunks
together cover each pixel as often as the list did, and their areas add up to its area. -/
theorem cover_flatMap_splitOut (m : Int) (chunks : List pixel_block)
    (h : ∀ it, it ∈ chunks → splitReady m it) :
    (∀ x y, cover (chunks.flatMap (splitOut m)) x y + cover (erasedChunks chunks) x y
      = cover chunks x y) ∧
    totalArea (chunks.flatMap (splitOut m)) + totalArea (erasedChunks chunks)
      = totalArea chunks := by
  induction chunks with
  | nil => exact ⟨fun x y => rfl, rfl⟩
  | cons it chunks ih =>
    obtain ⟨ih1, ih2⟩ := ih (fun b hb => h b (List.mem_cons_of_mem _ hb))
    have hit := h it (List.mem_cons_self _ _)
    constructor
    · intro x y
      rw [List.flatMap_cons, cover_append, cover_splitOut m it x y hit, cover_erasedChunks_cons,
        cover_cons, ← ih1 x y]
      by_cases he : it.erase = true <;> by_cases hin : inBlock it x y <;> simp [he, hin] <;> omega
    · rw [List.flatMap_cons, totalArea_append, totalArea_splitOut m it hit]
      have hcons : totalArea (it :: chunks) = area it + totalArea chunks := by
        simp [totalArea]
      rw [hcons, ← ih2, totalArea_erasedChunks_cons]
      by_cases he : it.erase = true
      · rw [if_pos he, if_pos he]; omega
      · rw [if_neg he, if_neg he]; omega

theorem erasedChunks_eq_nil (chunks : List pixel_block)
    (h : ∀ it, it ∈ chunks → it.erase = false) : erasedChunks chunks = [] := by
  unfold erasedChunks
  rw [List.filter_eq_nil_iff]
  intro it hit
  simp [h it hit]

/-- C2, as amended: over a region set whose split data are usable (every region that is going
to be split has `split_axis` 0 or 1 and `split_pos` within its bounds along that axis),
`split_remove_chunks` gains no pixel and loses exactly the pixels of the erased regions: the
new regions and the erased regions together cover each pixel as often as the old regions did,
and their areas add up to the old area.  When no region is erased, coverage and area are the
same before and after. -/
theorem C2_split_remove_chunks_coverage (st : adaptive_sampler) (s : Nat)
    (hready : ∀ it, it ∈ st.pixel_chunks → splitReady st.min_adaptive_size it) :
    (∀ x y, cover (split_remove_chunks st s).pixel_chunks x y
        + cover (erasedChunks st.pixel_chunks) x y = cover st.pixel_chunks x y) ∧
    totalArea (split_remove_chunks st s).pixel_chunks + totalArea (erasedChunks st.pixel_chunks)
      = totalArea st.pixel_chunks ∧
    ((∀ it, it ∈ st.pixel_chunks → it.erase = false) →
      (∀ x y, cover (split_remove_chunks st s).pixel_chunks x y = cover st.pixel_chunks x y) ∧
      totalArea (split_remove_chunks st s).pixel_chunks = totalArea st.pixel_chunks) := by
  obtain ⟨h1, h2⟩ := cover_flatMap_splitOut st.min_adaptive_size st.pixel_chunks hready
  rw [split_remove_chunks_chunks]
  refine ⟨h1, h2, fun hne => ?_⟩
  have hnil := erasedChunks_eq_nil st.pixel_chunks hne
  rw [hnil] at h1 h2
  exact ⟨fun x y => by simpa [cover_nil] using h1 x y, by simpa [totalArea] using h2⟩

/-! ## Classification followed by the split pass -/

theorem tfcBlock_of_lt (sqrtF : ℚ → ℚ) (st : adaptive_sampler) (s xe xb ye yb : Nat)
    (c : pixel_block) (h : error_block sqrtF st s xe xb ye yb < Flt.val st.min_variance) :
    tfcBlock sqrtF st s xe xb ye yb c
      = { c with error := error_block sqrtF st s xe xb ye yb, erase := true } := by
  unfold error_block at h
  unfold tfcBlock error_block
  simp only [if_pos h]

theorem bigEnough_tfcBlock (sqrtF : ℚ → ℚ) (st : adaptive_sampler) (s xe xb ye yb : Nat)
    (m : Int) (c : pixel_block) :
    bigEnough m (tfcBlock sqrtF st s xe xb ye yb c) ↔ bigEnough m c := by
  obtain ⟨h1, h2, h3, h4⟩ := tfcBlock_bounds sqrtF st s xe xb ye yb c
  unfold bigEnough
  rw [h1, h2, h3, h4]

/-- For a non-negative `min_adaptive_size` and a chunk with `start <= end` on both axes, the
size test of `split_remove_chunks` is the plain comparison of width and height with
`min_adaptive_size`. -/
theorem bigEnough_iff_plain (m : Int) (it : pixel_block) (hm0 : 0 ≤ m) (hm1 : m < 2 ^ 64)
    (hx : it.startx ≤ it.endx) (hy : it.starty ≤ it.endy) :
    bigEnough m it ↔
      m < ((it.endx - it.startx : Nat) : Int) ∧ m < ((it.endy - it.starty : Nat) : Int) := by
  unfold bigEnough szSub toSizeT
  rw [Int.emod_eq_of_lt hm0 hm1, if_pos hx, if_pos hy]
  omega

/-- A negative `min_adaptive_size` becomes a `size_t` of at least `2^63`, so that no chunk with
coordinates below `2^63` passes the size test. -/
theorem not_bigEnough_of_negative (m : Int) (it : pixel_block) (hm0 : m < 0)
    (hm1 : -(2 ^ 63) ≤ m) (hx : it.startx ≤ it.endx) (hex : it.endx < 2 ^ 63) :
    ¬ bigEnough m it := by
  unfold bigEnough szSub toSizeT
  rw [if_pos hx]
  have h1 : m % 2 ^ 64 = m + 2 ^ 64 := by omega
  rw [h1]
  omega

/-- A chunk classified with its own bounds has usable split data, provided a split flag it
carried into the call belongs to a chunk too small to be split. -/
theorem tfcBlock_splitReady (sqrtF : ℚ → ℚ) (hsqrt : ∀ q, 0 ≤ sqrtF q) (st : adaptive_sampler)
    (s : Nat) (m : Int) (c : pixel_block) (hstale : c.split = true → ¬ bigEnough m c) :
    splitReady m (tfcBlock sqrtF st s c.endx c.startx c.endy c.starty c) := by
  intro _ hs hbig
  have hbig' := (bigEnough_tfcBlock sqrtF st s c.endx c.startx c.endy c.starty m c).mp hbig
  have hcs : c.split = false := by
    cases hc : c.split
    · rfl
    · exact absurd hbig' (hstale hc)
  rw [tfcBlock_split, hcs] at hs
  simp only [Bool.false_or, Bool.and_eq_true, Bool.not_eq_true', decide_eq_false_iff_not,
    decide_eq_true_eq] at hs
  obtain ⟨g0, g1⟩ := tfcBlock_split_geometry sqrtF hsqrt st s c.endx c.startx c.endy c.starty c
    hs.1 hs.2
  obtain ⟨b1, b2, b3, b4⟩ := tfcBlock_bounds sqrtF st s c.endx c.startx c.endy c.starty c
  rw [b1, b2, b3, b4]
  by_cases hge : c.endy - c.starty ≤ c.endx - c.startx
  · obtain ⟨a, p1, p2⟩ := g0 hge
    exact Or.inl ⟨a, p1, le_of_lt p2⟩
  · obtain ⟨a, p1, p2⟩ := g1 (not_le.mp hge)
    exact Or.inr ⟨a, p1, le_of_lt p2⟩

theorem modifyAt_eq_take_drop (f : pixel_block → pixel_block) (l : List pixel_block) (k : Nat)
    (c : pixel_block) (hk : l[k]? = some c) :
    modifyAt f l k = l.take k ++ f c :: l.drop (k + 1) := by
  induction l generalizing k with
  | nil => simp at hk
  | cons a l ih =>
    cases k with
    | zero =>
      simp only [List.getElem?_cons_zero, Option.some.injEq] at hk
      subst hk
      simp [modifyAt]
    | succ k =>
      simp only [List.getElem?_cons_succ] at hk
      simp [modifyAt, ih k hk]

/-- The region set after classifying chunk `k` and running the split pass: the outputs for the
chunks before `k`, the output for the classified chunk, the outputs for the chunks after. -/
theorem split_after_classify (sqrtF : ℚ → ℚ) (st : adaptive_sampler) (k s t xe xb ye yb : Nat)
    (c : pixel_block) (hk : st.pixel_chunks[k]? = some c) :
    (split_remove_chunks (test_for_convergence sqrtF st k s xe xb ye yb) t).pixel_chunks
      = (st.pixel_chunks.take k).flatMap (splitOut st.min_adaptive_size)
        ++ splitOut st.min_adaptive_size (tfcBlock sqrtF st s xe xb ye yb c)
        ++ (st.pixel_chunks.drop (k + 1)).flatMap (splitOut st.min_adaptive_size) := by
  rw [split_remove_chunks_chunks, test_for_convergence_eq]
  show (modifyAt _ st.pixel_chunks k).flatMap (splitOut st.min_adaptive_size) = _
  rw [modifyAt_eq_take_drop _ _ k c hk, List.flatMap_append, List.flatMap_cons,
    List.append_assoc]

/-- A chunk that the call flags for splitting, that is not erased and that passes the size
test is replaced by its two children, and its split data are usable. -/
theorem splitOut_classified_big (sqrtF : ℚ → ℚ) (hsqrt : ∀ q, 0 ≤ sqrtF q)
    (st : adaptive_sampler) (s : Nat) (m : Int) (c : pixel_block)
    (h1 : Flt.val st.min_variance ≤ error_block sqrtF st s c.endx c.startx c.endy c.starty)
    (h2 : error_block sqrtF st s c.endx c.startx c.endy c.starty < Flt.val (256 * st.min_variance))
    (he : c.erase = false) (hbig : bigEnough m c) :
    splitOut m (tfcBlock sqrtF st s c.endx c.startx c.endy c.starty c)
      = [childLow (tfcBlock sqrtF st s c.endx c.startx c.endy c.starty c),
         childHigh (tfcBlock sqrtF st s c.endx c.startx c.endy c.starty c)] ∧
    (((tfcBlock sqrtF st s c.endx c.startx c.endy c.starty c).split_axis = 0 ∧
      c.startx ≤ (tfcBlock sqrtF st s c.endx c.startx c.endy c.starty c).split_pos ∧
      (tfcBlock sqrtF st s c.endx c.startx c.endy c.starty c).split_pos < c.endx) ∨
     ((tfcBlock sqrtF st s c.endx c.startx c.endy c.starty c).split_axis = 1 ∧
      c.starty ≤ (tfcBlock sqrtF st s c.endx c.startx c.endy c.starty c).split_pos ∧
      (tfcBlock sqrtF st s c.endx c.startx c.endy c.starty c).split_pos < c.endy)) := by
  have hn1 : ¬ error_block sqrtF st s c.endx c.startx c.endy c.starty < Flt.val st.min_variance :=
    Flt.not_lt_of_le _ _ h1
  have hn2 : error_block sqrtF st s c.endx c.startx c.endy c.starty < Flt.val (st.min_variance * 256) := by
    rw [mul_comm]; exact h2
  obtain ⟨g0, g1⟩ := tfcBlock_split_geometry sqrtF hsqrt st s c.endx c.startx c.endy c.starty c
    hn1 hn2
  have hgeo : ((tfcBlock sqrtF st s c.endx c.startx c.endy c.starty c).split_axis = 0 ∧
      c.startx ≤ (tfcBlock sqrtF st s c.endx c.startx c.endy c.starty c).split_pos ∧
      (tfcBlock sqrtF st s c.endx c.startx c.endy c.starty c).split_pos < c.endx) ∨
     ((tfcBlock sqrtF st s c.endx c.startx c.endy c.starty c).split_axis = 1 ∧
      c.starty ≤ (tfcBlock sqrtF st s c.endx c.startx c.endy c.starty c).split_pos ∧
      (tfcBlock sqrtF st s c.endx c.startx c.endy c.starty c).split_pos < c.endy) := by
    by_cases hge : c.endy - c.starty ≤ c.endx - c.startx
    · exact Or.inl (g0 hge)
    · exact Or.inr (g1 (not_le.mp hge))
  refine ⟨?_, hgeo⟩
  have he' : (tfcBlock sqrtF st s c.endx c.startx c.endy c.starty c).erase = false := by
    rw [tfcBlock_erase, he]; simp [hn1]
  have hs' : (tfcBlock sqrtF st s c.endx c.startx c.endy c.starty c).split = true := by
    rw [tfcBlock_split]; simp [hn1, hn2]
  have hb' := (bigEnough_tfcBlock sqrtF st s c.endx c.startx c.endy c.starty m c).mpr hbig
  have hax : (tfcBlock sqrtF st s c.endx c.startx c.endy c.starty c).split_axis = 1 ∨
      (tfcBlock sqrtF st s c.endx c.startx c.endy c.starty c).split_axis = 0 := by
    rcases hgeo with ⟨a, _⟩ | ⟨a, _⟩
    · exact Or.inr a
    · exact Or.inl a
  unfold splitOut
  rw [if_neg (by simp [he']), if_pos ⟨hs', hb'⟩, if_pos hax]

/-- A chunk that is not erased after the call and that fails the size test is pushed
unchanged. -/
theorem splitOut_classified_small (sqrtF : ℚ → ℚ) (st : adaptive_sampler) (s : Nat) (m : Int)
    (c : pixel_block)
    (h1 : Flt.val st.min_variance ≤ error_block sqrtF st s c.endx c.startx c.endy c.starty)
    (he : c.erase = false) (hsmall : ¬ bigEnough m c) :
    splitOut m (tfcBlock sqrtF st s c.endx c.startx c.endy c.starty c)
      = [tfcBlock sqrtF st s c.endx c.startx c.endy c.starty c] := by
  have hn1 : ¬ error_block sqrtF st s c.endx c.startx c.endy c.starty < Flt.val st.min_variance :=
    Flt.not_lt_of_le _ _ h1
  have he' : (tfcBlock sqrtF st s c.endx c.startx c.endy c.starty c).erase = false := by
    rw [tfcBlock_erase, he]; simp [hn1]
  have hb' : ¬ bigEnough m (tfcBlock sqrtF st s c.endx c.startx c.endy c.starty c) :=
    fun h => hsmall ((bigEnough_tfcBlock sqrtF st s c.endx c.startx c.endy c.starty m c).mp h)
  unfold splitOut
  rw [if_neg (by simp [he']), if_neg (fun h => hb' h.2)]

/-! ## Concrete samplers -/

theorem sqrtQ_zero : sqrtQ 0 = 0 := by simp [sqrtQ]

theorem exactBlock_of_split_x (sqrtF : ℚ → ℚ) (st : adaptive_sampler) (s xe xb ye yb : Nat)
    (c : pixel_block) (p : Nat)
    (h1 : ¬ exactError sqrtF st s xe xb ye yb < st.min_variance)
    (h2 : exactError sqrtF st s xe xb ye yb < st.min_variance * 256)
    (hge : ye - yb ≤ xe - xb)
    (hfirst : exactError sqrtF st s xe xb ye yb / 2
      ≤ ((loopRange yb ye).map (fun j => regionCell sqrtF st s xe xb ye yb xb j)).sum)
    (hx : xb < xe) (hp : p = xb) :
    exactBlock sqrtF st s xe xb ye yb c
      = { c with error := Flt.val (exactError sqrtF st s xe xb ye yb), split := true, split_axis := 0,
                 split_pos := p } := by
  have hL : loopRange xb xe = xb :: loopRange (xb + 1) xe := by
    unfold loopRange
    have : xe - xb = (xe - (xb + 1)) + 1 := by omega
    rw [this, List.range'_succ]
  have hcol : ((loopRange yb ye).map (fun j =>
      (exactLoop sqrtF st s xe xb ye yb).1 (errIdx xb yb (xe - xb) xb j))).sum
      = ((loopRange yb ye).map (fun j => regionCell sqrtF st s xe xb ye yb xb j)).sum := by
    congr 1
    apply List.map_congr_left
    intro j hj
    exact exactLoop_read sqrtF st s xe xb ye yb xb j ⟨le_refl _, hx⟩ (mem_loopRange.mp hj)
  unfold exactError at h1 h2 hfirst
  unfold exactBlock exactError
  simp only [if_neg h1, if_pos h2, ge_iff_le, if_pos hge]
  rw [hL]
  unfold exactScanX
  simp only [forRange_add_sum, zero_add, hcol, if_pos hfirst, setSplitPos, hp]

theorem tfcBlock_of_split_x (sqrtF : ℚ → ℚ) (st : adaptive_sampler) (s xe xb ye yb : Nat)
    (c : pixel_block) (p : Nat) (hn : nanFree st xe xb ye yb)
    (h1 : ¬ exactError sqrtF st s xe xb ye yb < st.min_variance)
    (h2 : exactError sqrtF st s xe xb ye yb < st.min_variance * 256)
    (hge : ye - yb ≤ xe - xb)
    (hfirst : exactError sqrtF st s xe xb ye yb / 2
      ≤ ((loopRange yb ye).map (fun j => regionCell sqrtF st s xe xb ye yb xb j)).sum)
    (hx : xb < xe) (hp : p = xb) :
    tfcBlock sqrtF st s xe xb ye yb c
      = { c with error := Flt.val (exactError sqrtF st s xe xb ye yb), split := true,
                 split_axis := 0, split_pos := p } := by
  rw [tfcBlock_exact sqrtF st s xe xb ye yb c hn]
  exact exactBlock_of_split_x sqrtF st s xe xb ye yb c p h1 h2 hge hfirst hx hp

theorem nanFree_sampler4_zero : nanFree (sampler4 (constMatrix 0) (constMatrix 0)) 4 0 4 0 :=
  nanFree_of_nonneg _ _ _ _ _
    (fun i j => by norm_num [sampler4, adaptive_sampler.ctor, constMatrix])

theorem nanFree_sampler4_column0 :
    nanFree (sampler4 column0Matrix (constMatrix 0)) 4 0 4 0 :=
  nanFree_of_nonneg _ _ _ _ _
    (fun i j => by
      simp only [sampler4, adaptive_sampler.ctor, constMatrix, column0Matrix]
      split_ifs <;> norm_num)

theorem convergedSampler4_chunks :
    convergedSampler4.pixel_chunks = [{ fullBlock4 with erase := true }] := by
  have hE : error_block sqrtQ (sampler4 (constMatrix 0) (constMatrix 0)) 1 4 0 4 0 = 0 :=
    error_block_zero_of_double sqrtQ _ 1 4 0 4 0 nanFree_sampler4_zero
      (fun i j _ _ _ _ => by simp [sampler4, adaptive_sampler.ctor, constMatrix])
  unfold convergedSampler4
  rw [test_for_convergence_eq]
  show modifyAt _ [fullBlock4] 0 = _
  rw [modifyAt, tfcBlock_of_lt _ _ _ _ _ _ _ _
    (by rw [hE, Flt.zero_eq]; norm_num [sampler4, adaptive_sampler.ctor]), hE]
  rfl

theorem exactError_leftHeavy :
    exactError sqrtQ (sampler4 column0Matrix (constMatrix 0)) 1 4 0 4 0 = 1 / 4 := by
  rw [exactError_eq_sum, loopRange_0_4]
  simp only [regionCell, errCell, sampler4, adaptive_sampler.ctor, constMatrix, column0Matrix,
    List.map_cons, List.map_nil, List.sum_cons, List.sum_nil]
  norm_num [sqrtQ_one, sqrtQ_zero]

theorem error_block_leftHeavy :
    error_block sqrtQ (sampler4 column0Matrix (constMatrix 0)) 1 4 0 4 0 = Flt.val (1 / 4) := by
  rw [error_block_exact _ _ _ _ _ _ _ nanFree_sampler4_column0, exactError_leftHeavy]

theorem leftHeavySampler4_chunks :
    leftHeavySampler4.pixel_chunks
      = [{ fullBlock4 with error := Flt.val (1 / 4), split := true, split_axis := 0,
                           split_pos := 0 }] := by
  unfold leftHeavySampler4
  rw [test_for_convergence_eq]
  show modifyAt _ [fullBlock4] 0 = _
  rw [modifyAt, tfcBlock_of_split_x sqrtQ _ 1 4 0 4 0 fullBlock4 0 nanFree_sampler4_column0
    (by rw [exactError_leftHeavy]; norm_num [sampler4, adaptive_sampler.ctor])
    (by rw [exactError_leftHeavy]; norm_num [sampler4, adaptive_sampler.ctor])
    (by decide)
    (by
      rw [exactError_leftHeavy, loopRange_0_4]
      simp only [regionCell, errCell, sampler4, adaptive_sampler.ctor, constMatrix,
        column0Matrix, List.map_cons, List.map_nil, List.sum_cons, List.sum_nil]
      norm_num [sqrtQ_one])
    (by decide) rfl, exactError_leftHeavy]

theorem leftHeavy_error_block :
    error_block sqrtQ (sampler4 column0Matrix (constMatrix 0)) 1
      fullBlock4.endx fullBlock4.startx fullBlock4.endy fullBlock4.starty = Flt.val (1 / 4) :=
  error_block_leftHeavy

theorem bigEnough_fullBlock4 : bigEnough 1 fullBlock4 := by
  simp [bigEnough, szSub, toSizeT, fullBlock4]

/-- C2, counterexample: after `test_for_convergence` has flagged the only region of a black
4x4 image as converged, `split_remove_chunks` leaves no region at all, so pixel `(0, 0)` was
covered before the call and is not covered after it, and the area drops from 16 to 0; and on a
region set whose region carries a split position beyond its bounds, the call covers pixel
`(5, 0)`, which no region covered before. -/
theorem C2_coverage_changes :
    (cover convergedSampler4.pixel_chunks 0 0 = 1 ∧
      cover (split_remove_chunks convergedSampler4 1).pixel_chunks 0 0 = 0 ∧
      totalArea convergedSampler4.pixel_chunks = 16 ∧
      totalArea (split_remove_chunks convergedSampler4 1).pixel_chunks = 0) ∧
    (cover strayCutSampler4.pixel_chunks 5 0 = 0 ∧
      cover (split_remove_chunks strayCutSampler4 1).pixel_chunks 5 0 = 1) := by
  refine ⟨?_, ?_⟩
  · rw [split_remove_chunks_chunks, convergedSampler4_chunks]
    simp [cover, totalArea, area, inBlock, splitOut, fullBlock4]
  · rw [split_remove_chunks_chunks]
    simp [strayCutSampler4, sampler4, adaptive_sampler.ctor, cover, inBlock, splitOut, bigEnough,
      szSub, toSizeT, childLow, childHigh, fullBlock4]

theorem leftHeavy_splitReady :
    ∀ it, it ∈ leftHeavySampler4.pixel_chunks →
      splitReady leftHeavySampler4.min_adaptive_size it := by
  intro it hit
  rw [leftHeavySampler4_chunks, List.mem_singleton] at hit
  subst hit
  intro _ _ _
  exact Or.inl ⟨rfl, by simp [fullBlock4], by simp [fullBlock4]⟩

/-- Witness of C2 as amended: the 4x4 sampler whose region was flagged for splitting. -/
theorem C2_split_remove_chunks_coverage_witness :
    (∀ it, it ∈ leftHeavySampler4.pixel_chunks →
      splitReady leftHeavySampler4.min_adaptive_size it) ∧
    ((∀ x y, cover (split_remove_chunks leftHeavySampler4 1).pixel_chunks x y
        + cover (erasedChunks leftHeavySampler4.pixel_chunks) x y
        = cover leftHeavySampler4.pixel_chunks x y) ∧
    totalArea (split_remove_chunks leftHeavySampler4 1).pixel_chunks
      + totalArea (erasedChunks leftHeavySampler4.pixel_chunks)
      = totalArea leftHeavySampler4.pixel_chunks ∧
    ((∀ it, it ∈ leftHeavySampler4.pixel_chunks → it.erase = false) →
      (∀ x y, cover (split_remove_chunks leftHeavySampler4 1).pixel_chunks x y
        = cover leftHeavySampler4.pixel_chunks x y) ∧
      totalArea (split_remove_chunks leftHeavySampler4 1).pixel_chunks
        = totalArea leftHeavySampler4.pixel_chunks)) :=
  ⟨leftHeavy_splitReady, C2_split_remove_chunks_coverage leftHeavySampler4 1 leftHeavy_splitReady⟩

theorem child_fields (it : pixel_block) :
    ((childLow it).split_axis = 0 ∧ (childLow it).split_pos = 0 ∧ (childLow it).erase = false ∧
      (childLow it).split = false ∧ (childLow it).error = 0) ∧
    ((childHigh it).split_axis = 0 ∧ (childHigh it).split_pos = 0 ∧
      (childHigh it).erase = false ∧ (childHigh it).split = false ∧
      (childHigh it).error = 0) := by
  unfold childLow childHigh
  split_ifs <;> exact ⟨⟨rfl, rfl, rfl, rfl, rfl⟩, rfl, rfl, rfl, rfl, rfl⟩

/-- The children of a chunk cut inside its bounds: together they are the chunk, and they do
not meet. -/
theorem children_partition (c it : pixel_block)
    (hb : it.startx = c.startx ∧ it.starty = c.starty ∧ it.endx = c.endx ∧ it.endy = c.endy)
    (h : (it.split_axis = 0 ∧ c.startx ≤ it.split_pos ∧ it.split_pos < c.endx) ∨
      (it.split_axis = 1 ∧ c.starty ≤ it.split_pos ∧ it.split_pos < c.endy)) (x y : Nat) :
    (inBlock c x y ↔ inBlock (childLow it) x y ∨ inBlock (childHigh it) x y) ∧
    ¬ (inBlock (childLow it) x y ∧ inBlock (childHigh it) x y) := by
  obtain ⟨b1, b2, b3, b4⟩ := hb
  unfold childLow childHigh inBlock
  rcases h with ⟨h0, h1, h2⟩ | ⟨h0, h1, h2⟩
  · simp only [h0, Nat.zero_ne_one, if_false, b1, b2, b3, b4]
    omega
  · simp only [h0, if_true, b1, b2, b3, b4]
    omega

/-- C5: a region that `test_for_convergence`, called with the region's own bounds at a round
count `s >= 1`, flags for splitting (its block error lies in `[min_variance,
256 * min_variance)`), that is not erased and whose width and height both exceed
`min_adaptive_size`, is replaced by `split_remove_chunks` by exactly two children `b1`, `b2`
standing where the region stood; the children do not meet, together they are the rectangle of
the region, and both carry zeroed transient fields.  The size condition is the test the code
makes (`bigEnough`); for `min_adaptive_size >= 0` it is the plain comparison
(`bigEnough_iff_plain`). -/
theorem C5_split_children_tile_parent (sqrtF : ℚ → ℚ) (hsqrt : ∀ q, 0 ≤ sqrtF q)
    (st : adaptive_sampler) (k s t : Nat) (c : pixel_block)
    (hk : st.pixel_chunks[k]? = some c) (_hs : 1 ≤ s)
    (h1 : Flt.val st.min_variance ≤ error_block sqrtF st s c.endx c.startx c.endy c.starty)
    (h2 : error_block sqrtF st s c.endx c.startx c.endy c.starty < Flt.val (256 * st.min_variance))
    (he : c.erase = false) (hbig : bigEnough st.min_adaptive_size c) :
    ∃ b1 b2,
      (split_remove_chunks
          (test_for_convergence sqrtF st k s c.endx c.startx c.endy c.starty) t).pixel_chunks
        = (st.pixel_chunks.take k).flatMap (splitOut st.min_adaptive_size) ++ [b1, b2]
          ++ (st.pixel_chunks.drop (k + 1)).flatMap (splitOut st.min_adaptive_size) ∧
      (∀ x y, (inBlock c x y ↔ inBlock b1 x y ∨ inBlock b2 x y) ∧
        ¬ (inBlock b1 x y ∧ inBlock b2 x y)) ∧
      (b1.split_axis = 0 ∧ b1.split_pos = 0 ∧ b1.erase = false ∧ b1.split = false ∧
        b1.error = 0) ∧
      (b2.split_axis = 0 ∧ b2.split_pos = 0 ∧ b2.erase = false ∧ b2.split = false ∧
        b2.error = 0) := by
  obtain ⟨hout, hgeo⟩ := splitOut_classified_big sqrtF hsqrt st s st.min_adaptive_size c h1 h2
    he hbig
  refine ⟨childLow (tfcBlock sqrtF st s c.endx c.startx c.endy c.starty c),
    childHigh (tfcBlock sqrtF st s c.endx c.startx c.endy c.starty c), ?_, ?_,
    (child_fields _).1, (child_fields _).2⟩
  · rw [split_after_classify sqrtF st k s t c.endx c.startx c.endy c.starty c hk, hout]
  · intro x y
    exact children_partition c _ (tfcBlock_bounds sqrtF st s c.endx c.startx c.endy c.starty c)
      hgeo x y

/-- Witness of C5: the 4x4 image with primary red 1 in column 0 only, `min_adaptive_size = 1`. -/
theorem C5_split_children_tile_parent_witness :
    (∀ q, 0 ≤ sqrtQ q) ∧
    (sampler4 column0Matrix (constMatrix 0)).pixel_chunks[0]? = some fullBlock4 ∧ 1 ≤ 1 ∧
    Flt.val (sampler4 column0Matrix (constMatrix 0)).min_variance
      ≤ error_block sqrtQ (sampler4 column0Matrix (constMatrix 0)) 1
          fullBlock4.endx fullBlock4.startx fullBlock4.endy fullBlock4.starty ∧
    error_block sqrtQ (sampler4 column0Matrix (constMatrix 0)) 1
        fullBlock4.endx fullBlock4.startx fullBlock4.endy fullBlock4.starty
      < Flt.val (256 * (sampler4 column0Matrix (constMatrix 0)).min_variance) ∧
    fullBlock4.erase = false ∧
    bigEnough (sampler4 column0Matrix (constMatrix 0)).min_adaptive_size fullBlock4 ∧
    ∃ b1 b2,
      (split_remove_chunks
          (test_for_convergence sqrtQ (sampler4 column0Matrix (constMatrix 0)) 0 1
            fullBlock4.endx fullBlock4.startx fullBlock4.endy fullBlock4.starty) 1).pixel_chunks
        = ((sampler4 column0Matrix (constMatrix 0)).pixel_chunks.take 0).flatMap
            (splitOut (sampler4 column0Matrix (constMatrix 0)).min_adaptive_size) ++ [b1, b2]
          ++ ((sampler4 column0Matrix (constMatrix 0)).pixel_chunks.drop (0 + 1)).flatMap
            (splitOut (sampler4 column0Matrix (constMatrix 0)).min_adaptive_size) ∧
      (∀ x y, (inBlock fullBlock4 x y ↔ inBlock b1 x y ∨ inBlock b2 x y) ∧
        ¬ (inBlock b1 x y ∧ inBlock b2 x y)) ∧
      (b1.split_axis = 0 ∧ b1.split_pos = 0 ∧ b1.erase = false ∧ b1.split = false ∧
        b1.error = 0) ∧
      (b2.split_axis = 0 ∧ b2.split_pos = 0 ∧ b2.erase = false ∧ b2.split = false ∧
        b2.error = 0) :=
  ⟨sqrtQ_nonneg, rfl, le_refl 1,
    by rw [leftHeavy_error_block]; norm_num [sampler4, adaptive_sampler.ctor],
    by rw [leftHeavy_error_block]; norm_num [sampler4, adaptive_sampler.ctor],
    rfl, bigEnough_fullBlock4,
    C5_split_children_tile_parent sqrtQ sqrtQ_nonneg (sampler4 column0Matrix (constMatrix 0))
      0 1 1 fullBlock4 rfl (le_refl 1)
      (by rw [leftHeavy_error_block]; norm_num [sampler4, adaptive_sampler.ctor])
      (by rw [leftHeavy_error_block]; norm_num [sampler4, adaptive_sampler.ctor])
      rfl bigEnough_fullBlock4⟩

/-- C6, counterexample: on the 4x4 image with `min_adaptive_size = 1` and all the noise in
column 0, the region is flagged for splitting with `split_pos = 0`, and `split_remove_chunks`
emits two children of which the first, `[0, 0) x [0, 4)`, has width 0, not more than
`min_adaptive_size`. -/
theorem C6_child_not_above_min_size :
    leftHeavySampler4.min_adaptive_size = 1 ∧
    leftHeavySampler4.pixel_chunks
      = [{ fullBlock4 with error := Flt.val (1 / 4), split := true, split_axis := 0,
                           split_pos := 0 }] ∧
    (split_remove_chunks leftHeavySampler4 1).pixel_chunks
      = [{ startx := 0, starty := 0, endx := 0, endy := 4,
           split_axis := 0, split_pos := 0, erase := false, split := false, error := 0 },
         { startx := 0, starty := 0, endx := 4, endy := 4,
           split_axis := 0, split_pos := 0, erase := false, split := false, error := 0 }] := by
  have hm : leftHeavySampler4.min_adaptive_size = 1 := by
    unfold leftHeavySampler4
    rw [test_for_convergence_eq]
    rfl
  refine ⟨hm, leftHeavySampler4_chunks, ?_⟩
  rw [split_remove_chunks_chunks, leftHeavySampler4_chunks, hm]
  simp [splitOut, bigEnough, szSub, toSizeT, childLow, childHigh, fullBlock4]

/-- The children keep the bounds of the chunk on the axis that is not split. -/
theorem children_keep_other_axis (m : Int) (it : pixel_block) (hbig : bigEnough m it)
    (hax : it.split_axis = 0 ∨ it.split_axis = 1) :
    (it.split_axis = 0 ∧
      szSub (childLow it).endy (childLow it).starty > toSizeT m ∧
      szSub (childHigh it).endy (childHigh it).starty > toSizeT m) ∨
    (it.split_axis = 1 ∧
      szSub (childLow it).endx (childLow it).startx > toSizeT m ∧
      szSub (childHigh it).endx (childHigh it).startx > toSizeT m) := by
  unfold childLow childHigh
  rcases hax with h0 | h1
  · left
    simp only [h0, Nat.zero_ne_one, if_false]
    exact ⟨trivial, hbig.2, hbig.2⟩
  · right
    simp only [h1, if_true]
    exact ⟨trivial, hbig.1, hbig.1⟩

/-- C6, as amended: a region that `test_for_convergence`, called with the region's own bounds
at a round count `s >= 1`, flags for splitting and that is not erased is treated by
`split_remove_chunks` in one of two ways.  When its width and height both exceed
`min_adaptive_size`, two children are emitted in its place: they tile the region, and each of
them exceeds `min_adaptive_size` along the axis that is not split.  Otherwise the region is
emitted as a single region with its bounds unchanged. -/
theorem C6_split_or_keep (sqrtF : ℚ → ℚ) (hsqrt : ∀ q, 0 ≤ sqrtF q)
    (st : adaptive_sampler) (k s t : Nat) (c : pixel_block)
    (hk : st.pixel_chunks[k]? = some c) (_hs : 1 ≤ s)
    (h1 : Flt.val st.min_variance ≤ error_block sqrtF st s c.endx c.startx c.endy c.starty)
    (h2 : error_block sqrtF st s c.endx c.startx c.endy c.starty < Flt.val (256 * st.min_variance))
    (he : c.erase = false) :
    (bigEnough st.min_adaptive_size c →
      ∃ b1 b2,
        (split_remove_chunks
            (test_for_convergence sqrtF st k s c.endx c.startx c.endy c.starty) t).pixel_chunks
          = (st.pixel_chunks.take k).flatMap (splitOut st.min_adaptive_size) ++ [b1, b2]
            ++ (st.pixel_chunks.drop (k + 1)).flatMap (splitOut st.min_adaptive_size) ∧
        (∀ x y, (inBlock c x y ↔ inBlock b1 x y ∨ inBlock b2 x y) ∧
          ¬ (inBlock b1 x y ∧ inBlock b2 x y)) ∧
        ((szSub b1.endy b1.starty > toSizeT st.min_adaptive_size ∧
            szSub b2.endy b2.starty > toSizeT st.min_adaptive_size) ∨
          (szSub b1.endx b1.startx > toSizeT st.min_adaptive_size ∧
            szSub b2.endx b2.startx > toSizeT st.min_adaptive_size))) ∧
    (¬ bigEnough st.min_adaptive_size c →
      ∃ c',
        (split_remove_chunks
            (test_for_convergence sqrtF st k s c.endx c.startx c.endy c.starty) t).pixel_chunks
          = (st.pixel_chunks.take k).flatMap (splitOut st.min_adaptive_size) ++ [c']
            ++ (st.pixel_chunks.drop (k + 1)).flatMap (splitOut st.min_adaptive_size) ∧
        c'.startx = c.startx ∧ c'.starty = c.starty ∧ c'.endx = c.endx ∧ c'.endy = c.endy) := by
  constructor
  · intro hbig
    obtain ⟨hout, hgeo⟩ := splitOut_classified_big sqrtF hsqrt st s st.min_adaptive_size c h1 h2
      he hbig
    have hb' := (bigEnough_tfcBlock sqrtF st s c.endx c.startx c.endy c.starty
      st.min_adaptive_size c).mpr hbig
    have hax : (tfcBlock sqrtF st s c.endx c.startx c.endy c.starty c).split_axis = 0 ∨
        (tfcBlock sqrtF st s c.endx c.startx c.endy c.starty c).split_axis = 1 := by
      rcases hgeo with ⟨a, _⟩ | ⟨a, _⟩
      · exact Or.inl a
      · exact Or.inr a
    refine ⟨childLow (tfcBlock sqrtF st s c.endx c.startx c.endy c.starty c),
      childHigh (tfcBlock sqrtF st s c.endx c.startx c.endy c.starty c), ?_, ?_, ?_⟩
    · rw [split_after_classify sqrtF st k s t c.endx c.startx c.endy c.starty c hk, hout]
    · intro x y
      exact children_partition c _ (tfcBlock_bounds sqrtF st s c.endx c.startx c.endy c.starty c)
        hgeo x y
    · rcases children_keep_other_axis st.min_adaptive_size _ hb' hax with ⟨_, h⟩ | ⟨_, h⟩
      · exact Or.inl h
      · exact Or.inr h
  · intro hsmall
    refine ⟨tfcBlock sqrtF st s c.endx c.startx c.endy c.starty c, ?_,
      tfcBlock_bounds sqrtF st s c.endx c.startx c.endy c.starty c⟩
    rw [split_after_classify sqrtF st k s t c.endx c.startx c.endy c.starty c hk,
      splitOut_classified_small sqrtF st s st.min_adaptive_size c h1 he hsmall]

/-- Witness of C6 as amended: the 4x4 image with primary red 1 in column 0 only. -/
theorem C6_split_or_keep_witness :
    (∀ q, 0 ≤ sqrtQ q) ∧
    (sampler4 column0Matrix (constMatrix 0)).pixel_chunks[0]? = some fullBlock4 ∧ 1 ≤ 1 ∧
    Flt.val (sampler4 column0Matrix (constMatrix 0)).min_variance
      ≤ error_block sqrtQ (sampler4 column0Matrix (constMatrix 0)) 1
          fullBlock4.endx fullBlock4.startx fullBlock4.endy fullBlock4.starty ∧
    error_block sqrtQ (sampler4 column0Matrix (constMatrix 0)) 1
        fullBlock4.endx fullBlock4.startx fullBlock4.endy fullBlock4.starty
      < Flt.val (256 * (sampler4 column0Matrix (constMatrix 0)).min_variance) ∧
    fullBlock4.erase = false ∧
    ((bigEnough (sampler4 column0Matrix (constMatrix 0)).min_adaptive_size fullBlock4 →
      ∃ b1 b2,
        (split_remove_chunks
            (test_for_convergence sqrtQ (sampler4 column0Matrix (constMatrix 0)) 0 1
              fullBlock4.endx fullBlock4.startx fullBlock4.endy fullBlock4.starty)
            1).pixel_chunks
          = ((sampler4 column0Matrix (constMatrix 0)).pixel_chunks.take 0).flatMap
              (splitOut (sampler4 column0Matrix (constMatrix 0)).min_adaptive_size) ++ [b1, b2]
            ++ ((sampler4 column0Matrix (constMatrix 0)).pixel_chunks.drop (0 + 1)).flatMap
              (splitOut (sampler4 column0Matrix (constMatrix 0)).min_adaptive_size) ∧
        (∀ x y, (inBlock fullBlock4 x y ↔ inBlock b1 x y ∨ inBlock b2 x y) ∧
          ¬ (inBlock b1 x y ∧ inBlock b2 x y)) ∧
        ((szSub b1.endy b1.starty
              > toSizeT (sampler4 column0Matrix (constMatrix 0)).min_adaptive_size ∧
            szSub b2.endy b2.starty
              > toSizeT (sampler4 column0Matrix (constMatrix 0)).min_adaptive_size) ∨
          (szSub b1.endx b1.startx
              > toSizeT (sampler4 column0Matrix (constMatrix 0)).min_adaptive_size ∧
            szSub b2.endx b2.startx
              > toSizeT (sampler4 column0Matrix (constMatrix 0)).min_adaptive_size))) ∧
    (¬ bigEnough (sampler4 column0Matrix (constMatrix 0)).min_adaptive_size fullBlock4 →
      ∃ c',
        (split_remove_chunks
            (test_for_convergence sqrtQ (sampler4 column0Matrix (constMatrix 0)) 0 1
              fullBlock4.endx fullBlock4.startx fullBlock4.endy fullBlock4.starty)
            1).pixel_chunks
          = ((sampler4 column0Matrix (constMatrix 0)).pixel_chunks.take 0).flatMap
              (splitOut (sampler4 column0Matrix (constMatrix 0)).min_adaptive_size) ++ [c']
            ++ ((sampler4 column0Matrix (constMatrix 0)).pixel_chunks.drop (0 + 1)).flatMap
              (splitOut (sampler4 column0Matrix (constMatrix 0)).min_adaptive_size) ∧
        c'.startx = fullBlock4.startx ∧ c'.starty = fullBlock4.starty ∧
        c'.endx = fullBlock4.endx ∧ c'.endy = fullBlock4.endy)) :=
  ⟨sqrtQ_nonneg, rfl, le_refl 1,
    by rw [leftHeavy_error_block]; norm_num [sampler4, adaptive_sampler.ctor],
    by rw [leftHeavy_error_block]; norm_num [sampler4, adaptive_sampler.ctor],
    rfl,
    C6_split_or_keep sqrtQ sqrtQ_nonneg (sampler4 column0Matrix (constMatrix 0))
      0 1 1 fullBlock4 rfl (le_refl 1)
      (by rw [leftHeavy_error_block]; norm_num [sampler4, adaptive_sampler.ctor])
      (by rw [leftHeavy_error_block]; norm_num [sampler4, adaptive_sampler.ctor])
      rfl⟩

/-! ## Rounds -/

theorem tfcBlock_withChunks (sqrtF : ℚ → ℚ) (st : adaptive_sampler) (L : List pixel_block)
    (s xe xb ye yb : Nat) (c : pixel_block) :
    tfcBlock sqrtF (withChunks st L) s xe xb ye yb c = tfcBlock sqrtF st s xe xb ye yb c := rfl

theorem getElem?_append_cons_length (pre post : List pixel_block) (c : pixel_block) :
    (pre ++ c :: post)[pre.length]? = some c := by
  induction pre with
  | nil => simp
  | cons a pre ih => simpa using ih

theorem modifyAt_append_cons_length (f : pixel_block → pixel_block) (pre post : List pixel_block)
    (c : pixel_block) :
    modifyAt f (pre ++ c :: post) pre.length = pre ++ f c :: post := by
  induction pre with
  | nil => rfl
  | cons a pre ih => simp [modifyAt, ih]

theorem classifyOwn_step (sqrtF : ℚ → ℚ) (st : adaptive_sampler) (s : Nat)
    (pre post : List pixel_block) (c : pixel_block) :
    classifyOwn sqrtF s pre.length (withChunks st (pre ++ c :: post))
      = withChunks st (pre ++ tfcBlock sqrtF st s c.endx c.startx c.endy c.starty c :: post) := by
  unfold classifyOwn
  have hget : (withChunks st (pre ++ c :: post)).pixel_chunks[pre.length]? = some c :=
    getElem?_append_cons_length pre post c
  rw [hget]
  simp only
  rw [test_for_convergence_eq]
  show withChunks st (modifyAt _ (pre ++ c :: post) pre.length) = _
  rw [modifyAt_append_cons_length]
  rfl

theorem classifyFold (sqrtF : ℚ → ℚ) (st : adaptive_sampler) (s : Nat)
    (post pre : List pixel_block) :
    (List.range' pre.length post.length).foldl (fun st k => classifyOwn sqrtF s k st)
        (withChunks st (pre ++ post))
      = withChunks st
          (pre ++ post.map (fun c => tfcBlock sqrtF st s c.endx c.startx c.endy c.starty c)) := by
  induction post generalizing pre with
  | nil => simp
  | cons c post ih =>
    rw [List.length_cons, List.range'_succ, List.foldl_cons, classifyOwn_step]
    have h := ih (pre ++ [tfcBlock sqrtF st s c.endx c.startx c.endy c.starty c])
    simp only [List.length_append, List.length_singleton, List.append_assoc,
      List.singleton_append] at h
    rw [h, List.map_cons]

/-- Classifying every region rewrites each region by `tfcBlock` with the region's own bounds
and changes nothing else. -/
theorem classifyAll_eq (sqrtF : ℚ → ℚ) (st : adaptive_sampler) (s : Nat) :
    classifyAll sqrtF st s
      = withChunks st (st.pixel_chunks.map
          (fun c => tfcBlock sqrtF st s c.endx c.startx c.endy c.starty c)) := by
  unfold classifyAll forRange loopRange adaptive_sampler.size
  have h := classifyFold sqrtF st s st.pixel_chunks []
  simpa [withChunks] using h

theorem cover_map_same_bounds (f : pixel_block → pixel_block) (chunks : List pixel_block)
    (hf : ∀ c, (f c).startx = c.startx ∧ (f c).starty = c.starty ∧ (f c).endx = c.endx ∧
      (f c).endy = c.endy) (x y : Nat) :
    cover (chunks.map f) x y = cover chunks x y := by
  induction chunks with
  | nil => rfl
  | cons c chunks ih =>
    obtain ⟨h1, h2, h3, h4⟩ := hf c
    have hin : inBlock (f c) x y ↔ inBlock c x y := by
      unfold inBlock
      rw [h1, h2, h3, h4]
    rw [List.map_cons, cover_cons, cover_cons, ih]
    by_cases hc : inBlock c x y
    · rw [if_pos hc, if_pos (hin.mpr hc)]
    · rw [if_neg hc, if_neg (fun h => hc (hin.mp h))]

/-- The accumulation calls leave the region set, the division counts and the configuration as
they are. -/
theorem accumulate_keeps (st : adaptive_sampler) (adds : List AddCall) :
    (accumulate st adds).pixel_chunks = st.pixel_chunks ∧
    (accumulate st adds).div_count = st.div_count ∧
    (accumulate st adds).nx = st.nx ∧ (accumulate st adds).ny = st.ny ∧
    (accumulate st adds).min_adaptive_size = st.min_adaptive_size := by
  unfold accumulate
  induction adds generalizing st with
  | nil => exact ⟨rfl, rfl, rfl, rfl, rfl⟩
  | cons a adds ih =>
    obtain ⟨h1, h2, h3, h4, h5⟩ := ih (applyAdd st a)
    rw [List.foldl_cons]
    cases a <;> exact ⟨h1, h2, h3, h4, h5⟩

theorem splitOut_members (m : Int) (it b : pixel_block) (hit : it.erase = false)
    (hb : b ∈ splitOut m it) :
    b.erase = false ∧ (b.split = true → ¬ bigEnough m b) := by
  unfold splitOut at hb
  rw [if_neg (by simp [hit])] at hb
  by_cases hsp : it.split = true ∧ bigEnough m it
  · rw [if_pos hsp] at hb
    by_cases hax : it.split_axis = 1 ∨ it.split_axis = 0
    · rw [if_pos hax] at hb
      simp only [List.mem_cons, List.mem_singleton, List.not_mem_nil, or_false] at hb
      rcases hb with rfl | rfl
      · exact ⟨(child_fields it).1.2.2.1, fun h => by
          rw [(child_fields it).1.2.2.2.1] at h; exact absurd h (by decide)⟩
      · exact ⟨(child_fields it).2.2.2.1, fun h => by
          rw [(child_fields it).2.2.2.2.1] at h; exact absurd h (by decide)⟩
    · rw [if_neg hax] at hb
      exact absurd hb (List.not_mem_nil _)
  · rw [if_neg hsp] at hb
    rw [List.mem_singleton] at hb
    subst hb
    exact ⟨hit, fun hs hbig => hsp ⟨hs, hbig⟩⟩

/-- A round keeps the invariant of the partition. -/
theorem round_keeps_inv (sqrtF : ℚ → ℚ) (hsqrt : ∀ q, 0 ≤ sqrtF q) (st : adaptive_sampler)
    (rd : Round) (h : partitionInv st) :
    partitionInv (round sqrtF st rd) ∧
    (round sqrtF st rd).nx = st.nx ∧ (round sqrtF st rd).ny = st.ny ∧
    (round sqrtF st rd).min_adaptive_size = st.min_adaptive_size := by
  obtain ⟨hI1, hI2⟩ := h
  obtain ⟨a1, a2, a3, a4, a5⟩ := accumulate_keeps st rd.adds
  unfold round
  rw [classifyAll_eq]
  set sa := accumulate st rd.adds with hsa
  set G : pixel_block → pixel_block :=
    fun c => tfcBlock sqrtF sa rd.s c.endx c.startx c.endy c.starty c with hG
  obtain ⟨c1, c2, _, c4⟩ := split_remove_chunks_config (withChunks sa (sa.pixel_chunks.map G)) rd.s
  have hm : (withChunks sa (sa.pixel_chunks.map G)).min_adaptive_size = st.min_adaptive_size := a5
  have hready : ∀ it, it ∈ (withChunks sa (sa.pixel_chunks.map G)).pixel_chunks →
      splitReady (withChunks sa (sa.pixel_chunks.map G)).min_adaptive_size it := by
    intro it hit
    rw [hm]
    obtain ⟨c, hc, rfl⟩ := List.mem_map.mp hit
    rw [a1] at hc
    exact tfcBlock_splitReady sqrtF hsqrt sa rd.s st.min_adaptive_size c (hI1 c hc).2
  obtain ⟨k1, _⟩ := cover_flatMap_splitOut _ _ hready
  refine ⟨⟨?_, ?_⟩, c1.trans a3, c2.trans a4, c4.trans a5⟩
  · intro b hb
    rw [split_remove_chunks_chunks] at hb
    rw [c4, hm]
    rw [hm] at hb
    obtain ⟨it, hit, hbit⟩ := List.mem_flatMap.mp hb
    by_cases he : it.erase = true
    · unfold splitOut at hbit
      rw [if_pos he] at hbit
      exact absurd hbit (List.not_mem_nil _)
    · exact splitOut_members st.min_adaptive_size it b (by simpa using he) hbit
  · intro x y
    rw [split_remove_chunks_div_count, split_remove_chunks_chunks, c1, c2]
    have hk := k1 x y
    have hcov : cover (withChunks sa (sa.pixel_chunks.map G)).pixel_chunks x y
        = cover st.pixel_chunks x y := by
      show cover (sa.pixel_chunks.map G) x y = _
      rw [cover_map_same_bounds G _ (fun c => tfcBlock_bounds sqrtF sa rd.s _ _ _ _ c), a1]
    have hdiv : (withChunks sa (sa.pixel_chunks.map G)).div_count x y = st.div_count x y := by
      show sa.div_count x y = _
      rw [a2]
    have hnx : (withChunks sa (sa.pixel_chunks.map G)).nx = st.nx := a3
    have hny : (withChunks sa (sa.pixel_chunks.map G)).ny = st.ny := a4
    rw [hdiv, hnx, hny, ← hI2 x y, ← hcov, ← hk]
    omega

/-! ## The final pass -/

theorem finalPixel_sameConfig (i j : Nat) (st : adaptive_sampler) :
    sameConfig st (finalPixel i j st) := by
  unfold finalPixel sameConfig
  simp only
  split_ifs <;> exact ⟨rfl, rfl, rfl, rfl, rfl, rfl, rfl, rfl, rfl, rfl, rfl⟩

theorem finalPixel_div_count (i j : Nat) (st : adaptive_sampler) (x y : Nat) :
    (finalPixel i j st).div_count x y
      = st.div_count x y + if (i, j) = (x, y) then 1 else 0 := by
  have hd : (finalPixel i j st).div_count
      = fun x y => if x = i ∧ y = j then st.div_count x y + 1 else st.div_count x y := by
    unfold finalPixel
    simp only
    split_ifs <;> rfl
  rw [hd]
  simp only [Prod.mk.injEq]
  by_cases h : x = i ∧ y = j
  · obtain ⟨rfl, rfl⟩ := h; simp
  · have h' : ¬ (i = x ∧ j = y) := fun h' => h ⟨h'.1.symm, h'.2.symm⟩
    simp [h, h']

theorem finalFold_effect (chunks : List pixel_block) (st : adaptive_sampler) :
    sameConfig st (chunks.foldl (fun st it =>
      forRange it.startx it.endx (fun i st =>
        forRange it.starty it.endy (fun j st => finalPixel i j st) st) st) st) ∧
    ∀ x y, (chunks.foldl (fun st it =>
      forRange it.startx it.endx (fun i st =>
        forRange it.starty it.endy (fun j st => finalPixel i j st) st) st) st).div_count x y
      = st.div_count x y + cover chunks x y := by
  induction chunks generalizing st with
  | nil => exact ⟨sameConfig_refl st, fun x y => by simp [cover]⟩
  | cons it chunks ih =>
    obtain ⟨h1, h2⟩ := pixelLoops_effect (fun i j st => finalPixel i j st)
      (fun i j st => ⟨finalPixel_sameConfig i j st, finalPixel_div_count i j st⟩)
      it.startx it.endx it.starty it.endy st
    obtain ⟨i1, i2⟩ := ih (forRange it.startx it.endx (fun i st =>
        forRange it.starty it.endy (fun j st => finalPixel i j st) st) st)
    refine ⟨sameConfig_trans h1 i1, fun x y => ?_⟩
    rw [List.foldl_cons, i2, h2, cover_cons, add_assoc]
    congr 1
    unfold inBlock
    by_cases hin : (it.startx ≤ x ∧ x < it.endx) ∧ (it.starty ≤ y ∧ y < it.endy)
    · rw [if_pos hin, if_pos ⟨hin.1.1, hin.1.2, hin.2.1, hin.2.2⟩]
    · rw [if_neg hin, if_neg (fun h => hin ⟨⟨h.1, h.2.1⟩, h.2.2.1, h.2.2.2⟩)]

/-- The final pass divides each pixel once for every region that contains it, and keeps the
region set. -/
theorem write_final_pixels_div_count (st : adaptive_sampler) (x y : Nat) :
    (write_final_pixels st).div_count x y = st.div_count x y + cover st.pixel_chunks x y :=
  (finalFold_effect st.pixel_chunks st).2 x y

theorem write_final_pixels_chunks (st : adaptive_sampler) :
    (write_final_pixels st).pixel_chunks = st.pixel_chunks :=
  (finalFold_effect st.pixel_chunks st).1.2.2.2.2.2.2.2.2.2.2

/-! ## Runs -/

/-- The sampler built by the constructor satisfies the invariant of the partition. -/
theorem ctor_inv (numbercores nx ny ns : Nat) (debug_channel : Int)
    (min_variance : ℚ) (min_adaptive_size : Int) (r g b r2 g2 b2 : NumericMatrix)
    (hc : 1 ≤ numbercores) :
    partitionInv (adaptive_sampler.ctor numbercores nx ny ns debug_channel min_variance
      min_adaptive_size r g b r2 g2 b2) := by
  constructor
  · intro it hit
    have hit' : it ∈ initChunks numbercores nx ny := hit
    rw [initChunks_eq] at hit'
    simp only [List.mem_flatMap, List.mem_map, List.mem_range] at hit'
    obtain ⟨i, _, j, _, rfl⟩ := hit'
    exact ⟨rfl, fun h => absurd h (by simp [initChunk])⟩
  · intro x y
    show cover (initChunks numbercores nx ny) x y + 0 = _
    rw [Nat.add_zero, cover_initChunks numbercores nx ny x y hc]
    rfl

/-- Every run keeps the invariant of the partition and the size of the image. -/
theorem run_keeps_inv (sqrtF : ℚ → ℚ) (hsqrt : ∀ q, 0 ≤ sqrtF q) (rounds : List Round)
    (st : adaptive_sampler) (h : partitionInv st) :
    partitionInv (run sqrtF st rounds) ∧
    (run sqrtF st rounds).nx = st.nx ∧ (run sqrtF st rounds).ny = st.ny := by
  unfold run
  induction rounds generalizing st with
  | nil => exact ⟨h, rfl, rfl⟩
  | cons rd rounds ih =>
    obtain ⟨h1, h2, h3, _⟩ := round_keeps_inv sqrtF hsqrt st rd h
    obtain ⟨i1, i2, i3⟩ := ih (round sqrtF st rd) h1
    exact ⟨i1, i2.trans h2, i3.trans h3⟩

theorem cover_pos_of_mem (chunks : List pixel_block) (b : pixel_block) (x y : Nat)
    (hb : b ∈ chunks) (hin : inBlock b x y) : 1 ≤ cover chunks x y := by
  unfold cover
  exact List.countP_pos_iff.mpr ⟨b, hb, by simpa using hin⟩

/-- A region set that covers no pixel twice consists of pairwise disjoint rectangles. -/
theorem pairwise_of_cover_le_one (chunks : List pixel_block)
    (h : ∀ x y, cover chunks x y ≤ 1) :
    chunks.Pairwise (fun a b => ∀ x y, ¬ (inBlock a x y ∧ inBlock b x y)) := by
  induction chunks with
  | nil => exact List.Pairwise.nil
  | cons a chunks ih =>
    refine List.Pairwise.cons ?_ (ih (fun x y => ?_))
    · intro b hb x y hboth
      have h1 := h x y
      rw [cover_cons, if_pos hboth.1] at h1
      have h2 := cover_pos_of_mem chunks b x y hb hboth.2
      omega
    · have h1 := h x y
      rw [cover_cons] at h1
      omega

/-- C3: in every partition state reached from the constructor (`core_count >= 1`) by any number
of rounds with round counts `s >= 1`, no pixel belongs to two regions of `pixel_chunks`: every
pixel is covered at most once, that is, the regions are pairwise disjoint. -/
theorem C3_regions_never_overlap (sqrtF : ℚ → ℚ) (hsqrt : ∀ q, 0 ≤ sqrtF q)
    (numbercores nx ny ns : Nat) (debug_channel : Int)
    (min_variance : ℚ) (min_adaptive_size : Int) (r g b r2 g2 b2 : NumericMatrix)
    (hc : 1 ≤ numbercores) (rounds : List Round) (_hs : ∀ rd, rd ∈ rounds → 1 ≤ rd.s) :
    (∀ x y, cover (run sqrtF (adaptive_sampler.ctor numbercores nx ny ns debug_channel
        min_variance min_adaptive_size r g b r2 g2 b2) rounds).pixel_chunks x y ≤ 1) ∧
    (run sqrtF (adaptive_sampler.ctor numbercores nx ny ns debug_channel
        min_variance min_adaptive_size r g b r2 g2 b2) rounds).pixel_chunks.Pairwise
      (fun a b => ∀ x y, ¬ (inBlock a x y ∧ inBlock b x y)) := by
  obtain ⟨⟨_, hI2⟩, _, _⟩ := run_keeps_inv sqrtF hsqrt rounds _
    (ctor_inv numbercores nx ny ns debug_channel min_variance min_adaptive_size r g b r2 g2 b2 hc)
  have hle : ∀ x y, cover (run sqrtF (adaptive_sampler.ctor numbercores nx ny ns debug_channel
      min_variance min_adaptive_size r g b r2 g2 b2) rounds).pixel_chunks x y ≤ 1 := by
    intro x y
    have h := hI2 x y
    split_ifs at h <;> omega
  exact ⟨hle, pairwise_of_cover_le_one _ hle⟩

/-- Witness of C1: a 5x3 image on a 2x2 grid. -/
theorem C1_constructor_tiles_image_witness :
    1 ≤ 2 ∧
    ((∀ x y, x < 5 → y < 3 →
      cover (adaptive_sampler.ctor 2 5 3 4 0 (1 / 100) 1 (constMatrix 0) (constMatrix 0)
        (constMatrix 0) (constMatrix 0) (constMatrix 0) (constMatrix 0)).pixel_chunks x y = 1) ∧
    (∀ blk, blk ∈ (adaptive_sampler.ctor 2 5 3 4 0 (1 / 100) 1 (constMatrix 0) (constMatrix 0)
        (constMatrix 0) (constMatrix 0) (constMatrix 0) (constMatrix 0)).pixel_chunks →
      blk.startx ≤ blk.endx ∧ blk.endx ≤ 5 ∧ blk.starty ≤ blk.endy ∧ blk.endy ≤ 3) ∧
    totalArea (adaptive_sampler.ctor 2 5 3 4 0 (1 / 100) 1 (constMatrix 0) (constMatrix 0)
        (constMatrix 0) (constMatrix 0) (constMatrix 0) (constMatrix 0)).pixel_chunks = 5 * 3) :=
  ⟨by decide, C1_constructor_tiles_image 2 5 3 4 0 (1 / 100) 1 (constMatrix 0) (constMatrix 0)
    (constMatrix 0) (constMatrix 0) (constMatrix 0) (constMatrix 0) (by decide)⟩

/-- Witness of C3: one round at `s = 1` on the 4x4 image with the noise in column 0. -/
theorem C3_regions_never_overlap_witness :
    (∀ q, 0 ≤ sqrtQ q) ∧ 1 ≤ 1 ∧ (∀ rd, rd ∈ [Round.mk [] 1] → 1 ≤ rd.s) ∧
    ((∀ x y, cover (run sqrtQ (adaptive_sampler.ctor 1 4 4 4 0 (1 / 100) 1 column0Matrix
        (constMatrix 0) (constMatrix 0) (constMatrix 0) (constMatrix 0) (constMatrix 0))
        [Round.mk [] 1]).pixel_chunks x y ≤ 1) ∧
    (run sqrtQ (adaptive_sampler.ctor 1 4 4 4 0 (1 / 100) 1 column0Matrix
        (constMatrix 0) (constMatrix 0) (constMatrix 0) (constMatrix 0) (constMatrix 0))
        [Round.mk [] 1]).pixel_chunks.Pairwise
      (fun a b => ∀ x y, ¬ (inBlock a x y ∧ inBlock b x y))) :=
  ⟨sqrtQ_nonneg, le_refl 1, by simp,
    C3_regions_never_overlap sqrtQ sqrtQ_nonneg 1 4 4 4 0 (1 / 100) 1 column0Matrix
      (constMatrix 0) (constMatrix 0) (constMatrix 0) (constMatrix 0) (constMatrix 0)
      (le_refl 1) [Round.mk [] 1] (by simp)⟩

theorem initChunks_one (nx ny : Nat) :
    initChunks 1 nx ny
      = [{ startx := 0, starty := 0, endx := nx, endy := ny,
           split_axis := 0, split_pos := 0, erase := false, split := false, error := 0 }] := by
  rw [initChunks_eq]
  have h1 : List.range 1 = [0] := rfl
  rw [h1]
  simp [initChunk]

/-- C9, as amended: for an image classified as one full-image region at round count `s = 1`
with `min_variance = 1/100`, if the primary buffers are twice the secondary buffers
channel-wise at every pixel of the image and no pixel of the image has a negative primary sum
`r + g + b`, `test_for_convergence` stores the error 0 and flags the region converged. -/
theorem C9_full_image_double_secondary (sqrtF : ℚ → ℚ) (nx ny ns : Nat) (debug_channel : Int)
    (min_adaptive_size : Int) (r g b r2 g2 b2 : NumericMatrix)
    (hbuf : ∀ i j, i < nx → j < ny →
      r i j = 2 * r2 i j ∧ g i j = 2 * g2 i j ∧ b i j = 2 * b2 i j)
    (hsum : ∀ i j, i < nx → j < ny → 0 ≤ r i j + g i j + b i j) :
    (test_for_convergence sqrtF (adaptive_sampler.ctor 1 nx ny ns debug_channel (1 / 100)
        min_adaptive_size r g b r2 g2 b2) 0 1 nx 0 ny 0).pixel_chunks
      = [{ startx := 0, starty := 0, endx := nx, endy := ny,
           split_axis := 0, split_pos := 0, erase := true, split := false, error := 0 }] := by
  have hE : error_block sqrtF (adaptive_sampler.ctor 1 nx ny ns debug_channel (1 / 100)
      min_adaptive_size r g b r2 g2 b2) 1 nx 0 ny 0 = 0 :=
    error_block_zero_of_double sqrtF _ 1 nx 0 ny 0 (fun i j _ h2 _ h4 => hsum i j h2 h4)
      (fun i j _ h2 _ h4 => hbuf i j h2 h4)
  rw [test_for_convergence_eq]
  show modifyAt _ (initChunks 1 nx ny) 0 = _
  rw [initChunks_one, modifyAt,
    tfcBlock_of_lt _ _ _ _ _ _ _ _
      (by rw [hE, Flt.zero_eq]; norm_num [adaptive_sampler.ctor]), hE]

/-- Witness of C9 as amended: the 4x4 image with primary red 2 and secondary red 1. -/
theorem C9_full_image_double_secondary_witness :
    (∀ i j, i < 4 → j < 4 →
      constMatrix 2 i j = 2 * constMatrix 1 i j ∧ constMatrix 0 i j = 2 * constMatrix 0 i j ∧
      constMatrix 0 i j = 2 * constMatrix 0 i j) ∧
    (∀ i j, i < 4 → j < 4 → 0 ≤ constMatrix 2 i j + constMatrix 0 i j + constMatrix 0 i j) ∧
    (test_for_convergence sqrtQ (adaptive_sampler.ctor 1 4 4 4 0 (1 / 100)
        1 (constMatrix 2) (constMatrix 0) (constMatrix 0) (constMatrix 1) (constMatrix 0)
        (constMatrix 0)) 0 1 4 0 4 0).pixel_chunks
      = [{ startx := 0, starty := 0, endx := 4, endy := 4,
           split_axis := 0, split_pos := 0, erase := true, split := false, error := 0 }] :=
  ⟨fun i j _ _ => by simp [constMatrix], fun i j _ _ => by norm_num [constMatrix],
    C9_full_image_double_secondary sqrtQ 4 4 4 0 1 (constMatrix 2) (constMatrix 0)
      (constMatrix 0) (constMatrix 1) (constMatrix 0) (constMatrix 0)
      (fun i j _ _ => by simp [constMatrix]) (fun i j _ _ => by norm_num [constMatrix])⟩
/-! ## Flags carried into a later round -/

theorem splitStep_fst_of_kept (s : Nat) (acc : adaptive_sampler × List pixel_block)
    (it : pixel_block) (he : it.erase = false) : (splitStep s acc it).1 = acc.1 := by
  unfold splitStep
  simp only [he, Bool.false_eq_true, if_false]
  split_ifs <;> rfl

/-- When no region is erased, `split_remove_chunks` changes the region set only. -/
theorem split_remove_chunks_no_erase (st : adaptive_sampler) (s : Nat)
    (h : ∀ it, it ∈ st.pixel_chunks → it.erase = false) :
    split_remove_chunks st s
      = withChunks st (st.pixel_chunks.flatMap (splitOut st.min_adaptive_size)) := by
  have key : ∀ (chunks : List pixel_block) (acc : adaptive_sampler × List pixel_block),
      (∀ it, it ∈ chunks → it.erase = false) → (chunks.foldl (splitStep s) acc).1 = acc.1 := by
    intro chunks
    induction chunks with
    | nil => intro acc _; rfl
    | cons it chunks ih =>
      intro acc hall
      rw [List.foldl_cons, ih _ (fun b hb => hall b (List.mem_cons_of_mem _ hb)),
        splitStep_fst_of_kept s acc it (hall it (List.mem_cons_self _ _))]
  unfold split_remove_chunks withChunks
  have h2 := (splitFold_effect s st.pixel_chunks (st, [])).1
  simp only [List.nil_append] at h2
  simp only [key st.pixel_chunks (st, []) h, h2]

theorem loopRange_0_2 : loopRange 0 2 = [0, 1] := rfl

theorem nanFree_smallSampler : nanFree smallSampler 2 0 2 0 :=
  nanFree_of_nonneg _ _ _ _ _
    (fun i j => by norm_num [smallSampler, adaptive_sampler.ctor, constMatrix])

theorem exactError_smallSampler : exactError sqrtQ smallSampler 1 2 0 2 0 = 1 := by
  rw [exactError_eq_sum, loopRange_0_2]
  simp only [regionCell, errCell, smallSampler, adaptive_sampler.ctor, constMatrix,
    List.map_cons, List.map_nil, List.sum_cons, List.sum_nil]
  norm_num [sqrtQ_one]

/-- The first round on `smallSampler` flags the region for splitting and carries it forward,
because it is too small to be split. -/
theorem carriedSampler_eq : carriedSampler = withChunks smallSampler [carriedBlock] := by
  have hcls : test_for_convergence sqrtQ smallSampler 0 1 2 0 2 0
      = withChunks smallSampler [carriedBlock] := by
    rw [test_for_convergence_eq]
    show withChunks smallSampler (modifyAt _ (initChunks 1 2 2) 0) = _
    rw [initChunks_one, modifyAt]
    rw [tfcBlock_of_split_x sqrtQ smallSampler 1 2 0 2 0 _ 0 nanFree_smallSampler
      (by rw [exactError_smallSampler]; norm_num [smallSampler, adaptive_sampler.ctor])
      (by rw [exactError_smallSampler]; norm_num [smallSampler, adaptive_sampler.ctor])
      (by decide)
      (by
        rw [exactError_smallSampler, loopRange_0_2]
        simp only [regionCell, errCell, smallSampler, adaptive_sampler.ctor, constMatrix,
          List.map_cons, List.map_nil, List.sum_cons, List.sum_nil]
        norm_num [sqrtQ_one])
      (by decide) rfl, exactError_smallSampler]
    rfl
  unfold carriedSampler
  rw [hcls, split_remove_chunks_no_erase _ _ (by
    intro it hit
    have : it = carriedBlock := by simpa [withChunks] using hit
    rw [this]; rfl)]
  show withChunks smallSampler
    ([carriedBlock].flatMap (splitOut smallSampler.min_adaptive_size)) = _
  have hout : [carriedBlock].flatMap (splitOut smallSampler.min_adaptive_size)
      = [carriedBlock] := by
    simp [splitOut, bigEnough, szSub, toSizeT, carriedBlock, smallSampler,
      adaptive_sampler.ctor]
  rw [hout]

/-- C10, counterexample: the region of a 2x2 image with `min_adaptive_size = 2` is flagged
`split` in the first round and carried forward by `split_remove_chunks` because it is too small
to be split; after four calls of `add_color_sec` have made the primary buffers twice the
secondary ones, `test_for_convergence` in the second round sets `erase` and leaves `split` set:
both flags are true. -/
theorem C10_both_flags_true :
    carriedSampler.pixel_chunks = [carriedBlock] ∧
    carriedBlock.erase = false ∧ carriedBlock.split = true ∧
    (test_for_convergence sqrtQ refilledSampler 0 2 2 0 2 0).pixel_chunks
      = [{ startx := 0, starty := 0, endx := 2, endy := 2,
           split_axis := 0, split_pos := 0, erase := true, split := true, error := 0 }] := by
  refine ⟨by rw [carriedSampler_eq]; rfl, rfl, rfl, ?_⟩
  have hch : refilledSampler.pixel_chunks = [carriedBlock] := by
    unfold refilledSampler
    rw [carriedSampler_eq]
    rfl
  have hmv : refilledSampler.min_variance = 1 / 100 := by
    unfold refilledSampler
    rw [carriedSampler_eq]
    rfl
  have hE : error_block sqrtQ refilledSampler 2 2 0 2 0 = 0 := by
    apply error_block_zero_of_double
    · intro i j _ hi _ hj
      unfold refilledSampler
      rw [carriedSampler_eq]
      norm_num [add_color_sec, withChunks, smallSampler, adaptive_sampler.ctor, constMatrix,
        NumericMatrix.set]
    · intro i j _ hi _ hj
      unfold refilledSampler
      rw [carriedSampler_eq]
      interval_cases i <;> interval_cases j <;>
        norm_num [add_color_sec, withChunks, smallSampler, adaptive_sampler.ctor, constMatrix,
          NumericMatrix.set]
  rw [test_for_convergence_eq]
  show modifyAt _ refilledSampler.pixel_chunks 0 = _
  rw [hch, modifyAt, tfcBlock_of_lt _ _ _ _ _ _ _ _
    (by rw [hE, hmv, Flt.zero_eq]; norm_num), hE]
  rfl

/-- C10, as amended: a call of `test_for_convergence` sets at most one of the two flags and
clears none: `erase` is true after the call when it was true before or the block error is below
`min_variance`, and `split` is true after the call when it was true before or the block error
lies in `[min_variance, 256 * min_variance)`.  For a region that is not flagged `erase` before
the call, both flags are true after the call exactly when the region entered the call with
`split` set and the call finds its block error below `min_variance`; in particular they are
never both true when both were false before the call. -/
theorem C10_flags_after_classification (sqrtF : ℚ → ℚ) (st : adaptive_sampler)
    (k s xe xb ye yb : Nat) (c : pixel_block)
    (hk : st.pixel_chunks[k]? = some c) :
    ∃ c', (test_for_convergence sqrtF st k s xe xb ye yb).pixel_chunks[k]? = some c' ∧
      (c'.erase = true ↔ c.erase = true ∨
        error_block sqrtF st s xe xb ye yb < Flt.val st.min_variance) ∧
      (c'.split = true ↔ c.split = true ∨
        (Flt.val st.min_variance ≤ error_block sqrtF st s xe xb ye yb ∧
          error_block sqrtF st s xe xb ye yb < Flt.val (256 * st.min_variance))) ∧
      (c.erase = false →
        ((c'.erase = true ∧ c'.split = true) ↔
          (c.split = true ∧ error_block sqrtF st s xe xb ye yb < Flt.val st.min_variance))) ∧
      (c.erase = false → c.split = false → ¬ (c'.erase = true ∧ c'.split = true)) := by
  have h1 : (tfcBlock sqrtF st s xe xb ye yb c).erase = true
      ↔ c.erase = true ∨ error_block sqrtF st s xe xb ye yb < Flt.val st.min_variance := by
    rw [tfcBlock_erase]; simp
  have h2 : (tfcBlock sqrtF st s xe xb ye yb c).split = true ↔ c.split = true ∨
      (Flt.val st.min_variance ≤ error_block sqrtF st s xe xb ye yb ∧
        error_block sqrtF st s xe xb ye yb < Flt.val (256 * st.min_variance)) := by
    rw [tfcBlock_split, mul_comm st.min_variance 256]
    cases hE : error_block sqrtF st s xe xb ye yb with
    | val e => simp
    | nan => simp
  have h3 : c.erase = false →
      (((tfcBlock sqrtF st s xe xb ye yb c).erase = true ∧
        (tfcBlock sqrtF st s xe xb ye yb c).split = true) ↔
      (c.split = true ∧ error_block sqrtF st s xe xb ye yb < Flt.val st.min_variance)) := by
    intro he
    rw [h1, h2, he]
    constructor
    · rintro ⟨hf | hlt, hs | ⟨hge, _⟩⟩
      · exact absurd hf (by decide)
      · exact absurd hf (by decide)
      · exact ⟨hs, hlt⟩
      · exact absurd hlt (Flt.not_lt_of_le _ _ hge)
    · rintro ⟨hs, hlt⟩
      exact ⟨Or.inr hlt, Or.inl hs⟩
  refine ⟨tfcBlock sqrtF st s xe xb ye yb c,
    test_for_convergence_get sqrtF st k s xe xb ye yb c hk, h1, h2, h3, ?_⟩
  intro he hs hboth
  have := ((h3 he).mp hboth).1
  rw [hs] at this
  exact absurd this (by decide)

/-- Witness of C10 as amended: the full-image region of the 4x4 sampler with the noise in
column 0. -/
theorem C10_flags_after_classification_witness :
    (sampler4 column0Matrix (constMatrix 0)).pixel_chunks[0]? = some fullBlock4 ∧
    ∃ c', (test_for_convergence sqrtQ (sampler4 column0Matrix (constMatrix 0))
        0 1 4 0 4 0).pixel_chunks[0]? = some c' ∧
      (c'.erase = true ↔ fullBlock4.erase = true ∨
        error_block sqrtQ (sampler4 column0Matrix (constMatrix 0)) 1 4 0 4 0
          < Flt.val (sampler4 column0Matrix (constMatrix 0)).min_variance) ∧
      (c'.split = true ↔ fullBlock4.split = true ∨
        (Flt.val (sampler4 column0Matrix (constMatrix 0)).min_variance
            ≤ error_block sqrtQ (sampler4 column0Matrix (constMatrix 0)) 1 4 0 4 0 ∧
          error_block sqrtQ (sampler4 column0Matrix (constMatrix 0)) 1 4 0 4 0
            < Flt.val (256 * (sampler4 column0Matrix (constMatrix 0)).min_variance))) ∧
      (fullBlock4.erase = false →
        ((c'.erase = true ∧ c'.split = true) ↔
          (fullBlock4.split = true ∧
            error_block sqrtQ (sampler4 column0Matrix (constMatrix 0)) 1 4 0 4 0
              < Flt.val (sampler4 column0Matrix (constMatrix 0)).min_variance))) ∧
      (fullBlock4.erase = false → fullBlock4.split = false →
        ¬ (c'.erase = true ∧ c'.split = true)) :=
  ⟨rfl,
    C10_flags_after_classification sqrtQ (sampler4 column0Matrix (constMatrix 0))
      0 1 4 0 4 0 fullBlock4 rfl⟩

/-! ## Classifying twice -/

theorem tfcBlock_modChunk (sqrtF : ℚ → ℚ) (st : adaptive_sampler) (k : Nat)
    (f : pixel_block → pixel_block) (s xe xb ye yb : Nat) (c : pixel_block) :
    tfcBlock sqrtF (st.modChunk k f) s xe xb ye yb c = tfcBlock sqrtF st s xe xb ye yb c := rfl

theorem setSplitPos_twice (found : Option Nat) (c : pixel_block) (e : Flt) (a : Nat) :
    setSplitPos found
        { setSplitPos found c with error := e, split := true, split_axis := a }
      = setSplitPos found { c with error := e, split := true, split_axis := a } := by
  cases found <;> rfl

/-- Applying the assignments of a call to a chunk that already went through them changes
nothing. -/
theorem tfcBlock_idem (sqrtF : ℚ → ℚ) (st : adaptive_sampler) (s xe xb ye yb : Nat)
    (c : pixel_block) :
    tfcBlock sqrtF st s xe xb ye yb (tfcBlock sqrtF st s xe xb ye yb c)
      = tfcBlock sqrtF st s xe xb ye yb c := by
  unfold tfcBlock
  simp only
  by_cases h1 : (errLoop sqrtF st s xe xb ye yb).2 < Flt.val st.min_variance
  · simp only [if_pos h1]
  · simp only [if_neg h1]
    by_cases h2 : (errLoop sqrtF st s xe xb ye yb).2 < Flt.val (st.min_variance * 256)
    · simp only [if_pos h2]
      by_cases h3 : xe - xb ≥ ye - yb
      · simp only [if_pos h3]
        cases scanX (errLoop sqrtF st s xe xb ye yb).1 xb yb ye (xe - xb)
          ((errLoop sqrtF st s xe xb ye yb).2 / Flt.val 2) (loopRange xb xe) 0 <;> rfl
      · simp only [if_neg h3]
        cases scanY (errLoop sqrtF st s xe xb ye yb).1 xb xe yb (xe - xb)
          ((errLoop sqrtF st s xe xb ye yb).2 / Flt.val 2) (loopRange yb ye) 0 <;> rfl
    · simp only [if_neg h2]

/-- C14: classification is idempotent: a second call of `test_for_convergence` with the same
arguments and unchanged buffers leaves the sampler, and with it `error`, `erase`, `split`,
`split_axis` and `split_pos` of every region, exactly as the first call left it. -/
theorem C14_classification_idempotent (sqrtF : ℚ → ℚ) (st : adaptive_sampler)
    (k s nx_end nx_begin ny_end ny_begin : Nat) :
    test_for_convergence sqrtF
        (test_for_convergence sqrtF st k s nx_end nx_begin ny_end ny_begin)
        k s nx_end nx_begin ny_end ny_begin
      = test_for_convergence sqrtF st k s nx_end nx_begin ny_end ny_begin := by
  rw [test_for_convergence_eq sqrtF st, test_for_convergence_eq, modChunk_comp]
  congr 1
  funext c
  rw [tfcBlock_modChunk, tfcBlock_idem]

/-! ## The layout of the initial grid -/

theorem length_grid {α : Type} (f : Nat → Nat → α) (n c : Nat) :
    ((List.range n).flatMap (fun i => (List.range c).map (fun j => f i j))).length = n * c := by
  induction n with
  | zero => simp
  | succ n ih =>
    rw [List.range_succ, List.flatMap_append, List.length_append, ih]
    simp [Nat.succ_mul]

/-- The block of grid cell `(i, j)` sits at position `i * c + j` of the list. -/
theorem getElem?_grid {α : Type} (f : Nat → Nat → α) (n c i j : Nat) (hi : i < n) (hj : j < c) :
    ((List.range n).flatMap (fun i => (List.range c).map (fun j => f i j)))[i * c + j]?
      = some (f i j) := by
  induction n with
  | zero => exact absurd hi (Nat.not_lt_zero i)
  | succ n ih =>
    rw [List.range_succ, List.flatMap_append]
    by_cases hin : i < n
    · have hlt : i * c + j < n * c := by
        calc i * c + j < i * c + c := Nat.add_lt_add_left hj _
          _ = (i + 1) * c := (Nat.succ_mul i c).symm
          _ ≤ n * c := Nat.mul_le_mul_right c hin
      rw [List.getElem?_append_left (by rw [length_grid]; exact hlt)]
      exact ih hin
    · have hi' : i = n := by omega
      subst hi'
      rw [List.getElem?_append_right (by rw [length_grid]; exact Nat.le_add_right _ _),
        length_grid, Nat.add_sub_cancel_left]
      simp [hj]

/-- C15: for every `core_count = c >= 1` the constructor creates exactly `c * c` regions; the
region of grid cell `(i, j)`, at position `i * c + j`, starts at `(i * (nx / c), j * (ny / c))`;
it has width `nx / c` outside the last column and `nx / c + nx mod c` in the last column, and
likewise for its height with `ny`; and `c = 1` yields the single region `(0, 0, nx, ny)`. -/
theorem C15_constructor_grid_layout (numbercores nx ny ns : Nat) (debug_channel : Int)
    (min_variance : ℚ) (min_adaptive_size : Int) (r g b r2 g2 b2 : NumericMatrix)
    (hc : 1 ≤ numbercores) :
    (adaptive_sampler.ctor numbercores nx ny ns debug_channel min_variance
        min_adaptive_size r g b r2 g2 b2).size = numbercores * numbercores ∧
    (∀ i j, i < numbercores → j < numbercores →
      ∃ blk, (adaptive_sampler.ctor numbercores nx ny ns debug_channel min_variance
          min_adaptive_size r g b r2 g2 b2).pixel_chunks[i * numbercores + j]? = some blk ∧
        blk.startx = i * (nx / numbercores) ∧ blk.starty = j * (ny / numbercores) ∧
        blk.endx - blk.startx
          = (if i = numbercores - 1 then nx / numbercores + nx % numbercores
             else nx / numbercores) ∧
        blk.endy - blk.starty
          = (if j = numbercores - 1 then ny / numbercores + ny % numbercores
             else ny / numbercores)) ∧
    (numbercores = 1 →
      (adaptive_sampler.ctor numbercores nx ny ns debug_channel min_variance
          min_adaptive_size r g b r2 g2 b2).pixel_chunks
        = [{ startx := 0, starty := 0, endx := nx, endy := ny,
             split_axis := 0, split_pos := 0, erase := false, split := false, error := 0 }]) := by
  have hbonus : ∀ n : Nat, n - n / numbercores * numbercores = n % numbercores := by
    intro n
    have h := Nat.div_add_mod n numbercores
    rw [Nat.mul_comm] at h
    omega
  refine ⟨?_, ?_, ?_⟩
  · show (initChunks numbercores nx ny).length = _
    rw [initChunks_eq, length_grid]
  · intro i j hi hj
    refine ⟨initChunk numbercores nx ny i j, ?_, rfl, rfl, ?_, ?_⟩
    · show (initChunks numbercores nx ny)[i * numbercores + j]? = _
      rw [initChunks_eq]
      exact getElem?_grid (fun i j => initChunk numbercores nx ny i j) numbercores numbercores
        i j hi hj
    · show (i + 1) * (nx / numbercores)
          + (if i = numbercores - 1 then nx - nx / numbercores * numbercores else 0)
          - i * (nx / numbercores) = _
      rw [hbonus nx, Nat.succ_mul]
      generalize nx / numbercores = w
      generalize nx % numbercores = m
      generalize i * w = t
      split_ifs <;> omega
    · show (j + 1) * (ny / numbercores)
          + (if j = numbercores - 1 then ny - ny / numbercores * numbercores else 0)
          - j * (ny / numbercores) = _
      rw [hbonus ny, Nat.succ_mul]
      generalize ny / numbercores = w
      generalize ny % numbercores = m
      generalize j * w = t
      split_ifs <;> omega
  · intro h1
    subst h1
    exact initChunks_one nx ny

/-- Witness of C15: a 7x5 image on a 3x3 grid. -/
theorem C15_constructor_grid_layout_witness :
    1 ≤ 3 ∧
    ((adaptive_sampler.ctor 3 7 5 4 0 (1 / 100) 1 (constMatrix 0) (constMatrix 0)
        (constMatrix 0) (constMatrix 0) (constMatrix 0) (constMatrix 0)).size = 3 * 3 ∧
    (∀ i j, i < 3 → j < 3 →
      ∃ blk, (adaptive_sampler.ctor 3 7 5 4 0 (1 / 100) 1 (constMatrix 0) (constMatrix 0)
          (constMatrix 0) (constMatrix 0) (constMatrix 0)
          (constMatrix 0)).pixel_chunks[i * 3 + j]? = some blk ∧
        blk.startx = i * (7 / 3) ∧ blk.starty = j * (5 / 3) ∧
        blk.endx - blk.startx = (if i = 3 - 1 then 7 / 3 + 7 % 3 else 7 / 3) ∧
        blk.endy - blk.starty = (if j = 3 - 1 then 5 / 3 + 5 % 3 else 5 / 3)) ∧
    (3 = 1 →
      (adaptive_sampler.ctor 3 7 5 4 0 (1 / 100) 1 (constMatrix 0) (constMatrix 0)
          (constMatrix 0) (constMatrix 0) (constMatrix 0) (constMatrix 0)).pixel_chunks
        = [{ startx := 0, starty := 0, endx := 7, endy := 5,
             split_axis := 0, split_pos := 0, erase := false, split := false, error := 0 }])) :=
  ⟨by decide, C15_constructor_grid_layout 3 7 5 4 0 (1 / 100) 1 (constMatrix 0) (constMatrix 0)
    (constMatrix 0) (constMatrix 0) (constMatrix 0) (constMatrix 0) (by decide)⟩

/-! ## Where the scan stops -/

/-- The column scan over `a, a+1, ..., a+n-1` stops at the first column at which the running
sum reaches the threshold. -/
theorem exactScanX_range (es : Nat → ℚ) (xb yb ye w : Nat) (half : ℚ) (n a : Nat) (acc : ℚ) (p : Nat)
    (h : exactScanX es xb yb ye w half (List.range' a n) acc = some p) :
    a ≤ p ∧ p < a + n ∧
    half ≤ acc + ((List.range' a (p + 1 - a)).map (fun i =>
      ((loopRange yb ye).map (fun j => es (errIdx xb yb w i j))).sum)).sum ∧
    ∀ x, a ≤ x → x < p →
      acc + ((List.range' a (x + 1 - a)).map (fun i =>
        ((loopRange yb ye).map (fun j => es (errIdx xb yb w i j))).sum)).sum < half := by
  induction n generalizing a acc with
  | zero => simp [exactScanX] at h
  | succ n ih =>
    rw [List.range'_succ] at h
    unfold exactScanX at h
    simp only [forRange_add_sum] at h
    split_ifs at h with hge
    · cases h
      refine ⟨le_refl _, by omega, ?_, fun x hx1 hx2 => by omega⟩
      have : p + 1 - p = 1 := by omega
      rw [this]
      simpa using hge
    · obtain ⟨i1, i2, i3, i4⟩ := ih (a + 1) _ h
      refine ⟨by omega, by omega, ?_, ?_⟩
      · have hlen : p + 1 - a = (p + 1 - (a + 1)) + 1 := by omega
        rw [hlen, List.range'_succ, List.map_cons, List.sum_cons, ← add_assoc]
        exact i3
      · intro x hx1 hx2
        by_cases hxa : x = a
        · subst hxa
          have : x + 1 - x = 1 := by omega
          rw [this]
          simpa using not_le.mp hge
        · have hlen : x + 1 - a = (x + 1 - (a + 1)) + 1 := by omega
          rw [hlen, List.range'_succ, List.map_cons, List.sum_cons, ← add_assoc]
          exact i4 x (by omega) hx2

/-- The row scan over `a, a+1, ..., a+n-1` stops at the first row at which the running sum
reaches the threshold. -/
theorem exactScanY_range (es : Nat → ℚ) (xb xe yb w : Nat) (half : ℚ) (n a : Nat) (acc : ℚ) (p : Nat)
    (h : exactScanY es xb xe yb w half (List.range' a n) acc = some p) :
    a ≤ p ∧ p < a + n ∧
    half ≤ acc + ((List.range' a (p + 1 - a)).map (fun j =>
      ((loopRange xb xe).map (fun i => es (errIdx xb yb w i j))).sum)).sum ∧
    ∀ y, a ≤ y → y < p →
      acc + ((List.range' a (y + 1 - a)).map (fun j =>
        ((loopRange xb xe).map (fun i => es (errIdx xb yb w i j))).sum)).sum < half := by
  induction n generalizing a acc with
  | zero => simp [exactScanY] at h
  | succ n ih =>
    rw [List.range'_succ] at h
    unfold exactScanY at h
    simp only [forRange_add_sum] at h
    split_ifs at h with hge
    · cases h
      refine ⟨le_refl _, by omega, ?_, fun y hy1 hy2 => by omega⟩
      have : p + 1 - p = 1 := by omega
      rw [this]
      simpa using hge
    · obtain ⟨i1, i2, i3, i4⟩ := ih (a + 1) _ h
      refine ⟨by omega, by omega, ?_, ?_⟩
      · have hlen : p + 1 - a = (p + 1 - (a + 1)) + 1 := by omega
        rw [hlen, List.range'_succ, List.map_cons, List.sum_cons, ← add_assoc]
        exact i3
      · intro y hy1 hy2
        by_cases hya : y = a
        · subst hya
          have : y + 1 - y = 1 := by omega
          rw [this]
          simpa using not_le.mp hge
        · have hlen : y + 1 - a = (y + 1 - (a + 1)) + 1 := by omega
          rw [hlen, List.range'_succ, List.map_cons, List.sum_cons, ← add_assoc]
          exact i4 y (by omega) hy2

/-- The cells that the column scan reads in the columns `xb, ..., c - 1`, `c <= xe`, add up to
`colsBefore`. -/
theorem read_colsBefore (sqrtF : ℚ → ℚ) (st : adaptive_sampler) (s xe xb ye yb c : Nat)
    (hc : c ≤ xe) :
    ((List.range' xb (c - xb)).map (fun i => ((loopRange yb ye).map (fun j =>
        (exactLoop sqrtF st s xe xb ye yb).1 (errIdx xb yb (xe - xb) i j))).sum)).sum
      = colsBefore sqrtF st s xe xb ye yb c := by
  unfold colsBefore colSum
  show ((loopRange xb c).map _).sum = _
  congr 1
  apply List.map_congr_left
  intro i hi
  congr 1
  apply List.map_congr_left
  intro j hj
  obtain ⟨hi1, hi2⟩ := mem_loopRange.mp hi
  exact exactLoop_read sqrtF st s xe xb ye yb i j ⟨hi1, by omega⟩ (mem_loopRange.mp hj)

/-- The cells that the row scan reads in the rows `yb, ..., c - 1`, `c <= ye`, add up to
`rowsBefore`. -/
theorem read_rowsBefore (sqrtF : ℚ → ℚ) (st : adaptive_sampler) (s xe xb ye yb c : Nat)
    (hc : c ≤ ye) :
    ((List.range' yb (c - yb)).map (fun j => ((loopRange xb xe).map (fun i =>
        (exactLoop sqrtF st s xe xb ye yb).1 (errIdx xb yb (xe - xb) i j))).sum)).sum
      = rowsBefore sqrtF st s xe xb ye yb c := by
  unfold rowsBefore rowSum
  show ((loopRange yb c).map _).sum = _
  congr 1
  apply List.map_congr_left
  intro j hj
  congr 1
  apply List.map_congr_left
  intro i hi
  obtain ⟨hj1, hj2⟩ := mem_loopRange.mp hj
  exact exactLoop_read sqrtF st s xe xb ye yb i j (mem_loopRange.mp hi) ⟨hj1, by omega⟩

/-- Over the rationals, the split position stored by the split branch is the first coordinate
along the split axis at which the sum of the cells from the start of the region through that
coordinate reaches half the block error. -/
theorem exactBlock_split_where (sqrtF : ℚ → ℚ) (hsqrt : ∀ q, 0 ≤ sqrtF q)
    (st : adaptive_sampler) (s xe xb ye yb : Nat) (c : pixel_block)
    (h1 : ¬ exactError sqrtF st s xe xb ye yb < st.min_variance)
    (h2 : exactError sqrtF st s xe xb ye yb < st.min_variance * 256) :
    (ye - yb ≤ xe - xb →
      (exactBlock sqrtF st s xe xb ye yb c).split_axis = 0 ∧
      xb ≤ (exactBlock sqrtF st s xe xb ye yb c).split_pos ∧
      (exactBlock sqrtF st s xe xb ye yb c).split_pos < xe ∧
      exactError sqrtF st s xe xb ye yb / 2
        ≤ colsBefore sqrtF st s xe xb ye yb ((exactBlock sqrtF st s xe xb ye yb c).split_pos + 1) ∧
      ∀ x, xb ≤ x → x < (exactBlock sqrtF st s xe xb ye yb c).split_pos →
        colsBefore sqrtF st s xe xb ye yb (x + 1) < exactError sqrtF st s xe xb ye yb / 2) ∧
    (xe - xb < ye - yb →
      (exactBlock sqrtF st s xe xb ye yb c).split_axis = 1 ∧
      yb ≤ (exactBlock sqrtF st s xe xb ye yb c).split_pos ∧
      (exactBlock sqrtF st s xe xb ye yb c).split_pos < ye ∧
      exactError sqrtF st s xe xb ye yb / 2
        ≤ rowsBefore sqrtF st s xe xb ye yb ((exactBlock sqrtF st s xe xb ye yb c).split_pos + 1) ∧
      ∀ y, yb ≤ y → y < (exactBlock sqrtF st s xe xb ye yb c).split_pos →
        rowsBefore sqrtF st s xe xb ye yb (y + 1) < exactError sqrtF st s xe xb ye yb / 2) := by
  have hE0 := exactError_nonneg sqrtF hsqrt st s xe xb ye yb
  have hpos : 0 < exactError sqrtF st s xe xb ye yb := by
    rcases lt_or_eq_of_le hE0 with h | h
    · exact h
    · exfalso
      rw [← h] at h1 h2
      have : (0 : ℚ) < st.min_variance := by linarith
      exact h1 this
  obtain ⟨hx, hy⟩ := exactError_ne_zero sqrtF st s xe xb ye yb (ne_of_gt hpos)
  have hhalf : exactError sqrtF st s xe xb ye yb / 2 ≤ exactError sqrtF st s xe xb ye yb := by
    linarith
  constructor
  · intro hge
    obtain ⟨p, hp⟩ := exactScanX_found (exactLoop sqrtF st s xe xb ye yb).1 xb yb ye (xe - xb)
      (exactError sqrtF st s xe xb ye yb / 2) (loopRange xb xe) 0 (loopRange_ne_nil hx)
      (by rw [scan_total_cols, zero_add]; exact hhalf)
    obtain ⟨r1, r2, r3, r4⟩ := exactScanX_range _ _ _ _ _ _ _ _ _ _ hp
    have hpos' : (exactBlock sqrtF st s xe xb ye yb c).split_pos = p := by
      unfold exactError at h1 h2 hp
      unfold exactBlock
      simp only [if_neg h1, if_pos h2, ge_iff_le, if_pos hge, hp, setSplitPos]
    have hax : (exactBlock sqrtF st s xe xb ye yb c).split_axis = 0 :=
      ((exactBlock_split_geometry sqrtF hsqrt st s xe xb ye yb c h1 h2).1 hge).1
    rw [hpos']
    refine ⟨hax, r1, by omega, ?_, ?_⟩
    · rw [read_colsBefore sqrtF st s xe xb ye yb (p + 1) (by omega), zero_add] at r3
      exact r3
    · intro x hx1 hx2
      have := r4 x hx1 hx2
      rw [read_colsBefore sqrtF st s xe xb ye yb (x + 1) (by omega), zero_add] at this
      exact this
  · intro hlt
    obtain ⟨p, hp⟩ := exactScanY_found (exactLoop sqrtF st s xe xb ye yb).1 xb xe yb (xe - xb)
      (exactError sqrtF st s xe xb ye yb / 2) (loopRange yb ye) 0 (loopRange_ne_nil hy)
      (by rw [scan_total_rows, zero_add]; exact hhalf)
    obtain ⟨r1, r2, r3, r4⟩ := exactScanY_range _ _ _ _ _ _ _ _ _ _ hp
    have hpos' : (exactBlock sqrtF st s xe xb ye yb c).split_pos = p := by
      unfold exactError at h1 h2 hp
      unfold exactBlock
      simp only [if_neg h1, if_pos h2, ge_iff_le, if_neg (not_le.mpr hlt), hp, setSplitPos]
    have hax : (exactBlock sqrtF st s xe xb ye yb c).split_axis = 1 :=
      ((exactBlock_split_geometry sqrtF hsqrt st s xe xb ye yb c h1 h2).2 hlt).1
    rw [hpos']
    refine ⟨hax, r1, by omega, ?_, ?_⟩
    · rw [read_rowsBefore sqrtF st s xe xb ye yb (p + 1) (by omega), zero_add] at r3
      exact r3
    · intro y hy1 hy2
      have := r4 y hy1 hy2
      rw [read_rowsBefore sqrtF st s xe xb ye yb (y + 1) (by omega), zero_add] at this
      exact this

/-- On a block without a negative primary sum, the cell of `error_sum` addressed for a pixel
of the region holds the cell value of that pixel. -/
theorem errLoop_read (sqrtF : ℚ → ℚ) (st : adaptive_sampler) (s xe xb ye yb i j : Nat)
    (hn : nanFree st xe xb ye yb) (hi : xb ≤ i ∧ i < xe) (hj : yb ≤ j ∧ j < ye) :
    (errLoop sqrtF st s xe xb ye yb).1 (errIdx xb yb (xe - xb) i j)
      = Flt.val (regionCell sqrtF st s xe xb ye yb i j) := by
  rw [errLoop_exact sqrtF st s xe xb ye yb hn]
  show Flt.val _ = _
  rw [exactLoop_read sqrtF st s xe xb ye yb i j hi hj]

/-- When the call takes the split branch, the stored split position is the first coordinate
along the split axis at which the sum of the cells from the start of the region through that
coordinate reaches half the block error. -/
theorem tfcBlock_split_where (sqrtF : ℚ → ℚ) (hsqrt : ∀ q, 0 ≤ sqrtF q)
    (st : adaptive_sampler) (s xe xb ye yb : Nat) (c : pixel_block)
    (h1 : ¬ error_block sqrtF st s xe xb ye yb < Flt.val st.min_variance)
    (h2 : error_block sqrtF st s xe xb ye yb < Flt.val (st.min_variance * 256)) :
    (ye - yb ≤ xe - xb →
      (tfcBlock sqrtF st s xe xb ye yb c).split_axis = 0 ∧
      xb ≤ (tfcBlock sqrtF st s xe xb ye yb c).split_pos ∧
      (tfcBlock sqrtF st s xe xb ye yb c).split_pos < xe ∧
      error_block sqrtF st s xe xb ye yb / Flt.val 2
        ≤ Flt.val (colsBefore sqrtF st s xe xb ye yb
            ((tfcBlock sqrtF st s xe xb ye yb c).split_pos + 1)) ∧
      ∀ x, xb ≤ x → x < (tfcBlock sqrtF st s xe xb ye yb c).split_pos →
        Flt.val (colsBefore sqrtF st s xe xb ye yb (x + 1))
          < error_block sqrtF st s xe xb ye yb / Flt.val 2) ∧
    (xe - xb < ye - yb →
      (tfcBlock sqrtF st s xe xb ye yb c).split_axis = 1 ∧
      yb ≤ (tfcBlock sqrtF st s xe xb ye yb c).split_pos ∧
      (tfcBlock sqrtF st s xe xb ye yb c).split_pos < ye ∧
      error_block sqrtF st s xe xb ye yb / Flt.val 2
        ≤ Flt.val (rowsBefore sqrtF st s xe xb ye yb
            ((tfcBlock sqrtF st s xe xb ye yb c).split_pos + 1)) ∧
      ∀ y, yb ≤ y → y < (tfcBlock sqrtF st s xe xb ye yb c).split_pos →
        Flt.val (rowsBefore sqrtF st s xe xb ye yb (y + 1))
          < error_block sqrtF st s xe xb ye yb / Flt.val 2) := by
  obtain ⟨hn, hE, e1, e2⟩ := split_branch_exact sqrtF st s xe xb ye yb h1 h2
  rw [tfcBlock_exact sqrtF st s xe xb ye yb c hn, hE]
  simp only [Flt.val_div_val, Flt.val_le_val, Flt.val_lt_val]
  exact exactBlock_split_where sqrtF hsqrt st s xe xb ye yb c e1 e2

/-- A block error in the split range is a positive number. -/
theorem error_block_split_pos (sqrtF : ℚ → ℚ) (st : adaptive_sampler) (s xe xb ye yb : Nat)
    (h1 : ¬ error_block sqrtF st s xe xb ye yb < Flt.val st.min_variance)
    (h2 : error_block sqrtF st s xe xb ye yb < Flt.val (st.min_variance * 256)) :
    ∃ e, error_block sqrtF st s xe xb ye yb = Flt.val e ∧ 0 < e / 2 := by
  obtain ⟨_, hE, e1, e2⟩ := split_branch_exact sqrtF st s xe xb ye yb h1 h2
  refine ⟨_, hE, ?_⟩
  have e1' := not_lt.mp e1
  have hmv : (0 : ℚ) < st.min_variance := by linarith only [e1', e2]
  linarith only [e1', hmv]

theorem colsBefore_start (sqrtF : ℚ → ℚ) (st : adaptive_sampler) (s xe xb ye yb : Nat) :
    colsBefore sqrtF st s xe xb ye yb xb = 0 := by
  simp [colsBefore, loopRange]

theorem rowsBefore_start (sqrtF : ℚ → ℚ) (st : adaptive_sampler) (s xe xb ye yb : Nat) :
    rowsBefore sqrtF st s xe xb ye yb yb = 0 := by
  simp [rowsBefore, loopRange]

/-- C19: for a region that `test_for_convergence`, called with the region's own bounds at a
round count `s >= 1`, flags for splitting (block error `E` in `[min_variance,
256 * min_variance)`), `split_axis` is 0 when width >= height and 1 otherwise, and `split_pos`
is the least coordinate `c` in `[start, end)` along that axis for which the cells of the
columns (rows) from `start` through `c` sum to at least `E / 2`: the sum through `split_pos`
reaches `E / 2`, the sum through any earlier coordinate does not, and the cells strictly before
`split_pos` sum to less than `E / 2`.  The cells summed are the numbers `regionCell`, which
`error_sum` holds for every pixel of a region classified into the split branch
(`errLoop_read`). -/
theorem C19_split_position_is_first_half_sum (sqrtF : ℚ → ℚ) (hsqrt : ∀ q, 0 ≤ sqrtF q)
    (st : adaptive_sampler) (k s : Nat) (c : pixel_block)
    (hk : st.pixel_chunks[k]? = some c) (_hs : 1 ≤ s)
    (h1 : Flt.val st.min_variance ≤ error_block sqrtF st s c.endx c.startx c.endy c.starty)
    (h2 : error_block sqrtF st s c.endx c.startx c.endy c.starty < Flt.val (256 * st.min_variance)) :
    ∃ c', (test_for_convergence sqrtF st k s c.endx c.startx c.endy c.starty).pixel_chunks[k]?
        = some c' ∧
      (c.endy - c.starty ≤ c.endx - c.startx →
        c'.split_axis = 0 ∧ c.startx ≤ c'.split_pos ∧ c'.split_pos < c.endx ∧
        error_block sqrtF st s c.endx c.startx c.endy c.starty / Flt.val 2
          ≤ Flt.val (colsBefore sqrtF st s c.endx c.startx c.endy c.starty (c'.split_pos + 1)) ∧
        (∀ x, c.startx ≤ x → x < c'.split_pos →
          Flt.val (colsBefore sqrtF st s c.endx c.startx c.endy c.starty (x + 1))
            < error_block sqrtF st s c.endx c.startx c.endy c.starty / Flt.val 2) ∧
        Flt.val (colsBefore sqrtF st s c.endx c.startx c.endy c.starty c'.split_pos)
          < error_block sqrtF st s c.endx c.startx c.endy c.starty / Flt.val 2) ∧
      (c.endx - c.startx < c.endy - c.starty →
        c'.split_axis = 1 ∧ c.starty ≤ c'.split_pos ∧ c'.split_pos < c.endy ∧
        error_block sqrtF st s c.endx c.startx c.endy c.starty / Flt.val 2
          ≤ Flt.val (rowsBefore sqrtF st s c.endx c.startx c.endy c.starty (c'.split_pos + 1)) ∧
        (∀ y, c.starty ≤ y → y < c'.split_pos →
          Flt.val (rowsBefore sqrtF st s c.endx c.startx c.endy c.starty (y + 1))
            < error_block sqrtF st s c.endx c.startx c.endy c.starty / Flt.val 2) ∧
        Flt.val (rowsBefore sqrtF st s c.endx c.startx c.endy c.starty c'.split_pos)
          < error_block sqrtF st s c.endx c.startx c.endy c.starty / Flt.val 2) := by
  have hn1 : ¬ error_block sqrtF st s c.endx c.startx c.endy c.starty
      < Flt.val st.min_variance := Flt.not_lt_of_le _ _ h1
  have hn2 : error_block sqrtF st s c.endx c.startx c.endy c.starty
      < Flt.val (st.min_variance * 256) := by
    rw [mul_comm]; exact h2
  obtain ⟨e, hE, hpos⟩ := error_block_split_pos sqrtF st s c.endx c.startx c.endy c.starty
    hn1 hn2
  obtain ⟨gx, gy⟩ := tfcBlock_split_where sqrtF hsqrt st s c.endx c.startx c.endy c.starty c
    hn1 hn2
  refine ⟨_, test_for_convergence_get sqrtF st k s c.endx c.startx c.endy c.starty c hk, ?_, ?_⟩
  · intro hge
    obtain ⟨a1, a2, a3, a4, a5⟩ := gx hge
    refine ⟨a1, a2, a3, a4, a5, ?_⟩
    rcases Nat.eq_or_lt_of_le a2 with heq | hlt
    · rw [← heq, colsBefore_start, hE]; exact hpos
    · have := a5 ((tfcBlock sqrtF st s c.endx c.startx c.endy c.starty c).split_pos - 1)
        (by omega) (by omega)
      rwa [Nat.sub_add_cancel (by omega)] at this
  · intro hlt'
    obtain ⟨a1, a2, a3, a4, a5⟩ := gy hlt'
    refine ⟨a1, a2, a3, a4, a5, ?_⟩
    rcases Nat.eq_or_lt_of_le a2 with heq | hlt
    · rw [← heq, rowsBefore_start, hE]; exact hpos
    · have := a5 ((tfcBlock sqrtF st s c.endx c.startx c.endy c.starty c).split_pos - 1)
        (by omega) (by omega)
      rwa [Nat.sub_add_cancel (by omega)] at this

theorem regionCell_zero_of_discrepancy (sqrtF : ℚ → ℚ) (st : adaptive_sampler)
    (s xe xb ye yb i j : Nat)
    (h : |st.r i j - 2 * st.r2 i j| = 0 ∧ |st.g i j - 2 * st.g2 i j| = 0 ∧
      |st.b i j - 2 * st.b2 i j| = 0) :
    regionCell sqrtF st s xe xb ye yb i j = 0 := by
  obtain ⟨h1, h2, h3⟩ := h
  unfold regionCell errCell
  rw [h1, h2, h3]
  simp

theorem colsBefore_zero (sqrtF : ℚ → ℚ) (st : adaptive_sampler) (s xe xb ye yb c : Nat)
    (h : ∀ i j, xb ≤ i → i < c → yb ≤ j → j < ye → regionCell sqrtF st s xe xb ye yb i j = 0) :
    colsBefore sqrtF st s xe xb ye yb c = 0 := by
  unfold colsBefore colSum
  have hcol : ∀ i, i ∈ loopRange xb c →
      ((loopRange yb ye).map (fun j => regionCell sqrtF st s xe xb ye yb i j)).sum = 0 := by
    intro i hi
    obtain ⟨hi1, hi2⟩ := mem_loopRange.mp hi
    rw [List.map_congr_left (fun j hj =>
      h i j hi1 hi2 (mem_loopRange.mp hj).1 (mem_loopRange.mp hj).2)]
    simp
  rw [List.map_congr_left hcol]
  simp

/-- C18: for a region with width >= height that `test_for_convergence`, called with the
region's own bounds at a round count `s >= 1`, flags for splitting, if the discrepancy
`|primary - 2 * secondary|` is zero in all three channels at every pixel of the left half of
the columns of the region (the columns `i` with `2 * (i - startx) < width`), then `split_axis`
is 0 and `split_pos` lies strictly between the bounds: `startx < split_pos < endx`. -/
theorem C18_split_position_strictly_inside (sqrtF : ℚ → ℚ) (hsqrt : ∀ q, 0 ≤ sqrtF q)
    (st : adaptive_sampler) (k s : Nat) (c : pixel_block)
    (hk : st.pixel_chunks[k]? = some c) (_hs : 1 ≤ s)
    (h1 : Flt.val st.min_variance ≤ error_block sqrtF st s c.endx c.startx c.endy c.starty)
    (h2 : error_block sqrtF st s c.endx c.startx c.endy c.starty < Flt.val (256 * st.min_variance))
    (hwide : c.endy - c.starty ≤ c.endx - c.startx)
    (hleft : ∀ i j, inBlock c i j → 2 * (i - c.startx) < c.endx - c.startx →
      |st.r i j - 2 * st.r2 i j| = 0 ∧ |st.g i j - 2 * st.g2 i j| = 0 ∧
      |st.b i j - 2 * st.b2 i j| = 0) :
    ∃ c', (test_for_convergence sqrtF st k s c.endx c.startx c.endy c.starty).pixel_chunks[k]?
        = some c' ∧
      c'.split_axis = 0 ∧ c.startx < c'.split_pos ∧ c'.split_pos < c.endx := by
  have hn1 : ¬ error_block sqrtF st s c.endx c.startx c.endy c.starty
      < Flt.val st.min_variance := Flt.not_lt_of_le _ _ h1
  have hn2 : error_block sqrtF st s c.endx c.startx c.endy c.starty
      < Flt.val (st.min_variance * 256) := by
    rw [mul_comm]; exact h2
  obtain ⟨e, hE, hpos⟩ := error_block_split_pos sqrtF st s c.endx c.startx c.endy c.starty
    hn1 hn2
  obtain ⟨a1, a2, a3, a4, _⟩ :=
    (tfcBlock_split_where sqrtF hsqrt st s c.endx c.startx c.endy c.starty c hn1 hn2).1 hwide
  refine ⟨_, test_for_convergence_get sqrtF st k s c.endx c.startx c.endy c.starty c hk,
    a1, ?_, a3⟩
  by_contra hnot
  have hp : (tfcBlock sqrtF st s c.endx c.startx c.endy c.starty c).split_pos = c.startx := by
    omega
  rw [hp] at a4
  have hzero : colsBefore sqrtF st s c.endx c.startx c.endy c.starty (c.startx + 1) = 0 := by
    apply colsBefore_zero
    intro i j hi1 hi2 hj1 hj2
    apply regionCell_zero_of_discrepancy
    exact hleft i j ⟨hi1, by omega, hj1, hj2⟩ (by omega)
  rw [hzero, hE] at a4
  have a4' : e / 2 ≤ 0 := a4
  linarith only [a4', hpos]

theorem loopRange_0_8 : loopRange 0 8 = [0, 1, 2, 3, 4, 5, 6, 7] := rfl

theorem nanFree_sampler8 : nanFree sampler8 8 0 8 0 :=
  nanFree_of_nonneg _ _ _ _ _
    (fun i j => by
      simp only [sampler8, adaptive_sampler.ctor, constMatrix, rightHalfMatrix]
      split_ifs <;> norm_num)

theorem exactError_sampler8 : exactError sqrtQ sampler8 1 8 0 8 0 = 1 / 2 := by
  rw [exactError_eq_sum, loopRange_0_8]
  simp only [regionCell, errCell, sampler8, adaptive_sampler.ctor, constMatrix, rightHalfMatrix,
    List.map_cons, List.map_nil, List.sum_cons, List.sum_nil]
  norm_num [sqrtQ_one, sqrtQ_zero]

theorem error_block_sampler8 :
    error_block sqrtQ sampler8 1 fullBlock8.endx fullBlock8.startx fullBlock8.endy
      fullBlock8.starty = Flt.val (1 / 2) := by
  show error_block sqrtQ sampler8 1 8 0 8 0 = Flt.val (1 / 2)
  rw [error_block_exact _ _ _ _ _ _ _ nanFree_sampler8, exactError_sampler8]

/-- Witness of C18: the 8x8 region whose right four columns diverge. -/
theorem C18_split_position_strictly_inside_witness :
    (∀ q, 0 ≤ sqrtQ q) ∧ sampler8.pixel_chunks[0]? = some fullBlock8 ∧ 1 ≤ 1 ∧
    Flt.val sampler8.min_variance
      ≤ error_block sqrtQ sampler8 1 fullBlock8.endx fullBlock8.startx fullBlock8.endy
          fullBlock8.starty ∧
    error_block sqrtQ sampler8 1 fullBlock8.endx fullBlock8.startx fullBlock8.endy
        fullBlock8.starty < Flt.val (256 * sampler8.min_variance) ∧
    fullBlock8.endy - fullBlock8.starty ≤ fullBlock8.endx - fullBlock8.startx ∧
    (∀ i j, inBlock fullBlock8 i j → 2 * (i - fullBlock8.startx)
        < fullBlock8.endx - fullBlock8.startx →
      |sampler8.r i j - 2 * sampler8.r2 i j| = 0 ∧ |sampler8.g i j - 2 * sampler8.g2 i j| = 0 ∧
      |sampler8.b i j - 2 * sampler8.b2 i j| = 0) ∧
    ∃ c', (test_for_convergence sqrtQ sampler8 0 1 fullBlock8.endx fullBlock8.startx
        fullBlock8.endy fullBlock8.starty).pixel_chunks[0]? = some c' ∧
      c'.split_axis = 0 ∧ fullBlock8.startx < c'.split_pos ∧ c'.split_pos < fullBlock8.endx :=
  have hleft : ∀ i j, inBlock fullBlock8 i j → 2 * (i - fullBlock8.startx)
        < fullBlock8.endx - fullBlock8.startx →
      |sampler8.r i j - 2 * sampler8.r2 i j| = 0 ∧ |sampler8.g i j - 2 * sampler8.g2 i j| = 0 ∧
      |sampler8.b i j - 2 * sampler8.b2 i j| = 0 := by
    intro i j _ hi
    have hi4 : ¬ 4 ≤ i := by
      simp only [fullBlock8] at hi
      omega
    simp [sampler8, adaptive_sampler.ctor, constMatrix, rightHalfMatrix, hi4]
  ⟨sqrtQ_nonneg, rfl, le_refl 1,
    by rw [error_block_sampler8]; norm_num [sampler8, adaptive_sampler.ctor],
    by rw [error_block_sampler8]; norm_num [sampler8, adaptive_sampler.ctor],
    by decide, hleft,
    C18_split_position_strictly_inside sqrtQ sqrtQ_nonneg sampler8 0 1 fullBlock8 rfl (le_refl 1)
      (by rw [error_block_sampler8]; norm_num [sampler8, adaptive_sampler.ctor])
      (by rw [error_block_sampler8]; norm_num [sampler8, adaptive_sampler.ctor])
      (by decide) hleft⟩

/-- Witness of C19: the 4x4 image with primary red 1 in column 0 only. -/
theorem C19_split_position_is_first_half_sum_witness :
    (∀ q, 0 ≤ sqrtQ q) ∧
    (sampler4 column0Matrix (constMatrix 0)).pixel_chunks[0]? = some fullBlock4 ∧ 1 ≤ 1 ∧
    Flt.val (sampler4 column0Matrix (constMatrix 0)).min_variance
      ≤ error_block sqrtQ (sampler4 column0Matrix (constMatrix 0)) 1
          fullBlock4.endx fullBlock4.startx fullBlock4.endy fullBlock4.starty ∧
    error_block sqrtQ (sampler4 column0Matrix (constMatrix 0)) 1
        fullBlock4.endx fullBlock4.startx fullBlock4.endy fullBlock4.starty
      < Flt.val (256 * (sampler4 column0Matrix (constMatrix 0)).min_variance) ∧
    ∃ c', (test_for_convergence sqrtQ (sampler4 column0Matrix (constMatrix 0)) 0 1
        fullBlock4.endx fullBlock4.startx fullBlock4.endy fullBlock4.starty).pixel_chunks[0]?
        = some c' ∧
      (fullBlock4.endy - fullBlock4.starty ≤ fullBlock4.endx - fullBlock4.startx →
        c'.split_axis = 0 ∧ fullBlock4.startx ≤ c'.split_pos ∧ c'.split_pos < fullBlock4.endx ∧
        error_block sqrtQ (sampler4 column0Matrix (constMatrix 0)) 1
            fullBlock4.endx fullBlock4.startx fullBlock4.endy fullBlock4.starty / Flt.val 2
          ≤ Flt.val (colsBefore sqrtQ (sampler4 column0Matrix (constMatrix 0)) 1
              fullBlock4.endx fullBlock4.startx fullBlock4.endy fullBlock4.starty
              (c'.split_pos + 1)) ∧
        (∀ x, fullBlock4.startx ≤ x → x < c'.split_pos →
          Flt.val (colsBefore sqrtQ (sampler4 column0Matrix (constMatrix 0)) 1
              fullBlock4.endx fullBlock4.startx fullBlock4.endy fullBlock4.starty (x + 1))
            < error_block sqrtQ (sampler4 column0Matrix (constMatrix 0)) 1
                fullBlock4.endx fullBlock4.startx fullBlock4.endy fullBlock4.starty / Flt.val 2) ∧
        Flt.val (colsBefore sqrtQ (sampler4 column0Matrix (constMatrix 0)) 1
            fullBlock4.endx fullBlock4.startx fullBlock4.endy fullBlock4.starty c'.split_pos)
          < error_block sqrtQ (sampler4 column0Matrix (constMatrix 0)) 1
              fullBlock4.endx fullBlock4.startx fullBlock4.endy fullBlock4.starty / Flt.val 2) ∧
      (fullBlock4.endx - fullBlock4.startx < fullBlock4.endy - fullBlock4.starty →
        c'.split_axis = 1 ∧ fullBlock4.starty ≤ c'.split_pos ∧ c'.split_pos < fullBlock4.endy ∧
        error_block sqrtQ (sampler4 column0Matrix (constMatrix 0)) 1
            fullBlock4.endx fullBlock4.startx fullBlock4.endy fullBlock4.starty / Flt.val 2
          ≤ Flt.val (rowsBefore sqrtQ (sampler4 column0Matrix (constMatrix 0)) 1
              fullBlock4.endx fullBlock4.startx fullBlock4.endy fullBlock4.starty
              (c'.split_pos + 1)) ∧
        (∀ y, fullBlock4.starty ≤ y → y < c'.split_pos →
          Flt.val (rowsBefore sqrtQ (sampler4 column0Matrix (constMatrix 0)) 1
              fullBlock4.endx fullBlock4.startx fullBlock4.endy fullBlock4.starty (y + 1))
            < error_block sqrtQ (sampler4 column0Matrix (constMatrix 0)) 1
                fullBlock4.endx fullBlock4.startx fullBlock4.endy fullBlock4.starty / Flt.val 2) ∧
        Flt.val (rowsBefore sqrtQ (sampler4 column0Matrix (constMatrix 0)) 1
            fullBlock4.endx fullBlock4.startx fullBlock4.endy fullBlock4.starty c'.split_pos)
          < error_block sqrtQ (sampler4 column0Matrix (constMatrix 0)) 1
              fullBlock4.endx fullBlock4.startx fullBlock4.endy fullBlock4.starty / Flt.val 2) :=
  ⟨sqrtQ_nonneg, rfl, le_refl 1,
    by rw [leftHeavy_error_block]; norm_num [sampler4, adaptive_sampler.ctor],
    by rw [leftHeavy_error_block]; norm_num [sampler4, adaptive_sampler.ctor],
    C19_split_position_is_first_half_sum sqrtQ sqrtQ_nonneg
      (sampler4 column0Matrix (constMatrix 0)) 0 1 fullBlock4 rfl (le_refl 1)
      (by rw [leftHeavy_error_block]; norm_num [sampler4, adaptive_sampler.ctor])
      (by rw [leftHeavy_error_block]; norm_num [sampler4, adaptive_sampler.ctor])⟩

/-! ## Regions carried forward -/

theorem splitOut_of_kept (m : Int) (it : pixel_block) (he : it.erase = false)
    (hkeep : it.split = false ∨ ¬ bigEnough m it) : splitOut m it = [it] := by
  unfold splitOut
  rw [if_neg (by simp [he]), if_neg]
  rintro ⟨hs, hb⟩
  rcases hkeep with h | h
  · rw [h] at hs; exact absurd hs (by decide)
  · exact h hb

theorem splitOut_of_split (m : Int) (it : pixel_block) (he : it.erase = false)
    (hs : it.split = true) (hb : bigEnough m it)
    (hax : it.split_axis = 0 ∨ it.split_axis = 1) :
    splitOut m it = [childLow it, childHigh it] := by
  unfold splitOut
  rw [if_neg (by simp [he]), if_pos ⟨hs, hb⟩, if_pos (Or.symm hax)]

theorem splitOut_of_erased (m : Int) (it : pixel_block) (he : it.erase = true) :
    splitOut m it = [] := by
  unfold splitOut
  rw [if_pos he]

/-- C13: `split_remove_chunks` carries forward unchanged, and so with identical bounds, every
region that is not flagged `erase` and that either is not flagged `split` or fails the size
test (width or height not above `min_adaptive_size`); and the output keeps the order of the
input: what is emitted for a region (the region itself, its two children, or nothing for an
erased region) stands between what is emitted for the regions before it and what is emitted
for the regions after it. -/
theorem C13_carried_forward_in_order (st : adaptive_sampler) (s : Nat)
    (pre post : List pixel_block) (it : pixel_block)
    (hlist : st.pixel_chunks = pre ++ it :: post) :
    (it.erase = false → (it.split = false ∨ ¬ bigEnough st.min_adaptive_size it) →
      (split_remove_chunks st s).pixel_chunks
        = pre.flatMap (splitOut st.min_adaptive_size) ++ it
          :: post.flatMap (splitOut st.min_adaptive_size)) ∧
    (it.erase = false → it.split = true → bigEnough st.min_adaptive_size it →
      (it.split_axis = 0 ∨ it.split_axis = 1) →
      (split_remove_chunks st s).pixel_chunks
        = pre.flatMap (splitOut st.min_adaptive_size) ++ childLow it :: childHigh it
          :: post.flatMap (splitOut st.min_adaptive_size)) ∧
    (it.erase = true →
      (split_remove_chunks st s).pixel_chunks
        = pre.flatMap (splitOut st.min_adaptive_size)
          ++ post.flatMap (splitOut st.min_adaptive_size)) := by
  have hout : (split_remove_chunks st s).pixel_chunks
      = pre.flatMap (splitOut st.min_adaptive_size) ++ (splitOut st.min_adaptive_size it
        ++ post.flatMap (splitOut st.min_adaptive_size)) := by
    rw [split_remove_chunks_chunks, hlist, List.flatMap_append, List.flatMap_cons]
  refine ⟨fun he hkeep => ?_, fun he hs hb hax => ?_, fun he => ?_⟩
  · rw [hout, splitOut_of_kept _ it he hkeep]; rfl
  · rw [hout, splitOut_of_split _ it he hs hb hax]; rfl
  · rw [hout, splitOut_of_erased _ it he]; rfl

/-- Witness of C13: the 2x2 sampler whose region is flagged `split` and too small to be
split. -/
theorem C13_carried_forward_in_order_witness :
    (withChunks smallSampler [carriedBlock]).pixel_chunks = [] ++ carriedBlock :: [] ∧
    ((carriedBlock.erase = false →
      (carriedBlock.split = false ∨
        ¬ bigEnough (withChunks smallSampler [carriedBlock]).min_adaptive_size carriedBlock) →
      (split_remove_chunks (withChunks smallSampler [carriedBlock]) 1).pixel_chunks
        = ([] : List pixel_block).flatMap
            (splitOut (withChunks smallSampler [carriedBlock]).min_adaptive_size)
          ++ carriedBlock :: ([] : List pixel_block).flatMap
            (splitOut (withChunks smallSampler [carriedBlock]).min_adaptive_size)) ∧
    (carriedBlock.erase = false → carriedBlock.split = true →
      bigEnough (withChunks smallSampler [carriedBlock]).min_adaptive_size carriedBlock →
      (carriedBlock.split_axis = 0 ∨ carriedBlock.split_axis = 1) →
      (split_remove_chunks (withChunks smallSampler [carriedBlock]) 1).pixel_chunks
        = ([] : List pixel_block).flatMap
            (splitOut (withChunks smallSampler [carriedBlock]).min_adaptive_size)
          ++ childLow carriedBlock :: childHigh carriedBlock
          :: ([] : List pixel_block).flatMap
            (splitOut (withChunks smallSampler [carriedBlock]).min_adaptive_size)) ∧
    (carriedBlock.erase = true →
      (split_remove_chunks (withChunks smallSampler [carriedBlock]) 1).pixel_chunks
        = ([] : List pixel_block).flatMap
            (splitOut (withChunks smallSampler [carriedBlock]).min_adaptive_size)
          ++ ([] : List pixel_block).flatMap
            (splitOut (withChunks smallSampler [carriedBlock]).min_adaptive_size))) :=
  ⟨rfl, C13_carried_forward_in_order (withChunks smallSampler [carriedBlock]) 1 [] []
    carriedBlock rfl⟩

/-! ## Regions too noisy to split -/

theorem flatMap_at {α β : Type} (f : α → List β) (l : List α) (k : Nat) (x : α)
    (hk : l[k]? = some x) :
    l.flatMap f = (l.take k).flatMap f ++ (f x ++ (l.drop (k + 1)).flatMap f) := by
  induction l generalizing k with
  | nil => simp at hk
  | cons a l ih =>
    cases k with
    | zero =>
      simp only [List.getElem?_cons_zero, Option.some.injEq] at hk
      subst hk
      simp
    | succ k =>
      simp only [List.getElem?_cons_succ] at hk
      rw [List.flatMap_cons, ih k hk]
      simp [List.append_assoc]

theorem round_keeps_min_variance (sqrtF : ℚ → ℚ) (st : adaptive_sampler) (rd : Round) :
    (round sqrtF st rd).min_variance = st.min_variance := by
  unfold round
  rw [classifyAll_eq, (split_remove_chunks_config _ _).2.2.1]
  show (accumulate st rd.adds).min_variance = _
  unfold accumulate
  generalize rd.adds = adds
  induction adds generalizing st with
  | nil => rfl
  | cons a adds ih =>
    rw [List.foldl_cons, ih]
    cases a <;> rfl

theorem accumulate_keeps_min_variance (st : adaptive_sampler) (adds : List AddCall) :
    (accumulate st adds).min_variance = st.min_variance := by
  unfold accumulate
  induction adds generalizing st with
  | nil => rfl
  | cons a adds ih =>
    rw [List.foldl_cons, ih]
    cases a <;> rfl

theorem run_keeps_config (sqrtF : ℚ → ℚ) (hsqrt : ∀ q, 0 ≤ sqrtF q) (rounds : List Round)
    (st : adaptive_sampler) (h : partitionInv st) :
    (run sqrtF st rounds).min_variance = st.min_variance ∧
    (run sqrtF st rounds).min_adaptive_size = st.min_adaptive_size := by
  unfold run
  induction rounds generalizing st with
  | nil => exact ⟨rfl, rfl⟩
  | cons rd rounds ih =>
    obtain ⟨h1, _, _, h4⟩ := round_keeps_inv sqrtF hsqrt st rd h
    obtain ⟨i1, i2⟩ := ih (round sqrtF st rd) h1
    exact ⟨i1.trans (round_keeps_min_variance sqrtF st rd), i2.trans h4⟩

/-- In a state that satisfies the invariant of the partition, a region whose block error in the
next round is at least `256 * min_variance` is pushed unchanged by that round. -/
theorem round_retains_noisy (sqrtF : ℚ → ℚ) (hsqrt : ∀ q, 0 ≤ sqrtF q) (st : adaptive_sampler)
    (h : partitionInv st) (rd : Round) (k : Nat) (c : pixel_block)
    (hk : (accumulate st rd.adds).pixel_chunks[k]? = some c)
    (hE : Flt.val (256 * st.min_variance)
      ≤ error_block sqrtF (accumulate st rd.adds) rd.s c.endx c.startx c.endy c.starty) :
    ∃ c', (classifyAll sqrtF (accumulate st rd.adds) rd.s).pixel_chunks[k]? = some c' ∧
      (c'.startx = c.startx ∧ c'.starty = c.starty ∧ c'.endx = c.endx ∧ c'.endy = c.endy) ∧
      c'.erase = false ∧
      (round sqrtF st rd).pixel_chunks
        = ((classifyAll sqrtF (accumulate st rd.adds) rd.s).pixel_chunks.take k).flatMap
            (splitOut st.min_adaptive_size)
          ++ c' :: ((classifyAll sqrtF (accumulate st rd.adds) rd.s).pixel_chunks.drop
            (k + 1)).flatMap (splitOut st.min_adaptive_size) := by
  obtain ⟨hI1, _⟩ := h
  obtain ⟨a1, _, _, _, a5⟩ := accumulate_keeps st rd.adds
  have amv := accumulate_keeps_min_variance st rd.adds
  set sa := accumulate st rd.adds with hsa
  have hc_mem : c ∈ st.pixel_chunks := by
    rw [← a1]
    exact List.getElem?_mem hk
  obtain ⟨hce, hcs⟩ := hI1 c hc_mem
  obtain ⟨e, hEv, hbig⟩ := Flt.eq_val_of_le _ _ hE
  have hE0 := error_block_val_nonneg sqrtF hsqrt sa rd.s c.endx c.startx c.endy c.starty e hEv
  have hn1 : ¬ error_block sqrtF sa rd.s c.endx c.startx c.endy c.starty
      < Flt.val sa.min_variance := by
    rw [amv, hEv]
    intro hlt
    have hlt' : e < st.min_variance := hlt
    linarith only [hlt', hbig, hE0]
  have hn2 : ¬ error_block sqrtF sa rd.s c.endx c.startx c.endy c.starty
      < Flt.val (sa.min_variance * 256) := by
    rw [amv, mul_comm]
    exact Flt.not_lt_of_le _ _ hE
  have hget : (classifyAll sqrtF sa rd.s).pixel_chunks[k]?
      = some (tfcBlock sqrtF sa rd.s c.endx c.startx c.endy c.starty c) := by
    rw [classifyAll_eq]
    show (sa.pixel_chunks.map _)[k]? = _
    rw [List.getElem?_map, hk]
    rfl
  have he' : (tfcBlock sqrtF sa rd.s c.endx c.startx c.endy c.starty c).erase = false := by
    rw [tfcBlock_erase, hce]; simp [hn1]
  have hs' : (tfcBlock sqrtF sa rd.s c.endx c.startx c.endy c.starty c).split = c.split := by
    rw [tfcBlock_split]; simp [hn1, hn2]
  have hkeep : (tfcBlock sqrtF sa rd.s c.endx c.startx c.endy c.starty c).split = false ∨
      ¬ bigEnough st.min_adaptive_size
        (tfcBlock sqrtF sa rd.s c.endx c.startx c.endy c.starty c) := by
    cases hsp : c.split
    · left; rw [hs', hsp]
    · right
      intro hb
      exact hcs hsp ((bigEnough_tfcBlock sqrtF sa rd.s c.endx c.startx c.endy c.starty
        st.min_adaptive_size c).mp hb)
  refine ⟨_, hget, tfcBlock_bounds sqrtF sa rd.s c.endx c.startx c.endy c.starty c, he', ?_⟩
  unfold round
  rw [split_remove_chunks_chunks]
  have hm : (classifyAll sqrtF sa rd.s).min_adaptive_size = st.min_adaptive_size := by
    rw [classifyAll_eq]; exact a5
  rw [hm, flatMap_at (splitOut st.min_adaptive_size) _ k _ hget,
    splitOut_of_kept _ _ he' hkeep]
  rfl

/-- C20: in every partition state reached from the constructor (`core_count >= 1`) by rounds
with round counts `s >= 1`, a region whose block error, freshly computed in the next round, is
at least `256 * min_variance` is retained whole by the `split_remove_chunks` of that round: it
stands in the output between what is emitted for the regions before it and for the regions
after it, with identical bounds, neither erased nor split, whether or not it still carries a
`split` flag from an earlier round. -/
theorem C20_noisy_region_retained (sqrtF : ℚ → ℚ) (hsqrt : ∀ q, 0 ≤ sqrtF q)
    (numbercores nx ny ns : Nat) (debug_channel : Int)
    (min_variance : ℚ) (min_adaptive_size : Int) (r g b r2 g2 b2 : NumericMatrix)
    (hc : 1 ≤ numbercores) (rounds : List Round) (_hs : ∀ rd, rd ∈ rounds → 1 ≤ rd.s)
    (rd : Round) (_hrd : 1 ≤ rd.s) (k : Nat) (c : pixel_block)
    (hk : (accumulate (run sqrtF (adaptive_sampler.ctor numbercores nx ny ns debug_channel
      min_variance min_adaptive_size r g b r2 g2 b2) rounds) rd.adds).pixel_chunks[k]? = some c)
    (hE : Flt.val (256 * min_variance)
      ≤ error_block sqrtF (accumulate (run sqrtF (adaptive_sampler.ctor numbercores nx ny ns
          debug_channel min_variance min_adaptive_size r g b r2 g2 b2) rounds) rd.adds)
          rd.s c.endx c.startx c.endy c.starty) :
    ∃ c', (classifyAll sqrtF (accumulate (run sqrtF (adaptive_sampler.ctor numbercores nx ny ns
          debug_channel min_variance min_adaptive_size r g b r2 g2 b2) rounds) rd.adds)
          rd.s).pixel_chunks[k]? = some c' ∧
      (c'.startx = c.startx ∧ c'.starty = c.starty ∧ c'.endx = c.endx ∧ c'.endy = c.endy) ∧
      c'.erase = false ∧
      (round sqrtF (run sqrtF (adaptive_sampler.ctor numbercores nx ny ns debug_channel
          min_variance min_adaptive_size r g b r2 g2 b2) rounds) rd).pixel_chunks
        = ((classifyAll sqrtF (accumulate (run sqrtF (adaptive_sampler.ctor numbercores nx ny ns
            debug_channel min_variance min_adaptive_size r g b r2 g2 b2) rounds) rd.adds)
            rd.s).pixel_chunks.take k).flatMap (splitOut min_adaptive_size)
          ++ c' :: ((classifyAll sqrtF (accumulate (run sqrtF (adaptive_sampler.ctor numbercores
            nx ny ns debug_channel min_variance min_adaptive_size r g b r2 g2 b2) rounds)
            rd.adds) rd.s).pixel_chunks.drop (k + 1)).flatMap
            (splitOut min_adaptive_size) := by
  have hinv0 := ctor_inv numbercores nx ny ns debug_channel min_variance min_adaptive_size
    r g b r2 g2 b2 hc
  obtain ⟨hinv, _, _⟩ := run_keeps_inv sqrtF hsqrt rounds _ hinv0
  obtain ⟨hmv, hm⟩ := run_keeps_config sqrtF hsqrt rounds _ hinv0
  have hmv' : (run sqrtF (adaptive_sampler.ctor numbercores nx ny ns debug_channel
      min_variance min_adaptive_size r g b r2 g2 b2) rounds).min_variance = min_variance := hmv
  have hm' : (run sqrtF (adaptive_sampler.ctor numbercores nx ny ns debug_channel
      min_variance min_adaptive_size r g b r2 g2 b2) rounds).min_adaptive_size
      = min_adaptive_size := hm
  have h := round_retains_noisy sqrtF hsqrt _ hinv rd k c hk (by rw [hmv']; exact hE)
  rw [hm'] at h
  exact h

theorem exactError_noisySampler4 : exactError sqrtQ noisySampler4 1 4 0 4 0 = 1 := by
  rw [exactError_eq_sum, loopRange_0_4]
  simp only [regionCell, errCell, noisySampler4, adaptive_sampler.ctor, constMatrix,
    List.map_cons, List.map_nil, List.sum_cons, List.sum_nil]
  norm_num [sqrtQ_one]

theorem error_block_noisySampler4 :
    error_block sqrtQ (accumulate (run sqrtQ noisySampler4 []) (Round.mk [] 1).adds)
      (Round.mk [] 1).s fullBlock4.endx fullBlock4.startx fullBlock4.endy fullBlock4.starty
      = Flt.val 1 := by
  show error_block sqrtQ noisySampler4 1 4 0 4 0 = Flt.val 1
  rw [error_block_exact _ _ _ _ _ _ _ (nanFree_of_nonneg _ _ _ _ _
    (fun i j => by norm_num [noisySampler4, adaptive_sampler.ctor, constMatrix])),
    exactError_noisySampler4]

/-- Witness of C20: the first round on the 4x4 image with primary red 1 everywhere and
`min_variance = 1/1000`. -/
theorem C20_noisy_region_retained_witness :
    (∀ q, 0 ≤ sqrtQ q) ∧ 1 ≤ 1 ∧ (∀ rd, rd ∈ ([] : List Round) → 1 ≤ rd.s) ∧
    1 ≤ (Round.mk [] 1).s ∧
    (accumulate (run sqrtQ noisySampler4 []) (Round.mk [] 1).adds).pixel_chunks[0]?
      = some fullBlock4 ∧
    Flt.val (256 * (1 / 1000 : ℚ))
      ≤ error_block sqrtQ (accumulate (run sqrtQ noisySampler4 []) (Round.mk [] 1).adds)
          (Round.mk [] 1).s fullBlock4.endx fullBlock4.startx fullBlock4.endy
          fullBlock4.starty ∧
    ∃ c', (classifyAll sqrtQ (accumulate (run sqrtQ noisySampler4 []) (Round.mk [] 1).adds)
          (Round.mk [] 1).s).pixel_chunks[0]? = some c' ∧
      (c'.startx = fullBlock4.startx ∧ c'.starty = fullBlock4.starty ∧
        c'.endx = fullBlock4.endx ∧ c'.endy = fullBlock4.endy) ∧
      c'.erase = false ∧
      (round sqrtQ (run sqrtQ noisySampler4 []) (Round.mk [] 1)).pixel_chunks
        = ((classifyAll sqrtQ (accumulate (run sqrtQ noisySampler4 []) (Round.mk [] 1).adds)
            (Round.mk [] 1).s).pixel_chunks.take 0).flatMap (splitOut 1)
          ++ c' :: ((classifyAll sqrtQ (accumulate (run sqrtQ noisySampler4 [])
            (Round.mk [] 1).adds) (Round.mk [] 1).s).pixel_chunks.drop (0 + 1)).flatMap
            (splitOut 1) :=
  ⟨sqrtQ_nonneg, le_refl 1, by simp, le_refl 1, rfl,
    by rw [error_block_noisySampler4]; norm_num,
    C20_noisy_region_retained sqrtQ sqrtQ_nonneg 1 4 4 4 0 (1 / 1000) 1 (constMatrix 1)
      (constMatrix 0) (constMatrix 0) (constMatrix 0) (constMatrix 0) (constMatrix 0)
      (le_refl 1) [] (by simp) (Round.mk [] 1) (le_refl 1) 0 fullBlock4 rfl
      (by
        show Flt.val (256 * (1 / 1000 : ℚ))
          ≤ error_block sqrtQ (accumulate (run sqrtQ noisySampler4 []) (Round.mk [] 1).adds)
              (Round.mk [] 1).s fullBlock4.endx fullBlock4.startx fullBlock4.endy
              fullBlock4.starty
        rw [error_block_noisySampler4]; norm_num)⟩

/-! ## The effect of the finalisation passes on the buffers -/

/-- A pair of pixel loops whose body divides the primary entries of its own pixel by `d` and
touches no other primary entry divides the primary entries of each pixel of the rectangle by
`d` once and leaves the others as they are. -/
theorem primaryLoops_effect (body : Nat → Nat → adaptive_sampler → adaptive_sampler) (d : ℚ)
    (Q : adaptive_sampler → Prop) (hQ : ∀ i j st, Q st → Q (body i j st))
    (hbody : ∀ i j st, Q st → ∀ x y,
      (body i j st).r x y = (if (i, j) = (x, y) then st.r x y / d else st.r x y) ∧
      (body i j st).g x y = (if (i, j) = (x, y) then st.g x y / d else st.g x y) ∧
      (body i j st).b x y = (if (i, j) = (x, y) then st.b x y / d else st.b x y))
    (xb xe yb ye : Nat) (st : adaptive_sampler) (hst : Q st) :
    Q (forRange xb xe (fun i st => forRange yb ye (fun j st => body i j st) st) st) ∧
    ∀ x y,
      (forRange xb xe (fun i st => forRange yb ye (fun j st => body i j st) st) st).r x y
        = (if (xb ≤ x ∧ x < xe) ∧ (yb ≤ y ∧ y < ye) then st.r x y / d else st.r x y) ∧
      (forRange xb xe (fun i st => forRange yb ye (fun j st => body i j st) st) st).g x y
        = (if (xb ≤ x ∧ x < xe) ∧ (yb ≤ y ∧ y < ye) then st.g x y / d else st.g x y) ∧
      (forRange xb xe (fun i st => forRange yb ye (fun j st => body i j st) st) st).b x y
        = (if (xb ≤ x ∧ x < xe) ∧ (yb ≤ y ∧ y < ye) then st.b x y / d else st.b x y) := by
  rw [forRange_nested body]
  have key : ∀ (P : List (Nat × Nat)) (st : adaptive_sampler), P.Nodup → Q st →
      Q (P.foldl (fun st p => body p.1 p.2 st) st) ∧
      ∀ x y,
        (P.foldl (fun st p => body p.1 p.2 st) st).r x y
          = (if (x, y) ∈ P then st.r x y / d else st.r x y) ∧
        (P.foldl (fun st p => body p.1 p.2 st) st).g x y
          = (if (x, y) ∈ P then st.g x y / d else st.g x y) ∧
        (P.foldl (fun st p => body p.1 p.2 st) st).b x y
          = (if (x, y) ∈ P then st.b x y / d else st.b x y) := by
    intro P
    induction P with
    | nil => intro st _ hq; exact ⟨hq, fun x y => by simp⟩
    | cons p P ih =>
      intro st hnd hq
      obtain ⟨hpP, hP⟩ := List.nodup_cons.mp hnd
      obtain ⟨hq', hd⟩ := ih (body p.1 p.2 st) hP (hQ p.1 p.2 st hq)
      refine ⟨hq', fun x y => ?_⟩
      obtain ⟨e1, e2, e3⟩ := hd x y
      obtain ⟨f1, f2, f3⟩ := hbody p.1 p.2 st hq x y
      rw [List.foldl_cons, e1, e2, e3, f1, f2, f3]
      by_cases hp : p = (x, y)
      · subst hp
        simp [hpP]
      · have hp' : ¬ (p.1, p.2) = (x, y) := hp
        have hp'' : ¬ (x, y) = p := fun h => hp h.symm
        simp [hp', hp'', List.mem_cons]
  obtain ⟨hq, hd⟩ := key (pixelList xb xe yb ye) st (pixelList_nodup xb xe yb ye) hst
  refine ⟨hq, fun x y => ?_⟩
  have := hd x y
  simp only [mem_pixelList] at this
  exact this

theorem set_apply (m : NumericMatrix) (i j x y : Nat) (v : ℚ) :
    m.set i j v x y = if (i, j) = (x, y) then v else m x y := by
  unfold NumericMatrix.set
  simp only [Prod.mk.injEq]
  by_cases h : x = i ∧ y = j
  · obtain ⟨rfl, rfl⟩ := h; simp
  · have h' : ¬ (i = x ∧ j = y) := fun h' => h ⟨h'.1.symm, h'.2.symm⟩
    simp [h, h']

/-- With the debug channel off, the body of the erase loops divides the primary entries of its
pixel by `s + 1`. -/
theorem erasePixel_primary (s i j : Nat) (st : adaptive_sampler) (hdbg : st.debug_channel ≠ 5)
    (x y : Nat) :
    (erasePixel s i j st).r x y
        = (if (i, j) = (x, y) then st.r x y / ((s + 1 : Nat) : ℚ) else st.r x y) ∧
    (erasePixel s i j st).g x y
        = (if (i, j) = (x, y) then st.g x y / ((s + 1 : Nat) : ℚ) else st.g x y) ∧
    (erasePixel s i j st).b x y
        = (if (i, j) = (x, y) then st.b x y / ((s + 1 : Nat) : ℚ) else st.b x y) := by
  unfold erasePixel
  simp only [if_neg hdbg, set_apply]
  refine ⟨?_, ?_, ?_⟩ <;>
    (by_cases h : (i, j) = (x, y)
     · obtain ⟨rfl, rfl⟩ := Prod.mk.inj h; simp
     · simp [h])

/-- With the debug channel off, the body of the final loops divides the primary entries of its
pixel by `ns`. -/
theorem finalPixel_primary (i j : Nat) (st : adaptive_sampler) (hdbg : st.debug_channel ≠ 5)
    (x y : Nat) :
    (finalPixel i j st).r x y
        = (if (i, j) = (x, y) then st.r x y / (st.ns : ℚ) else st.r x y) ∧
    (finalPixel i j st).g x y
        = (if (i, j) = (x, y) then st.g x y / (st.ns : ℚ) else st.g x y) ∧
    (finalPixel i j st).b x y
        = (if (i, j) = (x, y) then st.b x y / (st.ns : ℚ) else st.b x y) := by
  unfold finalPixel
  simp only [if_neg hdbg, set_apply]
  refine ⟨?_, ?_, ?_⟩ <;>
    (by_cases h : (i, j) = (x, y)
     · obtain ⟨rfl, rfl⟩ := Prod.mk.inj h; simp
     · simp [h])

theorem div_pow_step (v d : ℚ) (a b : Nat) : v / d ^ a / d ^ b = v / d ^ (a + b) := by
  rw [div_div, ← pow_add]

/-- With the debug channel off, one pass of the loop of `split_remove_chunks` divides the
primary entries of the pixels of an erased chunk by `s + 1` and touches no other primary
entry. -/
theorem splitStep_primary (s : Nat) (acc : adaptive_sampler × List pixel_block)
    (it : pixel_block) (hdbg : acc.1.debug_channel ≠ 5) (x y : Nat) :
    (splitStep s acc it).1.r x y
        = acc.1.r x y / ((s + 1 : Nat) : ℚ) ^ (if it.erase = true ∧ inBlock it x y then 1 else 0) ∧
    (splitStep s acc it).1.g x y
        = acc.1.g x y / ((s + 1 : Nat) : ℚ) ^ (if it.erase = true ∧ inBlock it x y then 1 else 0) ∧
    (splitStep s acc it).1.b x y
        = acc.1.b x y / ((s + 1 : Nat) : ℚ) ^ (if it.erase = true ∧ inBlock it x y then 1 else 0) := by
  by_cases he : it.erase = true
  · have hstep : (splitStep s acc it).1
        = forRange it.startx it.endx (fun i st =>
            forRange it.starty it.endy (fun j st => erasePixel s i j st) st) acc.1 := by
      unfold splitStep
      rw [if_pos he]
    obtain ⟨_, hd⟩ := primaryLoops_effect (fun i j st => erasePixel s i j st)
      ((s + 1 : Nat) : ℚ) (fun st => st.debug_channel ≠ 5)
      (fun i j st hq => by
        show (erasePixel s i j st).debug_channel ≠ 5
        rw [(erasePixel_sameConfig s i j st).2.2.2.2.1]; exact hq)
      (fun i j st hq x y => erasePixel_primary s i j st hq x y)
      it.startx it.endx it.starty it.endy acc.1 hdbg
    obtain ⟨e1, e2, e3⟩ := hd x y
    rw [hstep, e1, e2, e3]
    unfold inBlock
    by_cases hin : (it.startx ≤ x ∧ x < it.endx) ∧ (it.starty ≤ y ∧ y < it.endy)
    · rw [if_pos hin, if_pos hin, if_pos hin,
        if_pos ⟨he, hin.1.1, hin.1.2, hin.2.1, hin.2.2⟩]
      simp
    · rw [if_neg hin, if_neg hin, if_neg hin,
        if_neg (fun h => hin ⟨⟨h.2.1, h.2.2.1⟩, h.2.2.2.1, h.2.2.2.2⟩)]
      simp
  · have he' : it.erase = false := by simpa using he
    rw [splitStep_fst_of_kept s acc it he', if_neg (fun h => he h.1)]
    simp

/-- With the debug channel off, `split_remove_chunks` divides each primary entry by `s + 1`
once for every erased region that contains the pixel. -/
theorem split_remove_chunks_primary (st : adaptive_sampler) (s : Nat)
    (hdbg : st.debug_channel ≠ 5) (x y : Nat) :
    (split_remove_chunks st s).r x y
        = st.r x y / ((s + 1 : Nat) : ℚ) ^ cover (erasedChunks st.pixel_chunks) x y ∧
    (split_remove_chunks st s).g x y
        = st.g x y / ((s + 1 : Nat) : ℚ) ^ cover (erasedChunks st.pixel_chunks) x y ∧
    (split_remove_chunks st s).b x y
        = st.b x y / ((s + 1 : Nat) : ℚ) ^ cover (erasedChunks st.pixel_chunks) x y := by
  have key : ∀ (chunks : List pixel_block) (acc : adaptive_sampler × List pixel_block),
      acc.1.debug_channel ≠ 5 →
      (chunks.foldl (splitStep s) acc).1.r x y
          = acc.1.r x y / ((s + 1 : Nat) : ℚ) ^ cover (erasedChunks chunks) x y ∧
      (chunks.foldl (splitStep s) acc).1.g x y
          = acc.1.g x y / ((s + 1 : Nat) : ℚ) ^ cover (erasedChunks chunks) x y ∧
      (chunks.foldl (splitStep s) acc).1.b x y
          = acc.1.b x y / ((s + 1 : Nat) : ℚ) ^ cover (erasedChunks chunks) x y := by
    intro chunks
    induction chunks with
    | nil => intro acc _; simp [erasedChunks, cover]
    | cons it chunks ih =>
      intro acc hq
      have hq' : (splitStep s acc it).1.debug_channel ≠ 5 := by
        rw [(splitStep_effect s acc it).2.1.2.2.2.2.1]; exact hq
      obtain ⟨i1, i2, i3⟩ := ih (splitStep s acc it) hq'
      obtain ⟨f1, f2, f3⟩ := splitStep_primary s acc it hq x y
      rw [List.foldl_cons, i1, i2, i3, f1, f2, f3, cover_erasedChunks_cons]
      exact ⟨div_pow_step _ _ _ _, div_pow_step _ _ _ _, div_pow_step _ _ _ _⟩
  unfold split_remove_chunks
  exact key st.pixel_chunks (st, []) hdbg

/-- With the debug channel off, `write_final_pixels` divides each primary entry by `ns` once
for every region that contains the pixel. -/
theorem write_final_pixels_primary (st : adaptive_sampler) (hdbg : st.debug_channel ≠ 5)
    (x y : Nat) :
    (write_final_pixels st).r x y = st.r x y / (st.ns : ℚ) ^ cover st.pixel_chunks x y ∧
    (write_final_pixels st).g x y = st.g x y / (st.ns : ℚ) ^ cover st.pixel_chunks x y ∧
    (write_final_pixels st).b x y = st.b x y / (st.ns : ℚ) ^ cover st.pixel_chunks x y := by
  have key : ∀ (chunks : List pixel_block) (st' : adaptive_sampler),
      st'.debug_channel ≠ 5 ∧ st'.ns = st.ns →
      (chunks.foldl (fun st it =>
        forRange it.startx it.endx (fun i st =>
          forRange it.starty it.endy (fun j st => finalPixel i j st) st) st) st').r x y
          = st'.r x y / (st.ns : ℚ) ^ cover chunks x y ∧
      (chunks.foldl (fun st it =>
        forRange it.startx it.endx (fun i st =>
          forRange it.starty it.endy (fun j st => finalPixel i j st) st) st) st').g x y
          = st'.g x y / (st.ns : ℚ) ^ cover chunks x y ∧
      (chunks.foldl (fun st it =>
        forRange it.startx it.endx (fun i st =>
          forRange it.starty it.endy (fun j st => finalPixel i j st) st) st) st').b x y
          = st'.b x y / (st.ns : ℚ) ^ cover chunks x y := by
    intro chunks
    induction chunks with
    | nil => intro st' _; simp [cover]
    | cons it chunks ih =>
      intro st' hq
      obtain ⟨hq', hd⟩ := primaryLoops_effect (fun i j st => finalPixel i j st)
        (st.ns : ℚ) (fun st' => st'.debug_channel ≠ 5 ∧ st'.ns = st.ns)
        (fun i j st' hq => by
          obtain ⟨_, _, c3, _, c5, _⟩ := finalPixel_sameConfig i j st'
          show (finalPixel i j st').debug_channel ≠ 5 ∧ (finalPixel i j st').ns = st.ns
          rw [c5, c3]; exact hq)
        (fun i j st' hq x y => by
          have hq' : st'.debug_channel ≠ 5 ∧ st'.ns = st.ns := hq
          have := finalPixel_primary i j st' hq'.1 x y
          rw [hq'.2] at this
          exact this)
        it.startx it.endx it.starty it.endy st' hq
      obtain ⟨i1, i2, i3⟩ := ih _ hq'
      obtain ⟨e1, e2, e3⟩ := hd x y
      rw [List.foldl_cons, i1, i2, i3, e1, e2, e3, cover_cons]
      unfold inBlock
      by_cases hin : (it.startx ≤ x ∧ x < it.endx) ∧ (it.starty ≤ y ∧ y < it.endy)
      · rw [if_pos hin, if_pos hin, if_pos hin, if_pos ⟨hin.1.1, hin.1.2, hin.2.1, hin.2.2⟩,
          pow_add, pow_one]
        exact ⟨div_div _ _ _, div_div _ _ _, div_div _ _ _⟩
      · rw [if_neg hin, if_neg hin, if_neg hin,
          if_neg (fun h => hin ⟨⟨h.1, h.2.1⟩, h.2.2.1, h.2.2.2⟩), Nat.zero_add]
        exact ⟨rfl, rfl, rfl⟩
  unfold write_final_pixels
  exact key st.pixel_chunks st ⟨hdbg, rfl⟩

theorem cover_eq_zero_iff (chunks : List pixel_block) (x y : Nat) :
    cover chunks x y = 0 ↔ ∀ it, it ∈ chunks → ¬ inBlock it x y := by
  unfold cover
  rw [List.countP_eq_zero]
  simp

/-- Pairwise disjoint rectangles cover no pixel twice. -/
theorem cover_le_one_of_pairwise (chunks : List pixel_block)
    (h : chunks.Pairwise (fun a b => ∀ x y, ¬ (inBlock a x y ∧ inBlock b x y))) (x y : Nat) :
    cover chunks x y ≤ 1 := by
  induction chunks with
  | nil => simp [cover]
  | cons a chunks ih =>
    obtain ⟨ha, hrest⟩ := List.pairwise_cons.mp h
    rw [cover_cons]
    by_cases hin : inBlock a x y
    · have hz : cover chunks x y = 0 :=
        (cover_eq_zero_iff chunks x y).mpr (fun b hb hb' => ha b hb x y ⟨hin, hb'⟩)
      rw [if_pos hin, hz]
    · rw [if_neg hin, Nat.zero_add]
      exact ih hrest

theorem flatMap_splitOut_kept (m : Int) (chunks : List pixel_block) :
    chunks.flatMap (splitOut m) = (keptChunks chunks).flatMap (splitOut m) := by
  unfold keptChunks
  induction chunks with
  | nil => rfl
  | cons it chunks ih =>
    by_cases he : it.erase = true
    · rw [List.flatMap_cons, splitOut_of_erased m it he, List.nil_append, ih,
        List.filter_cons_of_neg (by simp [he])]
    · rw [List.flatMap_cons, ih, List.filter_cons_of_pos (by simpa using he),
        List.flatMap_cons]

theorem split_remove_chunks_none_erased (st : adaptive_sampler) (s : Nat) (b : pixel_block)
    (hb : b ∈ (split_remove_chunks st s).pixel_chunks) : b.erase = false := by
  rw [split_remove_chunks_chunks] at hb
  obtain ⟨it, _, hbit⟩ := List.mem_flatMap.mp hb
  by_cases he : it.erase = true
  · rw [splitOut_of_erased _ it he] at hbit
    exact absurd hbit (List.not_mem_nil _)
  · exact (splitOut_members st.min_adaptive_size it b (by simpa using he) hbit).1

theorem split_remove_chunks_secondary (st : adaptive_sampler) (s : Nat) :
    (split_remove_chunks st s).r2 = st.r2 ∧ (split_remove_chunks st s).g2 = st.g2 ∧
    (split_remove_chunks st s).b2 = st.b2 := by
  unfold split_remove_chunks
  obtain ⟨_, _, _, _, _, _, _, h8, h9, h10, _⟩ :=
    (splitFold_effect s st.pixel_chunks (st, [])).2.1
  exact ⟨h8, h9, h10⟩

/-- In every state of a run, the regions that a round's classification flags `erase` do not
overlap: the state handed to `split_remove_chunks` meets the hypothesis made below on the
converged regions. -/
theorem classified_erased_disjoint (sqrtF : ℚ → ℚ) (st : adaptive_sampler)
    (h : partitionInv st) (rd : Round) :
    (erasedChunks (classifyAll sqrtF (accumulate st rd.adds) rd.s).pixel_chunks).Pairwise
      (fun a b => ∀ x y, ¬ (inBlock a x y ∧ inBlock b x y)) := by
  obtain ⟨a1, _, _, _, _⟩ := accumulate_keeps st rd.adds
  have hcov : ∀ x y,
      cover (classifyAll sqrtF (accumulate st rd.adds) rd.s).pixel_chunks x y ≤ 1 := by
    intro x y
    rw [classifyAll_eq]
    show cover ((accumulate st rd.adds).pixel_chunks.map _) x y ≤ 1
    rw [cover_map_same_bounds _ _
      (fun c => tfcBlock_bounds sqrtF (accumulate st rd.adds) rd.s c.endx c.startx c.endy
        c.starty c) x y, a1]
    have h2 := h.2 x y
    split_ifs at h2 <;> omega
  unfold erasedChunks
  exact (pairwise_of_cover_le_one _ hcov).sublist (List.filter_sublist _)

/-- C11: with debug mode off (`debug_channel != 5`) and converged regions that do not overlap,
`split_remove_chunks` called with `s` (after `s + 1` samples) replaces the primary `r`, `g`
and `b` entry of every pixel inside a region flagged `erase` by its previous value divided by
`s + 1`, leaves every primary entry outside those regions and every secondary entry
unchanged, and removes those regions: the new region set is made from the other regions alone
and holds no region flagged `erase`. -/
theorem C11_converged_regions_finalised (st : adaptive_sampler) (s : Nat)
    (hdbg : st.debug_channel ≠ 5)
    (hdisj : (erasedChunks st.pixel_chunks).Pairwise
      (fun a b => ∀ x y, ¬ (inBlock a x y ∧ inBlock b x y))) :
    (∀ x y, (∃ it, it ∈ st.pixel_chunks ∧ it.erase = true ∧ inBlock it x y) →
      (split_remove_chunks st s).r x y = st.r x y / ((s + 1 : Nat) : ℚ) ∧
      (split_remove_chunks st s).g x y = st.g x y / ((s + 1 : Nat) : ℚ) ∧
      (split_remove_chunks st s).b x y = st.b x y / ((s + 1 : Nat) : ℚ)) ∧
    (∀ x y, (∀ it, it ∈ st.pixel_chunks → it.erase = true → ¬ inBlock it x y) →
      (split_remove_chunks st s).r x y = st.r x y ∧
      (split_remove_chunks st s).g x y = st.g x y ∧
      (split_remove_chunks st s).b x y = st.b x y) ∧
    ((split_remove_chunks st s).r2 = st.r2 ∧ (split_remove_chunks st s).g2 = st.g2 ∧
      (split_remove_chunks st s).b2 = st.b2) ∧
    (split_remove_chunks st s).pixel_chunks
      = (keptChunks st.pixel_chunks).flatMap (splitOut st.min_adaptive_size) ∧
    (∀ it, it ∈ (split_remove_chunks st s).pixel_chunks → it.erase = false) := by
  refine ⟨?_, ?_, split_remove_chunks_secondary st s, ?_,
    split_remove_chunks_none_erased st s⟩
  · rintro x y ⟨it, hit, he, hin⟩
    have hmem : it ∈ erasedChunks st.pixel_chunks := by
      unfold erasedChunks
      exact List.mem_filter.mpr ⟨hit, he⟩
    have h1 : cover (erasedChunks st.pixel_chunks) x y = 1 :=
      le_antisymm (cover_le_one_of_pairwise _ hdisj x y) (cover_pos_of_mem _ it x y hmem hin)
    obtain ⟨e1, e2, e3⟩ := split_remove_chunks_primary st s hdbg x y
    rw [e1, e2, e3, h1, pow_one]
    exact ⟨rfl, rfl, rfl⟩
  · intro x y hout
    have h0 : cover (erasedChunks st.pixel_chunks) x y = 0 := by
      rw [cover_eq_zero_iff]
      intro it hit
      unfold erasedChunks at hit
      obtain ⟨hit1, hit2⟩ := List.mem_filter.mp hit
      exact hout it hit1 hit2
    obtain ⟨e1, e2, e3⟩ := split_remove_chunks_primary st s hdbg x y
    rw [e1, e2, e3, h0, pow_zero, div_one, div_one, div_one]
    exact ⟨rfl, rfl, rfl⟩
  · rw [split_remove_chunks_chunks, flatMap_splitOut_kept]

/-- Witness of C11: the 4x4 sampler whose region is flagged `erase`, at `s = 1`. -/
theorem C11_converged_regions_finalised_witness :
    erasedSampler4.debug_channel ≠ 5 ∧
    (erasedChunks erasedSampler4.pixel_chunks).Pairwise
      (fun a b => ∀ x y, ¬ (inBlock a x y ∧ inBlock b x y)) ∧
    ((∀ x y, (∃ it, it ∈ erasedSampler4.pixel_chunks ∧ it.erase = true ∧ inBlock it x y) →
      (split_remove_chunks erasedSampler4 1).r x y = erasedSampler4.r x y / ((1 + 1 : Nat) : ℚ) ∧
      (split_remove_chunks erasedSampler4 1).g x y = erasedSampler4.g x y / ((1 + 1 : Nat) : ℚ) ∧
      (split_remove_chunks erasedSampler4 1).b x y
        = erasedSampler4.b x y / ((1 + 1 : Nat) : ℚ)) ∧
    (∀ x y, (∀ it, it ∈ erasedSampler4.pixel_chunks → it.erase = true → ¬ inBlock it x y) →
      (split_remove_chunks erasedSampler4 1).r x y = erasedSampler4.r x y ∧
      (split_remove_chunks erasedSampler4 1).g x y = erasedSampler4.g x y ∧
      (split_remove_chunks erasedSampler4 1).b x y = erasedSampler4.b x y) ∧
    ((split_remove_chunks erasedSampler4 1).r2 = erasedSampler4.r2 ∧
      (split_remove_chunks erasedSampler4 1).g2 = erasedSampler4.g2 ∧
      (split_remove_chunks erasedSampler4 1).b2 = erasedSampler4.b2) ∧
    (split_remove_chunks erasedSampler4 1).pixel_chunks
      = (keptChunks erasedSampler4.pixel_chunks).flatMap
          (splitOut erasedSampler4.min_adaptive_size) ∧
    (∀ it, it ∈ (split_remove_chunks erasedSampler4 1).pixel_chunks → it.erase = false)) :=
  ⟨by decide, List.pairwise_singleton _ _,
    C11_converged_regions_finalised erasedSampler4 1 (by decide) (List.pairwise_singleton _ _)⟩

/-- C12: with debug mode off (`debug_channel != 5`) and a pairwise non-overlapping region set,
`write_final_pixels` replaces the primary `r`, `g` and `b` entry of every pixel inside a
remaining region by its previous value divided by `ns`, and leaves unchanged every primary
entry outside the remaining regions, every secondary entry and the region set. -/
theorem C12_final_pass_divides_by_ns (st : adaptive_sampler) (hdbg : st.debug_channel ≠ 5)
    (hdisj : st.pixel_chunks.Pairwise (fun a b => ∀ x y, ¬ (inBlock a x y ∧ inBlock b x y))) :
    (∀ x y, (∃ it, it ∈ st.pixel_chunks ∧ inBlock it x y) →
      (write_final_pixels st).r x y = st.r x y / (st.ns : ℚ) ∧
      (write_final_pixels st).g x y = st.g x y / (st.ns : ℚ) ∧
      (write_final_pixels st).b x y = st.b x y / (st.ns : ℚ)) ∧
    (∀ x y, (∀ it, it ∈ st.pixel_chunks → ¬ inBlock it x y) →
      (write_final_pixels st).r x y = st.r x y ∧
      (write_final_pixels st).g x y = st.g x y ∧
      (write_final_pixels st).b x y = st.b x y) ∧
    ((write_final_pixels st).r2 = st.r2 ∧ (write_final_pixels st).g2 = st.g2 ∧
      (write_final_pixels st).b2 = st.b2) ∧
    (write_final_pixels st).pixel_chunks = st.pixel_chunks := by
  obtain ⟨_, _, _, _, _, _, _, h8, h9, h10, h11⟩ := (finalFold_effect st.pixel_chunks st).1
  refine ⟨?_, ?_, ⟨h8, h9, h10⟩, h11⟩
  · rintro x y ⟨it, hit, hin⟩
    have h1 : cover st.pixel_chunks x y = 1 :=
      le_antisymm (cover_le_one_of_pairwise _ hdisj x y) (cover_pos_of_mem _ it x y hit hin)
    obtain ⟨e1, e2, e3⟩ := write_final_pixels_primary st hdbg x y
    rw [e1, e2, e3, h1, pow_one]
    exact ⟨rfl, rfl, rfl⟩
  · intro x y hout
    have h0 : cover st.pixel_chunks x y = 0 := (cover_eq_zero_iff _ x y).mpr hout
    obtain ⟨e1, e2, e3⟩ := write_final_pixels_primary st hdbg x y
    rw [e1, e2, e3, h0, pow_zero, div_one, div_one, div_one]
    exact ⟨rfl, rfl, rfl⟩

/-- Witness of C12: the 4x4 sampler with its full-image region. -/
theorem C12_final_pass_divides_by_ns_witness :
    (sampler4 (constMatrix 1) (constMatrix 0)).debug_channel ≠ 5 ∧
    (sampler4 (constMatrix 1) (constMatrix 0)).pixel_chunks.Pairwise
      (fun a b => ∀ x y, ¬ (inBlock a x y ∧ inBlock b x y)) ∧
    ((∀ x y, (∃ it, it ∈ (sampler4 (constMatrix 1) (constMatrix 0)).pixel_chunks ∧
        inBlock it x y) →
      (write_final_pixels (sampler4 (constMatrix 1) (constMatrix 0))).r x y
        = (sampler4 (constMatrix 1) (constMatrix 0)).r x y
          / ((sampler4 (constMatrix 1) (constMatrix 0)).ns : ℚ) ∧
      (write_final_pixels (sampler4 (constMatrix 1) (constMatrix 0))).g x y
        = (sampler4 (constMatrix 1) (constMatrix 0)).g x y
          / ((sampler4 (constMatrix 1) (constMatrix 0)).ns : ℚ) ∧
      (write_final_pixels (sampler4 (constMatrix 1) (constMatrix 0))).b x y
        = (sampler4 (constMatrix 1) (constMatrix 0)).b x y
          / ((sampler4 (constMatrix 1) (constMatrix 0)).ns : ℚ)) ∧
    (∀ x y, (∀ it, it ∈ (sampler4 (constMatrix 1) (constMatrix 0)).pixel_chunks →
        ¬ inBlock it x y) →
      (write_final_pixels (sampler4 (constMatrix 1) (constMatrix 0))).r x y
        = (sampler4 (constMatrix 1) (constMatrix 0)).r x y ∧
      (write_final_pixels (sampler4 (constMatrix 1) (constMatrix 0))).g x y
        = (sampler4 (constMatrix 1) (constMatrix 0)).g x y ∧
      (write_final_pixels (sampler4 (constMatrix 1) (constMatrix 0))).b x y
        = (sampler4 (constMatrix 1) (constMatrix 0)).b x y) ∧
    ((write_final_pixels (sampler4 (constMatrix 1) (constMatrix 0))).r2
        = (sampler4 (constMatrix 1) (constMatrix 0)).r2 ∧
      (write_final_pixels (sampler4 (constMatrix 1) (constMatrix 0))).g2
        = (sampler4 (constMatrix 1) (constMatrix 0)).g2 ∧
      (write_final_pixels (sampler4 (constMatrix 1) (constMatrix 0))).b2
        = (sampler4 (constMatrix 1) (constMatrix 0)).b2) ∧
    (write_final_pixels (sampler4 (constMatrix 1) (constMatrix 0))).pixel_chunks
      = (sampler4 (constMatrix 1) (constMatrix 0)).pixel_chunks) :=
  ⟨by decide, List.pairwise_singleton _ _,
    C12_final_pass_divides_by_ns (sampler4 (constMatrix 1) (constMatrix 0)) (by decide)
      (List.pairwise_singleton _ _)⟩

/-! ## Arguments that the specification wants rejected -/

/-- C16, counterexample: the constructor called with `core_count = 2` and image width
`nx = 0` (height 3) does not fail: it yields a sampler with four regions, all of width 0. -/
theorem C16_zero_width_image_constructed :
    (adaptive_sampler.ctor 2 0 3 4 0 (1 / 100) 1 (constMatrix 0) (constMatrix 0) (constMatrix 0)
        (constMatrix 0) (constMatrix 0) (constMatrix 0)).pixel_chunks
      = [{ startx := 0, starty := 0, endx := 0, endy := 1,
           split_axis := 0, split_pos := 0, erase := false, split := false, error := 0 },
         { startx := 0, starty := 1, endx := 0, endy := 3,
           split_axis := 0, split_pos := 0, erase := false, split := false, error := 0 },
         { startx := 0, starty := 0, endx := 0, endy := 1,
           split_axis := 0, split_pos := 0, erase := false, split := false, error := 0 },
         { startx := 0, starty := 1, endx := 0, endy := 3,
           split_axis := 0, split_pos := 0, erase := false, split := false, error := 0 }] ∧
    (adaptive_sampler.ctor 2 0 3 4 0 (1 / 100) 1 (constMatrix 0) (constMatrix 0) (constMatrix 0)
        (constMatrix 0) (constMatrix 0) (constMatrix 0)).size = 4 := by
  have h : initChunks 2 0 3
      = [{ startx := 0, starty := 0, endx := 0, endy := 1,
           split_axis := 0, split_pos := 0, erase := false, split := false, error := 0 },
         { startx := 0, starty := 1, endx := 0, endy := 3,
           split_axis := 0, split_pos := 0, erase := false, split := false, error := 0 },
         { startx := 0, starty := 0, endx := 0, endy := 1,
           split_axis := 0, split_pos := 0, erase := false, split := false, error := 0 },
         { startx := 0, starty := 1, endx := 0, endy := 3,
           split_axis := 0, split_pos := 0, erase := false, split := false, error := 0 }] := rfl
  exact ⟨h, by show (initChunks 2 0 3).length = 4; rw [h]; rfl⟩

/-- C16, as amended: the constructor checks none of its arguments and has no error path.  With
`core_count >= 1` and image width `nx = 0` or height `ny = 0` it yields a sampler with
`core_count * core_count` regions, all of them empty: no pixel lies in any region and the areas
add up to 0. -/
theorem C16_empty_image_constructed (numbercores nx ny ns : Nat) (debug_channel : Int)
    (min_variance : ℚ) (min_adaptive_size : Int) (r g b r2 g2 b2 : NumericMatrix)
    (hc : 1 ≤ numbercores) (hempty : nx = 0 ∨ ny = 0) :
    (adaptive_sampler.ctor numbercores nx ny ns debug_channel min_variance
        min_adaptive_size r g b r2 g2 b2).size = numbercores * numbercores ∧
    (∀ x y, cover (adaptive_sampler.ctor numbercores nx ny ns debug_channel min_variance
        min_adaptive_size r g b r2 g2 b2).pixel_chunks x y = 0) ∧
    totalArea (adaptive_sampler.ctor numbercores nx ny ns debug_channel min_variance
        min_adaptive_size r g b r2 g2 b2).pixel_chunks = 0 := by
  refine ⟨?_, ?_, ?_⟩
  · show (initChunks numbercores nx ny).length = _
    rw [initChunks_eq, length_grid]
  · intro x y
    show cover (initChunks numbercores nx ny) x y = 0
    rw [cover_initChunks numbercores nx ny x y hc, if_neg]
    rintro ⟨hx, hy⟩
    rcases hempty with h | h <;> omega
  · show totalArea (initChunks numbercores nx ny) = 0
    rw [totalArea_initChunks numbercores nx ny hc]
    rcases hempty with h | h <;> simp [h]

/-- Witness of C16 as amended: a 0x3 image on a 2x2 grid. -/
theorem C16_empty_image_constructed_witness :
    1 ≤ 2 ∧ (0 = 0 ∨ 3 = 0) ∧
    ((adaptive_sampler.ctor 2 0 3 4 0 (1 / 100) 1 (constMatrix 0) (constMatrix 0)
        (constMatrix 0) (constMatrix 0) (constMatrix 0) (constMatrix 0)).size = 2 * 2 ∧
    (∀ x y, cover (adaptive_sampler.ctor 2 0 3 4 0 (1 / 100) 1 (constMatrix 0) (constMatrix 0)
        (constMatrix 0) (constMatrix 0) (constMatrix 0) (constMatrix 0)).pixel_chunks x y = 0) ∧
    totalArea (adaptive_sampler.ctor 2 0 3 4 0 (1 / 100) 1 (constMatrix 0) (constMatrix 0)
        (constMatrix 0) (constMatrix 0) (constMatrix 0) (constMatrix 0)).pixel_chunks = 0) :=
  ⟨by decide, Or.inl rfl,
    C16_empty_image_constructed 2 0 3 4 0 (1 / 100) 1 (constMatrix 0) (constMatrix 0)
      (constMatrix 0) (constMatrix 0) (constMatrix 0) (constMatrix 0) (by decide) (Or.inl rfl)⟩

/-- The region of `convergedWithMinSize m` is flagged `erase`, the rest of the sampler is as
the constructor built it. -/
theorem convergedWithMinSize_eq (m : Int) :
    convergedWithMinSize m
      = withChunks (adaptive_sampler.ctor 1 4 4 4 0 (1 / 100) m (constMatrix 2) (constMatrix 0)
          (constMatrix 0) (constMatrix 1) (constMatrix 0) (constMatrix 0))
          [{ fullBlock4 with erase := true }] := by
  have hE : error_block sqrtQ (adaptive_sampler.ctor 1 4 4 4 0 (1 / 100) m (constMatrix 2)
      (constMatrix 0) (constMatrix 0) (constMatrix 1) (constMatrix 0) (constMatrix 0))
      1 4 0 4 0 = 0 :=
    error_block_zero_of_double sqrtQ _ 1 4 0 4 0
      (fun i j _ _ _ _ => by norm_num [adaptive_sampler.ctor, constMatrix])
      (fun i j _ _ _ _ => by simp [adaptive_sampler.ctor, constMatrix])
  unfold convergedWithMinSize
  rw [test_for_convergence_eq]
  show withChunks _ (modifyAt _ (initChunks 1 4 4) 0) = _
  rw [initChunks_one, modifyAt,
    tfcBlock_of_lt _ _ _ _ _ _ _ _
      (by rw [hE, Flt.zero_eq]; norm_num [adaptive_sampler.ctor]), hE]
  rfl

theorem convergedWithMinSize_after (m : Int) :
    (split_remove_chunks (convergedWithMinSize m) 1).pixel_chunks = [] ∧
    (convergedWithMinSize m).r 0 0 = 2 ∧
    (split_remove_chunks (convergedWithMinSize m) 1).r 0 0 = 1 := by
  have hdbg : (convergedWithMinSize m).debug_channel ≠ 5 := by
    rw [convergedWithMinSize_eq]
    show (0 : Int) ≠ 5
    decide
  have hch : (convergedWithMinSize m).pixel_chunks = [{ fullBlock4 with erase := true }] := by
    rw [convergedWithMinSize_eq]; rfl
  have hr : (convergedWithMinSize m).r 0 0 = 2 := by
    rw [convergedWithMinSize_eq]; rfl
  refine ⟨?_, hr, ?_⟩
  · rw [split_remove_chunks_chunks, hch]
    simp [splitOut]
  · rw [(split_remove_chunks_primary _ 1 hdbg 0 0).1, hr, hch]
    have hcov : cover (erasedChunks [{ fullBlock4 with erase := true }]) 0 0 = 1 := by
      simp [erasedChunks, cover, inBlock, fullBlock4]
    rw [hcov]
    norm_num

/-- C17, counterexample: with `min_adaptive_size = 0`, and likewise with
`min_adaptive_size = -1`, `split_remove_chunks` proceeds: the converged region of the 4x4
image is removed from the region set and the primary red entry of pixel `(0, 0)` is divided
from 2 to 1. -/
theorem C17_nonpositive_min_size_proceeds :
    ((convergedWithMinSize 0).min_adaptive_size = 0 ∧
      (convergedWithMinSize 0).pixel_chunks = [{ fullBlock4 with erase := true }] ∧
      (split_remove_chunks (convergedWithMinSize 0) 1).pixel_chunks = [] ∧
      (convergedWithMinSize 0).r 0 0 = 2 ∧
      (split_remove_chunks (convergedWithMinSize 0) 1).r 0 0 = 1) ∧
    ((convergedWithMinSize (-1)).min_adaptive_size = -1 ∧
      (convergedWithMinSize (-1)).pixel_chunks = [{ fullBlock4 with erase := true }] ∧
      (split_remove_chunks (convergedWithMinSize (-1)) 1).pixel_chunks = [] ∧
      (convergedWithMinSize (-1)).r 0 0 = 2 ∧
      (split_remove_chunks (convergedWithMinSize (-1)) 1).r 0 0 = 1) := by
  have h0 := convergedWithMinSize_after 0
  have h1 := convergedWithMinSize_after (-1)
  refine ⟨⟨?_, ?_, h0.1, h0.2.1, h0.2.2⟩, ⟨?_, ?_, h1.1, h1.2.1, h1.2.2⟩⟩
  · rw [convergedWithMinSize_eq]; rfl
  · rw [convergedWithMinSize_eq]; rfl
  · rw [convergedWithMinSize_eq]; rfl
  · rw [convergedWithMinSize_eq]; rfl

theorem flatMap_singletons (f : pixel_block → List pixel_block) (l : List pixel_block)
    (h : ∀ it, it ∈ l → f it = [it]) : l.flatMap f = l := by
  induction l with
  | nil => rfl
  | cons a l ih =>
    rw [List.flatMap_cons, h a (List.mem_cons_self a l),
      ih (fun it hit => h it (List.mem_cons_of_mem a hit))]
    rfl

/-- C17, as amended: `split_remove_chunks` makes no check of `min_adaptive_size` and has no
error path.  With `min_adaptive_size <= 0` it proceeds as for any other value: the regions
flagged `erase` are removed, the new region set is made from the other regions, and with debug
mode off every primary entry is divided by `s + 1` once for each erased region that holds the
pixel.  With `min_adaptive_size = 0` a region passes the size test exactly when its width and
height are both at least 1; with a negative `min_adaptive_size` (which the comparison converts
to a `size_t` of at least `2^63`) no region passes the size test, nothing is split, and the new
region set is the list of the regions not flagged `erase`.  Regions are taken with
`start <= end < 2^63` on both axes, and `min_adaptive_size >= -2^63` as for every `int`. -/
theorem C17_no_check_of_min_size (st : adaptive_sampler) (s : Nat)
    (hm : st.min_adaptive_size ≤ 0) (hm1 : -(2 ^ 63) ≤ st.min_adaptive_size)
    (hwf : ∀ it, it ∈ st.pixel_chunks →
      it.startx ≤ it.endx ∧ it.starty ≤ it.endy ∧ it.endx < 2 ^ 63) :
    (split_remove_chunks st s).pixel_chunks
      = (keptChunks st.pixel_chunks).flatMap (splitOut st.min_adaptive_size) ∧
    (∀ it, it ∈ (split_remove_chunks st s).pixel_chunks → it.erase = false) ∧
    (st.debug_channel ≠ 5 → ∀ x y,
      (split_remove_chunks st s).r x y
        = st.r x y / ((s + 1 : Nat) : ℚ) ^ cover (erasedChunks st.pixel_chunks) x y ∧
      (split_remove_chunks st s).g x y
        = st.g x y / ((s + 1 : Nat) : ℚ) ^ cover (erasedChunks st.pixel_chunks) x y ∧
      (split_remove_chunks st s).b x y
        = st.b x y / ((s + 1 : Nat) : ℚ) ^ cover (erasedChunks st.pixel_chunks) x y) ∧
    (st.min_adaptive_size = 0 → ∀ it, it ∈ st.pixel_chunks →
      (bigEnough st.min_adaptive_size it ↔ it.startx < it.endx ∧ it.starty < it.endy)) ∧
    (st.min_adaptive_size < 0 →
      (∀ it, it ∈ st.pixel_chunks → ¬ bigEnough st.min_adaptive_size it) ∧
      (split_remove_chunks st s).pixel_chunks = keptChunks st.pixel_chunks) := by
  have _ := hm
  have hout : (split_remove_chunks st s).pixel_chunks
      = (keptChunks st.pixel_chunks).flatMap (splitOut st.min_adaptive_size) := by
    rw [split_remove_chunks_chunks, flatMap_splitOut_kept]
  refine ⟨hout, split_remove_chunks_none_erased st s,
    fun hdbg x y => split_remove_chunks_primary st s hdbg x y, ?_, ?_⟩
  · intro h0 it hit
    obtain ⟨hx, hy, _⟩ := hwf it hit
    rw [h0, bigEnough_iff_plain 0 it (le_refl 0) (by norm_num) hx hy]
    omega
  · intro hneg
    have hnb : ∀ it, it ∈ st.pixel_chunks → ¬ bigEnough st.min_adaptive_size it := by
      intro it hit
      obtain ⟨hx, _, hex⟩ := hwf it hit
      exact not_bigEnough_of_negative _ it hneg hm1 hx hex
    refine ⟨hnb, ?_⟩
    rw [hout]
    apply flatMap_singletons
    intro it hit
    unfold keptChunks at hit
    obtain ⟨hit1, hit2⟩ := List.mem_filter.mp hit
    exact splitOut_of_kept _ it (by simpa using hit2) (Or.inr (hnb it hit1))

/-- Witness of C17 as amended: the converged 4x4 sampler built with
`min_adaptive_size = -1`, at `s = 1`. -/
theorem C17_no_check_of_min_size_witness :
    (convergedWithMinSize (-1)).min_adaptive_size ≤ 0 ∧
    -(2 ^ 63) ≤ (convergedWithMinSize (-1)).min_adaptive_size ∧
    (∀ it, it ∈ (convergedWithMinSize (-1)).pixel_chunks →
      it.startx ≤ it.endx ∧ it.starty ≤ it.endy ∧ it.endx < 2 ^ 63) ∧
    ((split_remove_chunks (convergedWithMinSize (-1)) 1).pixel_chunks
      = (keptChunks (convergedWithMinSize (-1)).pixel_chunks).flatMap
          (splitOut (convergedWithMinSize (-1)).min_adaptive_size) ∧
    (∀ it, it ∈ (split_remove_chunks (convergedWithMinSize (-1)) 1).pixel_chunks →
      it.erase = false) ∧
    ((convergedWithMinSize (-1)).debug_channel ≠ 5 → ∀ x y,
      (split_remove_chunks (convergedWithMinSize (-1)) 1).r x y
        = (convergedWithMinSize (-1)).r x y / ((1 + 1 : Nat) : ℚ)
            ^ cover (erasedChunks (convergedWithMinSize (-1)).pixel_chunks) x y ∧
      (split_remove_chunks (convergedWithMinSize (-1)) 1).g x y
        = (convergedWithMinSize (-1)).g x y / ((1 + 1 : Nat) : ℚ)
            ^ cover (erasedChunks (convergedWithMinSize (-1)).pixel_chunks) x y ∧
      (split_remove_chunks (convergedWithMinSize (-1)) 1).b x y
        = (convergedWithMinSize (-1)).b x y / ((1 + 1 : Nat) : ℚ)
            ^ cover (erasedChunks (convergedWithMinSize (-1)).pixel_chunks) x y) ∧
    ((convergedWithMinSize (-1)).min_adaptive_size = 0 →
      ∀ it, it ∈ (convergedWithMinSize (-1)).pixel_chunks →
      (bigEnough (convergedWithMinSize (-1)).min_adaptive_size it
        ↔ it.startx < it.endx ∧ it.starty < it.endy)) ∧
    ((convergedWithMinSize (-1)).min_adaptive_size < 0 →
      (∀ it, it ∈ (convergedWithMinSize (-1)).pixel_chunks →
        ¬ bigEnough (convergedWithMinSize (-1)).min_adaptive_size it) ∧
      (split_remove_chunks (convergedWithMinSize (-1)) 1).pixel_chunks
        = keptChunks (convergedWithMinSize (-1)).pixel_chunks)) :=
  have hm : (convergedWithMinSize (-1)).min_adaptive_size = -1 := by
    rw [convergedWithMinSize_eq]; rfl
  have hwf : ∀ it, it ∈ (convergedWithMinSize (-1)).pixel_chunks →
      it.startx ≤ it.endx ∧ it.starty ≤ it.endy ∧ it.endx < 2 ^ 63 := by
    intro it hit
    rw [convergedWithMinSize_eq] at hit
    have hit' : it = { fullBlock4 with erase := true } := List.mem_singleton.mp hit
    subst hit'
    simp [fullBlock4]
  ⟨by rw [hm]; decide, by rw [hm]; decide, hwf,
    C17_no_check_of_min_size (convergedWithMinSize (-1)) 1 (by rw [hm]; decide)
      (by rw [hm]; decide) hwf⟩

/-! ## Every pixel is divided once -/

/-- An accumulation call adds the same amount to a primary entry whatever the entry holds. -/
theorem applyAdd_shift (st st' : adaptive_sampler) (a : AddCall) (x y : Nat) :
    (applyAdd st a).r x y - st.r x y = (applyAdd st' a).r x y - st'.r x y ∧
    (applyAdd st a).g x y - st.g x y = (applyAdd st' a).g x y - st'.g x y ∧
    (applyAdd st a).b x y - st.b x y = (applyAdd st' a).b x y - st'.b x y := by
  cases a with
  | main i j color =>
    simp only [applyAdd, add_color_main, NumericMatrix.set]
    by_cases h : x = i ∧ y = j
    · simp only [if_pos h]
      obtain ⟨rfl, rfl⟩ := h
      exact ⟨by ring, by ring, by ring⟩
    · simp only [if_neg h]
      exact ⟨by ring, by ring, by ring⟩
  | sec i j color =>
    simp only [applyAdd, add_color_sec]
    exact ⟨by ring, by ring, by ring⟩

theorem accumulate_shift (adds : List AddCall) (st st' : adaptive_sampler) (x y : Nat) :
    (accumulate st adds).r x y - st.r x y = (accumulate st' adds).r x y - st'.r x y ∧
    (accumulate st adds).g x y - st.g x y = (accumulate st' adds).g x y - st'.g x y ∧
    (accumulate st adds).b x y - st.b x y = (accumulate st' adds).b x y - st'.b x y := by
  unfold accumulate
  induction adds generalizing st st' with
  | nil => simp
  | cons a adds ih =>
    obtain ⟨h1, h2, h3⟩ := ih (applyAdd st a) (applyAdd st' a)
    obtain ⟨k1, k2, k3⟩ := applyAdd_shift st st' a x y
    simp only [List.foldl_cons]
    refine ⟨?_, ?_, ?_⟩
    · linarith
    · linarith
    · linarith

theorem accumulate_keeps_debug (st : adaptive_sampler) (adds : List AddCall) :
    (accumulate st adds).debug_channel = st.debug_channel ∧
    (accumulate st adds).ns = st.ns := by
  unfold accumulate
  induction adds generalizing st with
  | nil => exact ⟨rfl, rfl⟩
  | cons a adds ih =>
    obtain ⟨h1, h2⟩ := ih (applyAdd st a)
    rw [List.foldl_cons]
    cases a <;> exact ⟨h1, h2⟩

theorem round_keeps_debug (sqrtF : ℚ → ℚ) (st : adaptive_sampler) (rd : Round) :
    (round sqrtF st rd).debug_channel = st.debug_channel ∧
    (round sqrtF st rd).ns = st.ns := by
  obtain ⟨a1, a2⟩ := accumulate_keeps_debug st rd.adds
  unfold round split_remove_chunks
  obtain ⟨_, _, h3, _, h5, _⟩ :=
    (splitFold_effect rd.s (classifyAll sqrtF (accumulate st rd.adds) rd.s).pixel_chunks
      (classifyAll sqrtF (accumulate st rd.adds) rd.s, [])).2.1
  rw [classifyAll_eq] at h3 h5
  exact ⟨by rw [classifyAll_eq]; exact h5.trans a1, by rw [classifyAll_eq]; exact h3.trans a2⟩

theorem run_keeps_debug (sqrtF : ℚ → ℚ) (rounds : List Round) (st : adaptive_sampler) :
    (run sqrtF st rounds).debug_channel = st.debug_channel ∧
    (run sqrtF st rounds).ns = st.ns := by
  unfold run
  induction rounds generalizing st with
  | nil => exact ⟨rfl, rfl⟩
  | cons rd rounds ih =>
    obtain ⟨h1, h2⟩ := round_keeps_debug sqrtF st rd
    obtain ⟨i1, i2⟩ := ih (round sqrtF st rd)
    exact ⟨i1.trans h1, i2.trans h2⟩

/-- With the debug channel off, a round leaves in a primary entry the accumulated value divided
by `s + 1` once for every region holding the pixel that the round flags `erase`. -/
theorem round_primary (sqrtF : ℚ → ℚ) (st : adaptive_sampler) (rd : Round)
    (hdbg : st.debug_channel ≠ 5) (x y : Nat) :
    (round sqrtF st rd).r x y = (accumulate st rd.adds).r x y / ((rd.s + 1 : Nat) : ℚ)
      ^ cover (erasedChunks (classifyAll sqrtF (accumulate st rd.adds) rd.s).pixel_chunks) x y ∧
    (round sqrtF st rd).g x y = (accumulate st rd.adds).g x y / ((rd.s + 1 : Nat) : ℚ)
      ^ cover (erasedChunks (classifyAll sqrtF (accumulate st rd.adds) rd.s).pixel_chunks) x y ∧
    (round sqrtF st rd).b x y = (accumulate st rd.adds).b x y / ((rd.s + 1 : Nat) : ℚ)
      ^ cover (erasedChunks (classifyAll sqrtF (accumulate st rd.adds) rd.s).pixel_chunks)
          x y := by
  have hd : (classifyAll sqrtF (accumulate st rd.adds) rd.s).debug_channel ≠ 5 := by
    rw [classifyAll_eq]
    show (accumulate st rd.adds).debug_channel ≠ 5
    rw [(accumulate_keeps_debug st rd.adds).1]
    exact hdbg
  obtain ⟨e1, e2, e3⟩ := split_remove_chunks_primary _ rd.s hd x y
  have hr : (classifyAll sqrtF (accumulate st rd.adds) rd.s).r = (accumulate st rd.adds).r := by
    rw [classifyAll_eq]; rfl
  have hg : (classifyAll sqrtF (accumulate st rd.adds) rd.s).g = (accumulate st rd.adds).g := by
    rw [classifyAll_eq]; rfl
  have hb : (classifyAll sqrtF (accumulate st rd.adds) rd.s).b = (accumulate st rd.adds).b := by
    rw [classifyAll_eq]; rfl
  rw [hr] at e1
  rw [hg] at e2
  rw [hb] at e3
  exact ⟨e1, e2, e3⟩

/-- A round takes out of the region set exactly the pixels of the regions it flags `erase`. -/
theorem round_cover (sqrtF : ℚ → ℚ) (hsqrt : ∀ q, 0 ≤ sqrtF q) (st : adaptive_sampler)
    (rd : Round) (h : partitionInv st) (x y : Nat) :
    cover (round sqrtF st rd).pixel_chunks x y
      + cover (erasedChunks (classifyAll sqrtF (accumulate st rd.adds) rd.s).pixel_chunks) x y
      = cover st.pixel_chunks x y ∧
    (round sqrtF st rd).div_count x y
      = st.div_count x y
        + cover (erasedChunks (classifyAll sqrtF (accumulate st rd.adds) rd.s).pixel_chunks)
            x y := by
  obtain ⟨⟨_, hI2'⟩, hnx, hny, _⟩ := round_keeps_inv sqrtF hsqrt st rd h
  have hI2 := h.2 x y
  have hI2'' := hI2' x y
  rw [hnx, hny] at hI2''
  have hdiv : (round sqrtF st rd).div_count x y
      = st.div_count x y
        + cover (erasedChunks (classifyAll sqrtF (accumulate st rd.adds) rd.s).pixel_chunks)
            x y := by
    unfold round
    rw [split_remove_chunks_div_count]
    congr 1
    rw [classifyAll_eq]
    show (accumulate st rd.adds).div_count x y = _
    rw [(accumulate_keeps st rd.adds).2.1]
  refine ⟨?_, hdiv⟩
  omega

theorem exists_erased_of_cover (chunks : List pixel_block) (x y : Nat)
    (h : 1 ≤ cover (erasedChunks chunks) x y) :
    ∃ it, it ∈ chunks ∧ it.erase = true ∧ inBlock it x y := by
  unfold cover at h
  obtain ⟨it, hit, hin⟩ := List.countP_pos_iff.mp h
  unfold erasedChunks at hit
  obtain ⟨h1, h2⟩ := List.mem_filter.mp hit
  exact ⟨it, h1, h2, by simpa using hin⟩

theorem rawRun_cons (st : adaptive_sampler) (rd : Round) (rounds : List Round) :
    rawRun st (rd :: rounds) = rawRun (accumulate st rd.adds) rounds := rfl

theorem run_cons (sqrtF : ℚ → ℚ) (st : adaptive_sampler) (rd : Round) (rounds : List Round) :
    run sqrtF st (rd :: rounds) = run sqrtF (round sqrtF st rd) rounds := rfl

/-- A pixel that lies in no region stays in no region, and the rounds change its primary
entries by the accumulation calls alone. -/
theorem run_after_division (sqrtF : ℚ → ℚ) (hsqrt : ∀ q, 0 ≤ sqrtF q) (x y : Nat)
    (rounds : List Round) (st raw : adaptive_sampler) (h : partitionInv st)
    (hdbg : st.debug_channel ≠ 5) (hcov : cover st.pixel_chunks x y = 0) :
    cover (run sqrtF st rounds).pixel_chunks x y = 0 ∧
    (run sqrtF st rounds).r x y - st.r x y = (rawRun raw rounds).r x y - raw.r x y ∧
    (run sqrtF st rounds).g x y - st.g x y = (rawRun raw rounds).g x y - raw.g x y ∧
    (run sqrtF st rounds).b x y - st.b x y = (rawRun raw rounds).b x y - raw.b x y := by
  induction rounds generalizing st raw with
  | nil => exact ⟨hcov, by simp [run, rawRun], by simp [run, rawRun], by simp [run, rawRun]⟩
  | cons rd rounds ih =>
    obtain ⟨hinv, _, _, _⟩ := round_keeps_inv sqrtF hsqrt st rd h
    obtain ⟨hc1, _⟩ := round_cover sqrtF hsqrt st rd h x y
    have hk : cover (erasedChunks
        (classifyAll sqrtF (accumulate st rd.adds) rd.s).pixel_chunks) x y = 0 := by omega
    have hc' : cover (round sqrtF st rd).pixel_chunks x y = 0 := by omega
    have hd' : (round sqrtF st rd).debug_channel ≠ 5 := by
      rw [(round_keeps_debug sqrtF st rd).1]; exact hdbg
    obtain ⟨i0, i1, i2, i3⟩ := ih (round sqrtF st rd) (accumulate raw rd.adds) hinv hd' hc'
    obtain ⟨p1, p2, p3⟩ := round_primary sqrtF st rd hdbg x y
    rw [hk, pow_zero, div_one] at p1 p2 p3
    obtain ⟨s1, s2, s3⟩ := accumulate_shift rd.adds st raw x y
    rw [run_cons, rawRun_cons]
    refine ⟨i0, ?_, ?_, ?_⟩
    · linarith
    · linarith
    · linarith

/-- The primary entries of a pixel along a run, started in a state in which the pixel lies in
one region and holds the undivided sums: either some round flags its region `erase` and
divides the sums accumulated so far by `s + 1`, after which the pixel lies in no region and
only accumulation calls change it; or no round does, and the pixel still lies in one region and
holds the undivided sums. -/
theorem run_pixel_value (sqrtF : ℚ → ℚ) (hsqrt : ∀ q, 0 ≤ sqrtF q) (x y : Nat)
    (rounds : List Round) (st raw : adaptive_sampler) (h : partitionInv st)
    (hdbg : st.debug_channel ≠ 5) (hcov : cover st.pixel_chunks x y = 1)
    (hr : st.r x y = raw.r x y) (hg : st.g x y = raw.g x y) (hb : st.b x y = raw.b x y) :
    (∃ pre rd post, rounds = pre ++ rd :: post ∧
      (∃ it, it ∈ (classifyAll sqrtF (accumulate (run sqrtF st pre) rd.adds) rd.s).pixel_chunks ∧
        it.erase = true ∧ inBlock it x y) ∧
      cover (run sqrtF st rounds).pixel_chunks x y = 0 ∧
      (run sqrtF st rounds).r x y
        = (rawRun raw (pre ++ [rd])).r x y / ((rd.s + 1 : Nat) : ℚ)
          + ((rawRun raw rounds).r x y - (rawRun raw (pre ++ [rd])).r x y) ∧
      (run sqrtF st rounds).g x y
        = (rawRun raw (pre ++ [rd])).g x y / ((rd.s + 1 : Nat) : ℚ)
          + ((rawRun raw rounds).g x y - (rawRun raw (pre ++ [rd])).g x y) ∧
      (run sqrtF st rounds).b x y
        = (rawRun raw (pre ++ [rd])).b x y / ((rd.s + 1 : Nat) : ℚ)
          + ((rawRun raw rounds).b x y - (rawRun raw (pre ++ [rd])).b x y)) ∨
    (cover (run sqrtF st rounds).pixel_chunks x y = 1 ∧
      (run sqrtF st rounds).r x y = (rawRun raw rounds).r x y ∧
      (run sqrtF st rounds).g x y = (rawRun raw rounds).g x y ∧
      (run sqrtF st rounds).b x y = (rawRun raw rounds).b x y) := by
  induction rounds generalizing st raw with
  | nil => exact Or.inr ⟨hcov, hr, hg, hb⟩
  | cons rd rounds ih =>
    obtain ⟨hinv, _, _, _⟩ := round_keeps_inv sqrtF hsqrt st rd h
    obtain ⟨hc1, _⟩ := round_cover sqrtF hsqrt st rd h x y
    have hd' : (round sqrtF st rd).debug_channel ≠ 5 := by
      rw [(round_keeps_debug sqrtF st rd).1]; exact hdbg
    obtain ⟨p1, p2, p3⟩ := round_primary sqrtF st rd hdbg x y
    obtain ⟨s1, s2, s3⟩ := accumulate_shift rd.adds st raw x y
    have a1 : (accumulate st rd.adds).r x y = (accumulate raw rd.adds).r x y := by linarith
    have a2 : (accumulate st rd.adds).g x y = (accumulate raw rd.adds).g x y := by linarith
    have a3 : (accumulate st rd.adds).b x y = (accumulate raw rd.adds).b x y := by linarith
    by_cases hk : cover (erasedChunks
        (classifyAll sqrtF (accumulate st rd.adds) rd.s).pixel_chunks) x y = 0
    · have hc' : cover (round sqrtF st rd).pixel_chunks x y = 1 := by omega
      rw [hk, pow_zero, div_one] at p1 p2 p3
      rcases ih (round sqrtF st rd) (accumulate raw rd.adds) hinv hd' hc'
        (p1.trans a1) (p2.trans a2) (p3.trans a3) with
        ⟨pre, rd', post, hsplit, her, hc0, v1, v2, v3⟩ | ⟨hc1', v1, v2, v3⟩
      · left
        refine ⟨rd :: pre, rd', post, by rw [hsplit]; rfl, her, hc0, ?_, ?_, ?_⟩
        · rw [run_cons, rawRun_cons]; exact v1
        · rw [run_cons, rawRun_cons]; exact v2
        · rw [run_cons, rawRun_cons]; exact v3
      · right
        exact ⟨hc1', v1, v2, v3⟩
    · have hk1 : cover (erasedChunks
          (classifyAll sqrtF (accumulate st rd.adds) rd.s).pixel_chunks) x y = 1 := by omega
      have hc' : cover (round sqrtF st rd).pixel_chunks x y = 0 := by omega
      rw [hk1, pow_one] at p1 p2 p3
      obtain ⟨i0, i1, i2, i3⟩ := run_after_division sqrtF hsqrt x y rounds (round sqrtF st rd)
        (accumulate raw rd.adds) hinv hd' hc'
      left
      refine ⟨[], rd, rounds, rfl,
        exists_erased_of_cover _ x y (le_of_eq hk1.symm), i0, ?_, ?_, ?_⟩
      · show (run sqrtF (round sqrtF st rd) rounds).r x y
          = (accumulate raw rd.adds).r x y / _
            + ((rawRun (accumulate raw rd.adds) rounds).r x y - (accumulate raw rd.adds).r x y)
        rw [← a1, ← p1]; linarith
      · show (run sqrtF (round sqrtF st rd) rounds).g x y
          = (accumulate raw rd.adds).g x y / _
            + ((rawRun (accumulate raw rd.adds) rounds).g x y - (accumulate raw rd.adds).g x y)
        rw [← a2, ← p2]; linarith
      · show (run sqrtF (round sqrtF st rd) rounds).b x y
          = (accumulate raw rd.adds).b x y / _
            + ((rawRun (accumulate raw rd.adds) rounds).b x y - (accumulate raw rd.adds).b x y)
        rw [← a3, ← p3]; linarith

/-- C4: in every run from the constructor (`core_count >= 1`) through any number of rounds to
one call of `write_final_pixels`, every pixel of the image has its primary entries divided by a
sample count exactly once.  The division count after the rounds counts the divisions made by
`split_remove_chunks`, the number of remaining regions containing the pixel counts those made
by `write_final_pixels`; exactly one of the two is 1 and the other 0.  With the debug channel
off and `ns >= 1` the final primary entries show that one division: either one round flagged the region of
the pixel `erase`, the final entry is the sum of the colours accumulated up to that round
divided by `s + 1`, plus whatever was accumulated later, and the pixel lies in no region when
`write_final_pixels` runs; or the pixel lies in one region then, and the final entry is the sum
of all accumulated colours divided by `ns`. -/
theorem C4_every_pixel_divided_once (sqrtF : ℚ → ℚ) (hsqrt : ∀ q, 0 ≤ sqrtF q)
    (numbercores nx ny ns : Nat) (debug_channel : Int)
    (min_variance : ℚ) (min_adaptive_size : Int) (r g b r2 g2 b2 : NumericMatrix)
    (hc : 1 ≤ numbercores) (rounds : List Round) (_hs : ∀ rd, rd ∈ rounds → 1 ≤ rd.s)
    (x y : Nat) (hx : x < nx) (hy : y < ny) (st0 : adaptive_sampler)
    (hst0 : st0 = adaptive_sampler.ctor numbercores nx ny ns debug_channel min_variance
      min_adaptive_size r g b r2 g2 b2) :
    (write_final_pixels (run sqrtF st0 rounds)).div_count x y = 1 ∧
    (write_final_pixels (run sqrtF st0 rounds)).div_count x y
      = (run sqrtF st0 rounds).div_count x y + cover (run sqrtF st0 rounds).pixel_chunks x y ∧
    (((run sqrtF st0 rounds).div_count x y = 1 ∧
        cover (run sqrtF st0 rounds).pixel_chunks x y = 0) ∨
      ((run sqrtF st0 rounds).div_count x y = 0 ∧
        cover (run sqrtF st0 rounds).pixel_chunks x y = 1)) ∧
    (debug_channel ≠ 5 → 1 ≤ ns →
      ((∃ pre rd post, rounds = pre ++ rd :: post ∧
          (∃ it, it ∈ (classifyAll sqrtF (accumulate (run sqrtF st0 pre) rd.adds)
              rd.s).pixel_chunks ∧ it.erase = true ∧ inBlock it x y) ∧
          cover (run sqrtF st0 rounds).pixel_chunks x y = 0 ∧
          (write_final_pixels (run sqrtF st0 rounds)).r x y
            = (rawRun st0 (pre ++ [rd])).r x y / ((rd.s + 1 : Nat) : ℚ)
              + ((rawRun st0 rounds).r x y - (rawRun st0 (pre ++ [rd])).r x y) ∧
          (write_final_pixels (run sqrtF st0 rounds)).g x y
            = (rawRun st0 (pre ++ [rd])).g x y / ((rd.s + 1 : Nat) : ℚ)
              + ((rawRun st0 rounds).g x y - (rawRun st0 (pre ++ [rd])).g x y) ∧
          (write_final_pixels (run sqrtF st0 rounds)).b x y
            = (rawRun st0 (pre ++ [rd])).b x y / ((rd.s + 1 : Nat) : ℚ)
              + ((rawRun st0 rounds).b x y - (rawRun st0 (pre ++ [rd])).b x y)) ∨
        (cover (run sqrtF st0 rounds).pixel_chunks x y = 1 ∧
          (write_final_pixels (run sqrtF st0 rounds)).r x y
            = (rawRun st0 rounds).r x y / (ns : ℚ) ∧
          (write_final_pixels (run sqrtF st0 rounds)).g x y
            = (rawRun st0 rounds).g x y / (ns : ℚ) ∧
          (write_final_pixels (run sqrtF st0 rounds)).b x y
            = (rawRun st0 rounds).b x y / (ns : ℚ)))) := by
  subst hst0
  have hinv0 := ctor_inv numbercores nx ny ns debug_channel min_variance min_adaptive_size
    r g b r2 g2 b2 hc
  obtain ⟨⟨_, hI2⟩, hnx, hny⟩ := run_keeps_inv sqrtF hsqrt rounds _ hinv0
  have h := hI2 x y
  have hnx' : (run sqrtF (adaptive_sampler.ctor numbercores nx ny ns debug_channel
      min_variance min_adaptive_size r g b r2 g2 b2) rounds).nx = nx := hnx
  have hny' : (run sqrtF (adaptive_sampler.ctor numbercores nx ny ns debug_channel
      min_variance min_adaptive_size r g b r2 g2 b2) rounds).ny = ny := hny
  rw [hnx', hny', if_pos ⟨hx, hy⟩] at h
  refine ⟨?_, ?_, ?_, ?_⟩
  · rw [write_final_pixels_div_count]; omega
  · rw [write_final_pixels_div_count]
  · omega
  · intro hdbg _
    have hcov0 : cover (adaptive_sampler.ctor numbercores nx ny ns debug_channel
        min_variance min_adaptive_size r g b r2 g2 b2).pixel_chunks x y = 1 := by
      show cover (initChunks numbercores nx ny) x y = 1
      rw [cover_initChunks numbercores nx ny x y hc, if_pos ⟨hx, hy⟩]
    obtain ⟨d1, d2⟩ := run_keeps_debug sqrtF rounds (adaptive_sampler.ctor numbercores nx ny ns
      debug_channel min_variance min_adaptive_size r g b r2 g2 b2)
    have hd : (run sqrtF (adaptive_sampler.ctor numbercores nx ny ns debug_channel
        min_variance min_adaptive_size r g b r2 g2 b2) rounds).debug_channel ≠ 5 := by
      rw [d1]; exact hdbg
    have hns : (run sqrtF (adaptive_sampler.ctor numbercores nx ny ns debug_channel
        min_variance min_adaptive_size r g b r2 g2 b2) rounds).ns = ns := d2
    obtain ⟨f1, f2, f3⟩ := write_final_pixels_primary _ hd x y
    rw [hns] at f1 f2 f3
    rcases run_pixel_value sqrtF hsqrt x y rounds _ (adaptive_sampler.ctor numbercores nx ny ns
        debug_channel min_variance min_adaptive_size r g b r2 g2 b2) hinv0 hdbg hcov0 rfl rfl rfl
      with ⟨pre, rd, post, hsplit, her, hc0, v1, v2, v3⟩ | ⟨hc1, v1, v2, v3⟩
    · left
      rw [hc0, pow_zero, div_one] at f1 f2 f3
      exact ⟨pre, rd, post, hsplit, her, hc0, f1.trans v1, f2.trans v2, f3.trans v3⟩
    · right
      rw [hc1, pow_one] at f1 f2 f3
      exact ⟨hc1, by rw [f1, v1], by rw [f2, v2], by rw [f3, v3]⟩

/-- Witness of C4: pixel `(0, 0)` after one round at `s = 1` on the 4x4 image with the noise in
column 0. -/
theorem C4_every_pixel_divided_once_witness :
    (∀ q, 0 ≤ sqrtQ q) ∧ 1 ≤ 1 ∧ (∀ rd, rd ∈ [Round.mk [] 1] → 1 ≤ rd.s) ∧ 0 < 4 ∧ 0 < 4 ∧
    sampler4 column0Matrix (constMatrix 0)
      = adaptive_sampler.ctor 1 4 4 4 0 (1 / 100) 1 column0Matrix (constMatrix 0)
          (constMatrix 0) (constMatrix 0) (constMatrix 0) (constMatrix 0) ∧
    (write_final_pixels (run sqrtQ (sampler4 column0Matrix (constMatrix 0))
      [Round.mk [] 1])).div_count 0 0 = 1 ∧
    (write_final_pixels (run sqrtQ (sampler4 column0Matrix (constMatrix 0))
        [Round.mk [] 1])).div_count 0 0
      = (run sqrtQ (sampler4 column0Matrix (constMatrix 0)) [Round.mk [] 1]).div_count 0 0
        + cover (run sqrtQ (sampler4 column0Matrix (constMatrix 0))
            [Round.mk [] 1]).pixel_chunks 0 0 ∧
    (((run sqrtQ (sampler4 column0Matrix (constMatrix 0)) [Round.mk [] 1]).div_count 0 0 = 1 ∧
        cover (run sqrtQ (sampler4 column0Matrix (constMatrix 0))
          [Round.mk [] 1]).pixel_chunks 0 0 = 0) ∨
      ((run sqrtQ (sampler4 column0Matrix (constMatrix 0)) [Round.mk [] 1]).div_count 0 0 = 0 ∧
        cover (run sqrtQ (sampler4 column0Matrix (constMatrix 0))
          [Round.mk [] 1]).pixel_chunks 0 0 = 1)) ∧
    ((0 : Int) ≠ 5 → 1 ≤ 4 →
      ((∃ pre rd post, [Round.mk [] 1] = pre ++ rd :: post ∧
          (∃ it, it ∈ (classifyAll sqrtQ (accumulate (run sqrtQ
              (sampler4 column0Matrix (constMatrix 0)) pre) rd.adds)
              rd.s).pixel_chunks ∧ it.erase = true ∧ inBlock it 0 0) ∧
          cover (run sqrtQ (sampler4 column0Matrix (constMatrix 0))
            [Round.mk [] 1]).pixel_chunks 0 0 = 0 ∧
          (write_final_pixels (run sqrtQ (sampler4 column0Matrix (constMatrix 0))
              [Round.mk [] 1])).r 0 0
            = (rawRun (sampler4 column0Matrix (constMatrix 0)) (pre ++ [rd])).r 0 0
                / ((rd.s + 1 : Nat) : ℚ)
              + ((rawRun (sampler4 column0Matrix (constMatrix 0)) [Round.mk [] 1]).r 0 0
                - (rawRun (sampler4 column0Matrix (constMatrix 0)) (pre ++ [rd])).r 0 0) ∧
          (write_final_pixels (run sqrtQ (sampler4 column0Matrix (constMatrix 0))
              [Round.mk [] 1])).g 0 0
            = (rawRun (sampler4 column0Matrix (constMatrix 0)) (pre ++ [rd])).g 0 0
                / ((rd.s + 1 : Nat) : ℚ)
              + ((rawRun (sampler4 column0Matrix (constMatrix 0)) [Round.mk [] 1]).g 0 0
                - (rawRun (sampler4 column0Matrix (constMatrix 0)) (pre ++ [rd])).g 0 0) ∧
          (write_final_pixels (run sqrtQ (sampler4 column0Matrix (constMatrix 0))
              [Round.mk [] 1])).b 0 0
            = (rawRun (sampler4 column0Matrix (constMatrix 0)) (pre ++ [rd])).b 0 0
                / ((rd.s + 1 : Nat) : ℚ)
              + ((rawRun (sampler4 column0Matrix (constMatrix 0)) [Round.mk [] 1]).b 0 0
                - (rawRun (sampler4 column0Matrix (constMatrix 0)) (pre ++ [rd])).b 0 0)) ∨
        (cover (run sqrtQ (sampler4 column0Matrix (constMatrix 0))
            [Round.mk [] 1]).pixel_chunks 0 0 = 1 ∧
          (write_final_pixels (run sqrtQ (sampler4 column0Matrix (constMatrix 0))
              [Round.mk [] 1])).r 0 0
            = (rawRun (sampler4 column0Matrix (constMatrix 0)) [Round.mk [] 1]).r 0 0
              / ((4 : Nat) : ℚ) ∧
          (write_final_pixels (run sqrtQ (sampler4 column0Matrix (constMatrix 0))
              [Round.mk [] 1])).g 0 0
            = (rawRun (sampler4 column0Matrix (constMatrix 0)) [Round.mk [] 1]).g 0 0
              / ((4 : Nat) : ℚ) ∧
          (write_final_pixels (run sqrtQ (sampler4 column0Matrix (constMatrix 0))
              [Round.mk [] 1])).b 0 0
            = (rawRun (sampler4 column0Matrix (constMatrix 0)) [Round.mk [] 1]).b 0 0
              / ((4 : Nat) : ℚ)))) :=
  ⟨sqrtQ_nonneg, le_refl 1, by simp, by decide, by decide, rfl,
    C4_every_pixel_divided_once sqrtQ sqrtQ_nonneg 1 4 4 4 0 (1 / 100) 1 column0Matrix
      (constMatrix 0) (constMatrix 0) (constMatrix 0) (constMatrix 0) (constMatrix 0)
      (le_refl 1) [Round.mk [] 1] (by simp) 0 0 (by decide) (by decide)
      (sampler4 column0Matrix (constMatrix 0)) rfl⟩

end Rayrender
